import Mathlib

/-!
Verification of the module-tree resolver and workspace-to-crate-graph
projector of this repository against its specification.

The development shallowly embeds two source files:
  crates/ra_project_model/src/lib.rs      (workspace discovery, crate graph)
  crates/ra_analysis/src/descriptors/module/imp.rs  (module tree builder)

Filesystem paths are modelled as lists of components; the filesystem itself
is an injected predicate saying which paths exist, mirroring the fact that
all I O in the source is mediated by injected interfaces.
-/

namespace RaSpec

/-- A filesystem path, as its list of components (root first). -/
abbrev Path := List String

/-- The textual rendering of a path, as used in error messages. -/
def pathDisplay (p : Path) : String :=
  String.intercalate "/" p

/-- Embeds Rust `Path::parent`: drop the last component; the empty path has
no parent. -/
def parentPath (p : Path) : Option Path :=
  if p.isEmpty then none else some p.dropLast

/-- The chain of ancestors of a path starting at the path itself and ending
with the empty path, computed on the reversed component list so that the
recursion is structural. -/
def ancestorsRev : List String → List (List String)
  | [] => [[]]
  | c :: rest => (c :: rest).reverse :: ancestorsRev rest

/-- All ancestors of `p` (including `p` itself), outermost last.  This is the
sequence of values taken by `curr` in the upward-walking loops of
`find_rust_project_json` and `find_cargo_toml`. -/
def ancestors (p : Path) : List Path :=
  ancestorsRev p.reverse

/-- The upward-walking loop shared by `find_rust_project_json` and
`find_cargo_toml` in crates/ra_project_model/src/lib.rs: starting from `p`,
join the manifest name onto each ancestor in turn and return the first
candidate that exists. -/
def manifestSearch (fs : Path → Bool) (manifest : String) (p : Path) : Option Path :=
  (ancestors p).findSome? (fun q =>
    if fs (q ++ [manifest]) then some (q ++ [manifest]) else none)

/-- Embeds `find_rust_project_json` (lib.rs lines 292-307): if the given path
already ends with the manifest file name it is returned as is (no existence
check); otherwise walk upward looking for an existing `rust-project.json`. -/
def find_rust_project_json (fs : Path → Bool) (path : Path) : Option Path :=
  if path.getLast? = some "rust-project.json" then some path
  else manifestSearch fs "rust-project.json" path

/-- Embeds `find_cargo_toml` (lib.rs lines 309-322).  The error string of the
source contains an apostrophe in its first word; it is rendered here without
it. -/
def find_cargo_toml (fs : Path → Bool) (path : Path) : Except String Path :=
  if path.getLast? = some "Cargo.toml" then Except.ok path
  else
    match manifestSearch fs "Cargo.toml" path with
    | some candidate => Except.ok candidate
    | none => Except.error ("cant find Cargo.toml at " ++ pathDisplay path)

/-- The outcome of `ProjectWorkspace::discover`, reduced to which manifest
was selected.  Opening and parsing the selected manifest (and running the
package manager and sysroot discovery) are effects of external collaborators
and are abstracted away. -/
inductive WorkspaceChoice
  | json (manifest : Path)
  | cargo (manifest : Path)
  deriving DecidableEq, Repr

/-- Embeds `ProjectWorkspace::discover` (lib.rs lines 104-119): first search
for `rust-project.json`; only when that fails search for `Cargo.toml`. -/
def discover (fs : Path → Bool) (path : Path) : Except String WorkspaceChoice :=
  match find_rust_project_json fs path with
  | some json_path => Except.ok (WorkspaceChoice.json json_path)
  | none =>
    match find_cargo_toml fs path with
    | Except.ok cargo_toml => Except.ok (WorkspaceChoice.cargo cargo_toml)
    | Except.error e => Except.error e

/-- The discovery algorithm exactly as claim C1 states it: first walk upward
seeking `Cargo.toml`; only if none is found walk upward seeking
`rust-project.json`; if neither is found, fail. -/
def discoverClaimed (fs : Path → Bool) (path : Path) : Except String WorkspaceChoice :=
  match find_cargo_toml fs path with
  | Except.ok cargo_toml => Except.ok (WorkspaceChoice.cargo cargo_toml)
  | Except.error e =>
    match find_rust_project_json fs path with
    | some json_path => Except.ok (WorkspaceChoice.json json_path)
    | none => Except.error e

/-- A filesystem in which every path exists. -/
def fsAll : Path → Bool := fun _ => true

/-- A filesystem in which no path exists. -/
def fsNone : Path → Bool := fun _ => false

/-- The walk starting at `p` finds a manifest named `m`: either `p` already
ends with `m`, or some ancestor directory contains a file named `m`. -/
def manifestFound (fs : Path → Bool) (m : String) (p : Path) : Prop :=
  p.getLast? = some m ∨ ∃ a ∈ ancestors p, fs (a ++ [m]) = true

lemma findSome?_manifest_isSome (fs : Path → Bool) (m : String) (l : List Path) :
    (l.findSome? fun q =>
        if fs (q ++ [m]) then some (q ++ [m]) else none).isSome = true ↔
      ∃ a ∈ l, fs (a ++ [m]) = true := by
  induction l with
  | nil => simp [List.findSome?]
  | cons a t ih =>
    by_cases h : fs (a ++ [m]) = true
    · simp [List.findSome?, h]
    · simp [List.findSome?, h, ih]

lemma manifestSearch_isSome_iff (fs : Path → Bool) (m : String) (p : Path) :
    (manifestSearch fs m p).isSome = true ↔ ∃ a ∈ ancestors p, fs (a ++ [m]) = true := by
  unfold manifestSearch
  exact findSome?_manifest_isSome fs m (ancestors p)

lemma find_rust_project_json_isSome_iff (fs : Path → Bool) (p : Path) :
    (find_rust_project_json fs p).isSome = true ↔ manifestFound fs "rust-project.json" p := by
  unfold find_rust_project_json manifestFound
  by_cases h : p.getLast? = some "rust-project.json"
  · simp [h]
  · simp [h, manifestSearch_isSome_iff]

lemma find_rust_project_json_eq_none_iff (fs : Path → Bool) (p : Path) :
    find_rust_project_json fs p = none ↔ ¬ manifestFound fs "rust-project.json" p := by
  rw [← find_rust_project_json_isSome_iff]
  cases find_rust_project_json fs p <;> simp

lemma find_cargo_toml_ok_iff (fs : Path → Bool) (p : Path) :
    (∃ c, find_cargo_toml fs p = Except.ok c) ↔ manifestFound fs "Cargo.toml" p := by
  unfold find_cargo_toml manifestFound
  by_cases h : p.getLast? = some "Cargo.toml"
  · simp [h]
  · simp only [h, if_false, false_or]
    rw [← manifestSearch_isSome_iff fs "Cargo.toml" p]
    cases manifestSearch fs "Cargo.toml" p <;> simp

lemma find_cargo_toml_error_iff (fs : Path → Bool) (p : Path) :
    find_cargo_toml fs p = Except.error ("cant find Cargo.toml at " ++ pathDisplay p) ↔
      ¬ manifestFound fs "Cargo.toml" p := by
  rw [← find_cargo_toml_ok_iff]
  unfold find_cargo_toml
  by_cases h : p.getLast? = some "Cargo.toml"
  · simp [h]
  · simp only [h, if_false]
    cases manifestSearch fs "Cargo.toml" p <;> simp

/-- C1 (counterexample): on a filesystem where both `rust-project.json` and
`Cargo.toml` exist next to the starting path, the code selects the
`rust-project.json` workspace, while the claimed algorithm (Cargo.toml
first) would select the Cargo workspace. -/
theorem claim_C1_counterexample :
    discover fsAll ["proj"] =
        Except.ok (WorkspaceChoice.json ["proj", "rust-project.json"]) ∧
      discoverClaimed fsAll ["proj"] =
        Except.ok (WorkspaceChoice.cargo ["proj", "Cargo.toml"]) ∧
      discover fsAll ["proj"] ≠ discoverClaimed fsAll ["proj"] := by
  refine ⟨rfl, rfl, ?_⟩
  intro h
  have h2 : (Except.ok (WorkspaceChoice.json ["proj", "rust-project.json"]) :
      Except String WorkspaceChoice) =
      Except.ok (WorkspaceChoice.cargo ["proj", "Cargo.toml"]) := h
  simp at h2

/-- C1 (amended): workspace discovery first walks upward from the
user-supplied path seeking `rust-project.json`; only if no
`rust-project.json` is found does it walk upward seeking `Cargo.toml`; if
neither is found it fails with a message that names the starting path. -/
theorem claim_C1_discover_search_order (fs : Path → Bool) (p : Path) :
    ((∃ j, discover fs p = Except.ok (WorkspaceChoice.json j)) ↔
        manifestFound fs "rust-project.json" p) ∧
      ((∃ c, discover fs p = Except.ok (WorkspaceChoice.cargo c)) ↔
        (¬ manifestFound fs "rust-project.json" p ∧ manifestFound fs "Cargo.toml" p)) ∧
      (discover fs p = Except.error ("cant find Cargo.toml at " ++ pathDisplay p) ↔
        (¬ manifestFound fs "rust-project.json" p ∧ ¬ manifestFound fs "Cargo.toml" p)) := by
  unfold discover
  rcases hj : find_rust_project_json fs p with _ | j
  · rw [find_rust_project_json_eq_none_iff] at hj
    rcases hc : find_cargo_toml fs p with e | c
    · have he : ¬ manifestFound fs "Cargo.toml" p := by
        intro hm
        rcases (find_cargo_toml_ok_iff fs p).2 hm with ⟨c, hc2⟩
        rw [hc] at hc2
        exact Except.noConfusion hc2
      have hmsg : e = "cant find Cargo.toml at " ++ pathDisplay p := by
        have h2 := (find_cargo_toml_error_iff fs p).2 he
        rw [hc] at h2
        injection h2
      subst hmsg
      simp [hj, he]
    · have hcf : manifestFound fs "Cargo.toml" p :=
        (find_cargo_toml_ok_iff fs p).1 ⟨c, hc⟩
      simp [hj, hcf]
  · have hf : manifestFound fs "rust-project.json" p := by
      rw [← find_rust_project_json_isSome_iff, hj]
      rfl
    simp [hf]

/-- C9: if the starting path itself ends with the manifest file name, the
corresponding search returns that very path at once, for every filesystem —
in particular without checking that the file exists and without walking
upward. -/
theorem claim_C9_ends_with_short_circuit (fs : Path → Bool) (p : Path) :
    (p.getLast? = some "rust-project.json" → find_rust_project_json fs p = some p) ∧
      (p.getLast? = some "Cargo.toml" → find_cargo_toml fs p = Except.ok p) := by
  constructor
  · intro h
    unfold find_rust_project_json
    rw [if_pos h]
  · intro h
    unfold find_cargo_toml
    rw [if_pos h]

/-- Witness for C9, on a filesystem where nothing exists: the searches still
return the given manifest-ending paths. -/
theorem claim_C9_witness :
    find_rust_project_json fsNone ["a", "rust-project.json"] =
        some ["a", "rust-project.json"] ∧
      find_cargo_toml fsNone ["b", "Cargo.toml"] = Except.ok ["b", "Cargo.toml"] :=
  ⟨(claim_C9_ends_with_short_circuit fsNone ["a", "rust-project.json"]).1 (by decide),
   (claim_C9_ends_with_short_circuit fsNone ["b", "Cargo.toml"]).2 (by decide)⟩

/-! ## Module tree builder (crates/ra_analysis/src/descriptors/module/imp.rs) -/

/-- Opaque identifier for a file known to the engine. -/
abbrev FileId := Nat

/-- A relative path, kept as its textual form (`RelativePathBuf`). -/
abbrev RelPath := String

/-- The `FileResolverImp` interface consumed by the builder: expose a file's
stem and resolve a relative path against an anchor file. -/
structure FileResolverImp where
  file_stem : FileId → String
  resolve : FileId → RelPath → Option FileId

/-- Modelled from the spec: the `Problem` diagnostic attached to a link,
with its two variants `UnresolvedModule` and `NotDirOwner` (the type itself
is declared outside the available sources; its variants and fields are as
the spec describes them and as `resolve_submodule` constructs them). -/
inductive Problem
  | unresolvedModule (candidate : RelPath)
  | notDirOwner (move_to : RelPath) (candidate : RelPath)
  deriving DecidableEq, Repr

/-- Embeds `resolve_submodule` (imp.rs lines 146-178). -/
def resolve_submodule (file_id : FileId) (name : String)
    (file_resolver : FileResolverImp) : List FileId × Option Problem :=
  let mod_name := file_resolver.file_stem file_id
  let is_dir_owner := mod_name == "mod" || mod_name == "lib" || mod_name == "main"
  let file_mod : RelPath := "../" ++ name ++ ".rs"
  let dir_mod : RelPath := "../" ++ name ++ "/mod.rs"
  if is_dir_owner then
    let points_to :=
      [file_mod, dir_mod].filterMap (fun path => file_resolver.resolve file_id path)
    let problem : Option Problem :=
      if points_to.isEmpty then some (Problem.unresolvedModule file_mod) else none
    (points_to, problem)
  else
    ([], some (Problem.notDirOwner ("../" ++ mod_name ++ "/mod.rs") file_mod))

/-- The submodule-resolution rule exactly as claim C3 states it, written as
a case analysis on the two resolution attempts. -/
def resolveSubmoduleSpec (file_id : FileId) (name : String)
    (file_resolver : FileResolverImp) : List FileId × Option Problem :=
  let stem := file_resolver.file_stem file_id
  if stem = "mod" ∨ stem = "lib" ∨ stem = "main" then
    match file_resolver.resolve file_id ("../" ++ name ++ ".rs"),
        file_resolver.resolve file_id ("../" ++ name ++ "/mod.rs") with
    | some a, some b => ([a, b], none)
    | some a, none => ([a], none)
    | none, some b => ([b], none)
    | none, none =>
      ([], some (Problem.unresolvedModule ("../" ++ name ++ ".rs")))
  else
    ([], some (Problem.notDirOwner ("../" ++ stem ++ "/mod.rs")
      ("../" ++ name ++ ".rs")))

lemma resolve_submodule_eq_spec (file_id : FileId) (name : String)
    (file_resolver : FileResolverImp) :
    resolve_submodule file_id name file_resolver =
      resolveSubmoduleSpec file_id name file_resolver := by
  unfold resolve_submodule resolveSubmoduleSpec
  by_cases h : file_resolver.file_stem file_id = "mod" ∨
      file_resolver.file_stem file_id = "lib" ∨
      file_resolver.file_stem file_id = "main"
  · have hb : (file_resolver.file_stem file_id == "mod" ||
        file_resolver.file_stem file_id == "lib" ||
        file_resolver.file_stem file_id == "main") = true := by
      rcases h with h | h | h <;> simp [h]
    simp only [hb, if_true, if_pos h]
    rcases h1 : file_resolver.resolve file_id ("../" ++ name ++ ".rs") with _ | a <;>
      rcases h2 : file_resolver.resolve file_id ("../" ++ name ++ "/mod.rs") with _ | b <;>
        simp [List.filterMap, h1, h2]
  · have hb : (file_resolver.file_stem file_id == "mod" ||
        file_resolver.file_stem file_id == "lib" ||
        file_resolver.file_stem file_id == "main") = false := by
      push_neg at h
      simp [h.1, h.2.1, h.2.2]
    simp [hb, if_neg h]

/-- C3: the submodule resolver returns, for a directory-owner anchor (stem
`mod`, `lib` or `main`), exactly the resolvable candidates among
`../name.rs` and `../name/mod.rs` in that order, with an
`UnresolvedModule` problem naming `../name.rs` exactly when both fail; for
any other anchor it returns no candidates and a `NotDirOwner` problem with
`move_to = ../stem/mod.rs` and `candidate = ../name.rs`. -/
theorem claim_C3_resolve_submodule (file_id : FileId) (name : String)
    (file_resolver : FileResolverImp) :
    resolve_submodule file_id name file_resolver =
      resolveSubmoduleSpec file_id name file_resolver :=
  resolve_submodule_eq_spec file_id name file_resolver

/-- Module ids: dense indices into the modules arena. -/
abbrev ModuleId := Nat

/-- Link ids: dense indices into the links arena. -/
abbrev LinkId := Nat

/-- Modelled from the spec: `ModuleSource` is a tagged variant, either a
whole file or an inline `mod name { ... }` block located by a node path
(the type is declared outside the available sources; this builder only ever
produces the `file` variant). -/
inductive ModuleSource
  | file (file_id : FileId)
  | inline (file_id : FileId) (node_path : Nat)
  deriving DecidableEq, Repr

/-- Modelled from the spec: one entry of the modules arena — its source,
optional parent link, and outgoing links. -/
structure ModuleData where
  source : ModuleSource
  parent : Option LinkId
  children : List LinkId
  deriving DecidableEq, Repr

/-- Modelled from the spec: one entry of the links arena — declared name,
owning module, resolved child modules, optional problem. -/
structure LinkData where
  name : String
  owner : ModuleId
  points_to : List ModuleId
  problem : Option Problem
  deriving DecidableEq, Repr

/-- Modelled from the spec: the two parallel arenas of the module tree. -/
structure ModuleTree where
  mods : List ModuleData
  links : List LinkData
  deriving DecidableEq, Repr

/-- Modelled from the spec: append a module entry and return its dense id. -/
def ModuleTree.push_mod (t : ModuleTree) (d : ModuleData) : ModuleTree × ModuleId :=
  ({ t with mods := t.mods ++ [d] }, t.mods.length)

/-- Modelled from the spec: append a link entry, record it in its owner's
children list, and return its dense id. -/
def ModuleTree.push_link (t : ModuleTree) (d : LinkData) : ModuleTree × LinkId :=
  let id := t.links.length
  let mods2 :=
    match t.mods[d.owner]? with
    | some m => t.mods.set d.owner { m with children := m.children ++ [id] }
    | none => t.mods
  ({ mods := mods2, links := t.links ++ [d] }, id)

/-- Modelled from the spec: `tree.module_mut(m).parent = p`. -/
def ModuleTree.module_set_parent (t : ModuleTree) (m : ModuleId)
    (p : Option LinkId) : ModuleTree :=
  { t with mods :=
      match t.mods[m]? with
      | some d => t.mods.set m { d with parent := p }
      | none => t.mods }

/-- Modelled from the spec: `tree.link_mut(l).points_to = pts`. -/
def ModuleTree.link_set_points_to (t : ModuleTree) (l : LinkId)
    (pts : List ModuleId) : ModuleTree :=
  { t with links :=
      match t.links[l]? with
      | some d => t.links.set l { d with points_to := pts }
      | none => t.links }

/-- Modelled from the spec: `tree.link_mut(l).problem = p`. -/
def ModuleTree.link_set_problem (t : ModuleTree) (l : LinkId)
    (p : Option Problem) : ModuleTree :=
  { t with links :=
      match t.links[l]? with
      | some d => t.links.set l { d with problem := p }
      | none => t.links }

/-- A source root: its files (in the engine's stable native order) and its
file resolver. -/
structure SourceRoot where
  files : List FileId
  file_resolver : FileResolverImp

/-- The slice of the incremental engine the builder consumes: the submodule
names declared in each file (the content behind the memoised `submodules`
query) and the cancellation flag, modelled as the index of the first
cancellation check that observes the cancelled state (`none` when the flag
is never set). -/
structure Db where
  submodules_of : FileId → List String
  cancelAt : Option Nat

/-- How a run of the builder can stop without a tree: a cancellation check
observed the cancelled state, the recursion depth bound ran out (the Rust
original would recurse without bound there), or the assertion in
`create_module_tree` failed. -/
inductive BuildErr
  | canceled
  | fuel
  | assertFailed
  deriving DecidableEq, Repr

/-- The builder-local mutable state: the tree under construction, the
visited set, the orphan-roots map, and the number of cancellation checks
performed so far. -/
structure BuildState where
  tree : ModuleTree
  visited : List FileId
  roots : List (FileId × ModuleId)
  checks : Nat
  deriving Repr

/-- Embeds `db::check_canceled`: observe the cancellation flag; either
short-circuit with `canceled` or count the check and continue. -/
def check_canceled (db : Db) (s : BuildState) : Except BuildErr BuildState :=
  match db.cancelAt with
  | some k =>
    if k ≤ s.checks then Except.error BuildErr.canceled
    else Except.ok { s with checks := s.checks + 1 }
  | none => Except.ok { s with checks := s.checks + 1 }

/-- Embeds the `submodules` query (imp.rs lines 22-31): check cancellation,
then return the out-of-line submodule names declared in the file. -/
def submodules (db : Db) (file_id : FileId) (s : BuildState) :
    Except BuildErr (List String × BuildState) :=
  match check_canceled db s with
  | Except.error e => Except.error e
  | Except.ok s2 => Except.ok (db.submodules_of file_id, s2)

/-- Set insertion on the visited set. -/
def insertVisited (f : FileId) (v : List FileId) : List FileId :=
  if f ∈ v then v else f :: v

/-- Lookup in the orphan-roots map. -/
def rootsLookup (roots : List (FileId × ModuleId)) (f : FileId) : Option ModuleId :=
  (roots.find? (fun e => e.fst == f)).map (fun e => e.snd)

/-- Removal from the orphan-roots map. -/
def rootsRemove (roots : List (FileId × ModuleId)) (f : FileId) :
    List (FileId × ModuleId) :=
  roots.filter (fun e => e.fst != f)

/-- Embeds the `points_to.into_iter().map(...)` loop of `build_subtree`
(imp.rs lines 130-139): for each candidate file, either adopt an orphan
root (remove it from the map and re-parent it to this link) or recurse; the
recursion is the `recurse` argument, so that the whole builder is a single
structural recursion on the depth bound. -/
def build_points_to
    (recurse : FileId → BuildState → Except BuildErr (ModuleId × BuildState))
    (link : LinkId) :
    List FileId → BuildState → Except BuildErr (List ModuleId × BuildState)
  | [], s => Except.ok ([], s)
  | c :: rest, s =>
    match rootsLookup s.roots c with
    | some module_id =>
      let s1 : BuildState :=
        { s with
          roots := rootsRemove s.roots c
          tree := s.tree.module_set_parent module_id (some link) }
      match build_points_to recurse link rest s1 with
      | Except.error e => Except.error e
      | Except.ok (pts, s2) => Except.ok (module_id :: pts, s2)
    | none =>
      match recurse c s with
      | Except.error e => Except.error e
      | Except.ok (module_id, s1) =>
        match build_points_to recurse link rest s1 with
        | Except.error e => Except.error e
        | Except.ok (pts, s2) => Except.ok (module_id :: pts, s2)

/-- Embeds the `for name in db.submodules(file_id)?` loop of `build_subtree`
(imp.rs lines 121-142): resolve each declared submodule, push a link with
initially empty `points_to`, process the candidates, then write the
resulting child list and the problem back into the link. -/
def build_links
    (recurse : LinkId → FileId → BuildState → Except BuildErr (ModuleId × BuildState))
    (source_root : SourceRoot) (id : ModuleId) (file_id : FileId) :
    List String → BuildState → Except BuildErr BuildState
  | [], s => Except.ok s
  | name :: rest, s =>
    let rp := resolve_submodule file_id name source_root.file_resolver
    let pushed := s.tree.push_link
      { name := name, owner := id, points_to := [], problem := none }
    let link := pushed.snd
    let s1 : BuildState := { s with tree := pushed.fst }
    match build_points_to (recurse link) link rp.fst s1 with
    | Except.error e => Except.error e
    | Except.ok (pts, s2) =>
      let t2 := (s2.tree.link_set_points_to link pts).link_set_problem link rp.snd
      build_links recurse source_root id file_id rest { s2 with tree := t2 }

/-- Embeds `build_subtree` (imp.rs lines 106-144): mark the file visited,
allocate its module entry, then process its declared submodules.  `fuel`
bounds the recursion depth; the Rust original recurses unboundedly, so a
run that returns `fuel` corresponds to a non-terminating (or
stack-overflowing) run of the original. -/
def build_subtree (db : Db) (source_root : SourceRoot) :
    Nat → Option LinkId → FileId → BuildState →
      Except BuildErr (ModuleId × BuildState)
  | 0, _, _, _ => Except.error BuildErr.fuel
  | Nat.succ fuel2, parent, file_id, s =>
    let s1 : BuildState := { s with visited := insertVisited file_id s.visited }
    let pushed := s1.tree.push_mod
      { source := ModuleSource.file file_id, parent := parent, children := [] }
    let id := pushed.snd
    let s2 : BuildState := { s1 with tree := pushed.fst }
    match submodules db file_id s2 with
    | Except.error e => Except.error e
    | Except.ok (names, s3) =>
      match build_links
          (fun link c s => build_subtree db source_root fuel2 (some link) c s)
          source_root id file_id names s3 with
      | Except.error e => Except.error e
      | Except.ok s4 => Except.ok (id, s4)

/-- Embeds the outer loop of `create_module_tree` (imp.rs lines 86-102):
skip visited files; assert that an unvisited file is not already an orphan
root; build its subtree; record it in the orphan-roots map. -/
def create_module_tree_go (db : Db) (source_root : SourceRoot) (fuel : Nat) :
    List FileId → BuildState → Except BuildErr BuildState
  | [], s => Except.ok s
  | file_id :: rest, s =>
    if file_id ∈ s.visited then create_module_tree_go db source_root fuel rest s
    else
      match rootsLookup s.roots file_id with
      | some _ => Except.error BuildErr.assertFailed
      | none =>
        match build_subtree db source_root fuel none file_id s with
        | Except.error e => Except.error e
        | Except.ok (module_id, s1) =>
          create_module_tree_go db source_root fuel rest
            { s1 with roots := s1.roots ++ [(file_id, module_id)] }

/-- The fresh builder state: empty arenas, nothing visited, no orphan
roots, no checks performed. -/
def initState : BuildState :=
  { tree := { mods := [], links := [] }, visited := [], roots := [], checks := 0 }

/-- Embeds `create_module_tree` (imp.rs lines 74-104). -/
def create_module_tree (db : Db) (source_root : SourceRoot) (fuel : Nat)
    (s : BuildState) : Except BuildErr BuildState :=
  create_module_tree_go db source_root fuel source_root.files s

/-- Embeds the `module_tree` query (imp.rs lines 60-67): check cancellation
at the start, then build.  Returns the finished tree together with the
total number of cancellation checks the run performed. -/
def module_tree (db : Db) (source_root : SourceRoot) (fuel : Nat) :
    Except BuildErr (ModuleTree × Nat) :=
  match check_canceled db initState with
  | Except.error e => Except.error e
  | Except.ok s1 =>
    match create_module_tree db source_root fuel s1 with
    | Except.error e => Except.error e
    | Except.ok s2 => Except.ok (s2.tree, s2.checks)

/-! ### Invariants of the builder state -/

/-- Is a link's problem one of the two diagnostic variants
(`UnresolvedModule` or `NotDirOwner`)?  Since `Problem` has exactly these
two variants this coincides with the problem being present. -/
def problemIsDiagnostic : Option Problem → Bool
  | some (Problem.unresolvedModule _) => true
  | some (Problem.notDirOwner _ _) => true
  | none => false

/-- The link invariant of claim C4: at most two children, and none exactly
when a diagnostic problem is attached. -/
def linkOk (ld : LinkData) : Prop :=
  ld.points_to.length ≤ 2 ∧
    (ld.points_to.length = 0 ↔ problemIsDiagnostic ld.problem = true)

/-- The module ids stored in the orphan-roots map. -/
def rootsValues (roots : List (FileId × ModuleId)) : List ModuleId :=
  roots.map Prod.snd

/-- The file ids keying the orphan-roots map. -/
def rootsKeys (roots : List (FileId × ModuleId)) : List FileId :=
  roots.map Prod.fst

/-- One step of the `parent → owner` walk: the module owning `m`'s parent
link, if any. -/
def pOwn (t : ModuleTree) (m : ModuleId) : Option ModuleId :=
  match t.mods[m]? with
  | some d =>
    match d.parent with
    | some l => (t.links[l]?).map LinkData.owner
    | none => none
  | none => none

/-- Following `parent → owner` steps from `m` reaches `r`, which has no
further parent, in finitely many steps. -/
inductive RootedAt (t : ModuleTree) : ModuleId → ModuleId → Prop
  | root (m : ModuleId) (h : pOwn t m = none) : RootedAt t m m
  | step (m p r : ModuleId) (h : pOwn t m = some p) (hp : RootedAt t p r) :
      RootedAt t m r

lemma RootedAt.terminal {t : ModuleTree} {m r : ModuleId}
    (h : RootedAt t m r) : pOwn t r = none := by
  induction h with
  | root m h => exact h
  | step m p r h hp ih => exact ih

lemma rootedAt_congr {t t' : ModuleTree} {m r : ModuleId}
    (hp : ∀ x, pOwn t' x = pOwn t x) (h : RootedAt t m r) : RootedAt t' m r := by
  induction h with
  | root m h => exact RootedAt.root m ((hp m).trans h)
  | step m p r h _ ih => exact RootedAt.step m p r ((hp m).trans h) ih

/-- The parent-owner walk is insensitive to a change at `a` as long as the
walk never meets `a`; a walk whose terminal differs from `a` never meets
`a`, because `a` is itself terminal. -/
lemma rootedAt_avoid {t t' : ModuleTree} {a m r : ModuleId}
    (hp : ∀ x, x ≠ a → pOwn t' x = pOwn t x) (ha : pOwn t a = none)
    (h : RootedAt t m r) (hr : r ≠ a) : RootedAt t' m r := by
  induction h with
  | root m h => exact RootedAt.root m ((hp m hr).trans h)
  | step m p r h _ ih =>
    have hm : m ≠ a := by
      intro he
      rw [he, ha] at h
      exact Option.noConfusion h
    exact RootedAt.step m p r ((hp m hm).trans h) (ih hr)

/-- After re-parenting the formerly terminal `a`, walks that used to end at
`a` now continue along `a`'s new walk. -/
lemma rootedAt_redirect {t t' : ModuleTree} {a rw2 m : ModuleId}
    (hp : ∀ x, x ≠ a → pOwn t' x = pOwn t x) (ha : pOwn t a = none)
    (h : RootedAt t m a) (hw : RootedAt t' a rw2) : RootedAt t' m rw2 := by
  have key : ∀ m2 q, RootedAt t m2 q → q = a → RootedAt t' m2 rw2 := by
    intro m2 q hmq
    induction hmq with
    | root m3 h3 =>
      intro he
      subst he
      exact hw
    | step m3 p r h3 _ ih =>
      intro he
      have hm : m3 ≠ a := by
        intro hea
        rw [hea, ha] at h3
        exact Option.noConfusion h3
      exact RootedAt.step m3 p rw2 ((hp m3 hm).trans h3) (ih he)
  exact key m a h rfl

/-- All cancellation checks performed so far happened before the flag was
set. -/
def ChecksOk (db : Db) (s : BuildState) : Prop :=
  ∀ k, db.cancelAt = some k → s.checks ≤ k

/-- The builder-state invariant maintained by `create_module_tree` and
`build_subtree`. -/
structure Inv (s : BuildState) : Prop where
  rooted : ∀ m, m < s.tree.mods.length → ∃ r, RootedAt s.tree m r
  roots_lt : ∀ e ∈ s.roots, e.snd < s.tree.mods.length
  roots_parent : ∀ e ∈ s.roots,
    ∃ d, s.tree.mods[e.snd]? = some d ∧ d.parent = none
  roots_nodup : (rootsValues s.roots).Nodup
  keys_visited : ∀ e ∈ s.roots, e.fst ∈ s.visited
  visited_src : ∀ f ∈ s.visited, ∃ m : ModuleId, ∃ d : ModuleData,
    s.tree.mods[m]? = some d ∧ d.source = ModuleSource.file f
  owners_lt : ∀ ld ∈ s.tree.links, ld.owner < s.tree.mods.length
  parents_lt : ∀ d ∈ s.tree.mods, ∀ l, d.parent = some l → l < s.tree.links.length

/-- The weak step contract: everything every builder step guarantees,
except completeness of newly pushed links (a link is briefly pending
between its push and its write-back). -/
structure BOutW (db : Db) (s s' : BuildState) : Prop where
  inv : Inv s'
  cok : ChecksOk db s'
  mods_len : s.tree.mods.length ≤ s'.tree.mods.length
  links_len : s.tree.links.length ≤ s'.tree.links.length
  links_pres : ∀ l, l < s.tree.links.length → s'.tree.links[l]? = s.tree.links[l]?
  src_pres : ∀ m, m < s.tree.mods.length →
    (s'.tree.mods[m]?).map ModuleData.source = (s.tree.mods[m]?).map ModuleData.source
  parent_pres : ∀ m, m < s.tree.mods.length → m ∉ rootsValues s.roots →
    (s'.tree.mods[m]?).map ModuleData.parent = (s.tree.mods[m]?).map ModuleData.parent
  rooted_pres : ∀ m r, m < s.tree.mods.length → RootedAt s.tree m r →
    r ∉ rootsValues s.roots → RootedAt s'.tree m r
  roots_mono : ∀ e ∈ s'.roots, e ∈ s.roots
  visited_mono : ∀ f ∈ s.visited, f ∈ s'.visited
  checks_eq : s'.checks = s.checks + (s'.tree.mods.length - s.tree.mods.length)

/-- The full step contract: additionally, every link pushed since `s` is
complete and satisfies the link invariant. -/
structure BOut (db : Db) (s s' : BuildState) extends BOutW db s s' : Prop where
  links_new : ∀ l ld, s.tree.links.length ≤ l → s'.tree.links[l]? = some ld → linkOk ld

/-- The precondition `build_points_to` keeps about its link: the link
exists, and the walk from its owner ends at a module that is not an orphan
root. -/
def LinkPCAt (s : BuildState) (link : LinkId) : Prop :=
  ∃ ld, s.tree.links[link]? = some ld ∧
    ∃ r, RootedAt s.tree ld.owner r ∧ r ∉ rootsValues s.roots

/-- The precondition `build_links` keeps about the module owning the links
it pushes. -/
def ModPCAt (s : BuildState) (id : ModuleId) : Prop :=
  id < s.tree.mods.length ∧
    ∃ r, RootedAt s.tree id r ∧ r ∉ rootsValues s.roots

lemma BOutW_refl {db : Db} {s : BuildState} (h : Inv s) (hc : ChecksOk db s) :
    BOutW db s s where
  inv := h
  cok := hc
  mods_len := le_refl _
  links_len := le_refl _
  links_pres := fun _ _ => rfl
  src_pres := fun _ _ => rfl
  parent_pres := fun _ _ _ => rfl
  rooted_pres := fun _ _ _ h _ => h
  roots_mono := fun _ he => he
  visited_mono := fun _ he => he
  checks_eq := by omega

lemma rootsValues_mono {r1 r2 : List (FileId × ModuleId)}
    (h : ∀ e ∈ r1, e ∈ r2) {v : ModuleId} (hv : v ∈ rootsValues r1) :
    v ∈ rootsValues r2 := by
  rcases List.mem_map.1 hv with ⟨e, he, hev⟩
  exact List.mem_map.2 ⟨e, h e he, hev⟩

lemma BOutW_trans {db : Db} {s1 s2 s3 : BuildState}
    (a : BOutW db s1 s2) (b : BOutW db s2 s3) : BOutW db s1 s3 where
  inv := b.inv
  cok := b.cok
  mods_len := le_trans a.mods_len b.mods_len
  links_len := le_trans a.links_len b.links_len
  links_pres := fun l hl =>
    (b.links_pres l (lt_of_lt_of_le hl a.links_len)).trans (a.links_pres l hl)
  src_pres := fun m hm =>
    ((b.src_pres m (lt_of_lt_of_le hm a.mods_len)).trans (a.src_pres m hm))
  parent_pres := fun m hm hr =>
    ((b.parent_pres m (lt_of_lt_of_le hm a.mods_len)
        (fun hc => hr (rootsValues_mono a.roots_mono hc))).trans
      (a.parent_pres m hm hr))
  rooted_pres := fun m r hm h hr =>
    b.rooted_pres m r (lt_of_lt_of_le hm a.mods_len) (a.rooted_pres m r hm h hr)
      (fun hc => hr (rootsValues_mono a.roots_mono hc))
  roots_mono := fun e he => a.roots_mono e (b.roots_mono e he)
  visited_mono := fun f hf => b.visited_mono f (a.visited_mono f hf)
  checks_eq := by
    have h1 := a.checks_eq
    have h2 := b.checks_eq
    have h3 := a.mods_len
    have h4 := b.mods_len
    omega

lemma BOut_refl {db : Db} {s : BuildState} (h : Inv s) (hc : ChecksOk db s) :
    BOut db s s where
  toBOutW := BOutW_refl h hc
  links_new := fun l ld hl hld => by
    rcases List.getElem?_eq_some.1 hld with ⟨hlt, _⟩
    omega

lemma BOut_trans {db : Db} {s1 s2 s3 : BuildState}
    (a : BOut db s1 s2) (b : BOut db s2 s3) : BOut db s1 s3 where
  toBOutW := BOutW_trans a.toBOutW b.toBOutW
  links_new := fun l ld hl hld => by
    by_cases h2 : l < s2.tree.links.length
    · exact a.links_new l ld hl ((b.links_pres l h2).symm.trans hld)
    · exact b.links_new l ld (by omega) hld

lemma LinkPC_mono {db : Db} {s s' : BuildState} {link : LinkId}
    (hi : Inv s) (h : LinkPCAt s link) (b : BOutW db s s') : LinkPCAt s' link := by
  rcases h with ⟨ld, hld, r, hr, hrv⟩
  rcases List.getElem?_eq_some.1 hld with ⟨hlt, _⟩
  have howner : ld.owner < s.tree.mods.length :=
    hi.owners_lt ld (List.getElem?_mem hld)
  refine ⟨ld, (b.links_pres link hlt).trans hld, r,
    b.rooted_pres _ r howner hr hrv, ?_⟩
  intro hc
  exact hrv (rootsValues_mono b.roots_mono hc)

lemma ModPC_mono {db : Db} {s s' : BuildState} {id : ModuleId}
    (h : ModPCAt s id) (b : BOutW db s s') : ModPCAt s' id := by
  rcases h with ⟨hlt, r, hr, hrv⟩
  refine ⟨lt_of_lt_of_le hlt b.mods_len, r, b.rooted_pres _ r hlt hr hrv, ?_⟩
  intro hc
  exact hrv (rootsValues_mono b.roots_mono hc)

/-! ### Effects of the single tree operations -/

lemma push_mod_mods (t : ModuleTree) (d : ModuleData) :
    ((t.push_mod d).1).mods = t.mods ++ [d] := rfl

lemma push_mod_links (t : ModuleTree) (d : ModuleData) :
    ((t.push_mod d).1).links = t.links := rfl

lemma push_mod_snd (t : ModuleTree) (d : ModuleData) :
    (t.push_mod d).2 = t.mods.length := rfl

lemma pOwn_push_mod_lt (t : ModuleTree) (d : ModuleData) (x : ModuleId)
    (hx : x < t.mods.length) : pOwn (t.push_mod d).1 x = pOwn t x := by
  unfold pOwn
  rw [push_mod_mods, push_mod_links, List.getElem?_append_left hx]

lemma pOwn_push_mod_new (t : ModuleTree) (d : ModuleData) :
    pOwn (t.push_mod d).1 t.mods.length =
      match d.parent with
      | some l => (t.links[l]?).map LinkData.owner
      | none => none := by
  unfold pOwn
  rw [push_mod_mods, push_mod_links, List.getElem?_concat_length]

lemma push_link_snd (t : ModuleTree) (ld : LinkData) :
    (t.push_link ld).2 = t.links.length := rfl

lemma push_link_links (t : ModuleTree) (ld : LinkData) :
    ((t.push_link ld).1).links = t.links ++ [ld] := by
  unfold ModuleTree.push_link
  cases t.mods[ld.owner]? <;> rfl

lemma push_link_mods_length (t : ModuleTree) (ld : LinkData) :
    ((t.push_link ld).1).mods.length = t.mods.length := by
  unfold ModuleTree.push_link
  cases h : t.mods[ld.owner]? <;> simp [h]

lemma push_link_mods_source (t : ModuleTree) (ld : LinkData) (x : ModuleId) :
    (((t.push_link ld).1).mods[x]?).map ModuleData.source =
      (t.mods[x]?).map ModuleData.source := by
  unfold ModuleTree.push_link
  rcases h : t.mods[ld.owner]? with _ | m
  · simp [h]
  · by_cases hxo : x = ld.owner
    · subst hxo
      rcases List.getElem?_eq_some.1 h with ⟨hlt, _⟩
      simp [h, List.getElem?_set_self hlt, h]
    · simp [h, List.getElem?_set_ne (fun he => hxo he.symm)]

lemma push_link_mods_parent (t : ModuleTree) (ld : LinkData) (x : ModuleId) :
    (((t.push_link ld).1).mods[x]?).map ModuleData.parent =
      (t.mods[x]?).map ModuleData.parent := by
  unfold ModuleTree.push_link
  rcases h : t.mods[ld.owner]? with _ | m
  · simp [h]
  · by_cases hxo : x = ld.owner
    · subst hxo
      rcases List.getElem?_eq_some.1 h with ⟨hlt, _⟩
      simp [h, List.getElem?_set_self hlt, h]
    · simp [h, List.getElem?_set_ne (fun he => hxo he.symm)]

lemma pOwn_push_link (t : ModuleTree) (ld : LinkData)
    (hpl : ∀ d2 ∈ t.mods, ∀ l, d2.parent = some l → l < t.links.length)
    (x : ModuleId) : pOwn (t.push_link ld).1 x = pOwn t x := by
  have hmp := push_link_mods_parent t ld x
  unfold pOwn
  rcases h : t.mods[x]? with _ | dx
  · rw [h] at hmp
    simp only [Option.map_none'] at hmp
    rw [Option.map_eq_none'.1 hmp]
  · rw [h] at hmp
    rcases h2 : ((t.push_link ld).1).mods[x]? with _ | dx2
    · rw [h2] at hmp
      simp at hmp
    · rw [h2] at hmp
      simp only [Option.map_some'] at hmp
      have hmp2 : dx2.parent = dx.parent := Option.some.inj hmp
      rcases hp : dx.parent with _ | l
      · simp [h2, h, hmp2, hp]
      · have hl : l < t.links.length := hpl dx (List.getElem?_mem h) l hp
        simp [h2, h, hmp2, hp, push_link_links, List.getElem?_append_left hl]

lemma msp_mods_length (t : ModuleTree) (a : ModuleId) (p : Option LinkId) :
    (t.module_set_parent a p).mods.length = t.mods.length := by
  unfold ModuleTree.module_set_parent
  cases h : t.mods[a]? <;> simp [h]

lemma msp_links (t : ModuleTree) (a : ModuleId) (p : Option LinkId) :
    (t.module_set_parent a p).links = t.links := by
  unfold ModuleTree.module_set_parent
  cases t.mods[a]? <;> rfl

lemma msp_get_ne (t : ModuleTree) (a : ModuleId) (p : Option LinkId)
    (x : ModuleId) (hx : x ≠ a) :
    (t.module_set_parent a p).mods[x]? = t.mods[x]? := by
  unfold ModuleTree.module_set_parent
  cases h : t.mods[a]? <;>
    simp [h, List.getElem?_set_ne (fun he => hx he.symm)]

lemma msp_get_eq (t : ModuleTree) (a : ModuleId) (p : Option LinkId)
    (d : ModuleData) (h : t.mods[a]? = some d) :
    (t.module_set_parent a p).mods[a]? = some { d with parent := p } := by
  unfold ModuleTree.module_set_parent
  rcases List.getElem?_eq_some.1 h with ⟨hlt, _⟩
  simp [h, List.getElem?_set_self hlt]

lemma msp_source (t : ModuleTree) (a : ModuleId) (p : Option LinkId)
    (x : ModuleId) :
    ((t.module_set_parent a p).mods[x]?).map ModuleData.source =
      (t.mods[x]?).map ModuleData.source := by
  by_cases hx : x = a
  · subst hx
    rcases h : t.mods[x]? with _ | d
    · unfold ModuleTree.module_set_parent
      cases h2 : t.mods[x]? <;> simp_all
    · rw [msp_get_eq t x p d h]
      simp [h]
  · rw [msp_get_ne t a p x hx]

lemma pOwn_msp_ne (t : ModuleTree) (a : ModuleId) (p : Option LinkId)
    (x : ModuleId) (hx : x ≠ a) :
    pOwn (t.module_set_parent a p) x = pOwn t x := by
  unfold pOwn
  rw [msp_get_ne t a p x hx, msp_links]

lemma pOwn_msp_adopt (t : ModuleTree) (a : ModuleId) (l : LinkId)
    (d : ModuleData) (h : t.mods[a]? = some d) :
    pOwn (t.module_set_parent a (some l)) a = (t.links[l]?).map LinkData.owner := by
  unfold pOwn
  rw [msp_get_eq t a (some l) d h, msp_links]

lemma pOwn_congr_links {t t' : ModuleTree} (hm : t'.mods = t.mods)
    (hlo : ∀ j : LinkId, (t'.links[j]?).map LinkData.owner = (t.links[j]?).map LinkData.owner)
    (x : ModuleId) : pOwn t' x = pOwn t x := by
  unfold pOwn
  rw [hm]
  rcases t.mods[x]? with _ | d
  · rfl
  · rcases hp : d.parent with _ | l
    · simp [hp]
    · simp [hp, hlo l]

lemma lspt_mods (t : ModuleTree) (l : LinkId) (pts : List ModuleId) :
    (t.link_set_points_to l pts).mods = t.mods := by
  unfold ModuleTree.link_set_points_to
  cases t.links[l]? <;> rfl

lemma lspt_links_length (t : ModuleTree) (l : LinkId) (pts : List ModuleId) :
    (t.link_set_points_to l pts).links.length = t.links.length := by
  unfold ModuleTree.link_set_points_to
  cases h : t.links[l]? <;> simp [h]

lemma lspt_get_ne (t : ModuleTree) (l : LinkId) (pts : List ModuleId)
    (j : LinkId) (hj : j ≠ l) :
    (t.link_set_points_to l pts).links[j]? = t.links[j]? := by
  unfold ModuleTree.link_set_points_to
  cases h : t.links[l]? <;>
    simp [h, List.getElem?_set_ne (fun he => hj he.symm)]

lemma lspt_get_eq (t : ModuleTree) (l : LinkId) (pts : List ModuleId)
    (ld : LinkData) (h : t.links[l]? = some ld) :
    (t.link_set_points_to l pts).links[l]? = some { ld with points_to := pts } := by
  unfold ModuleTree.link_set_points_to
  rcases List.getElem?_eq_some.1 h with ⟨hlt, _⟩
  simp [h, List.getElem?_set_self hlt]

lemma lspt_owner (t : ModuleTree) (l : LinkId) (pts : List ModuleId) (j : LinkId) :
    ((t.link_set_points_to l pts).links[j]?).map LinkData.owner =
      (t.links[j]?).map LinkData.owner := by
  by_cases hj : j = l
  · subst hj
    rcases h : t.links[j]? with _ | ld
    · unfold ModuleTree.link_set_points_to
      cases h2 : t.links[j]? <;> simp_all
    · rw [lspt_get_eq t j pts ld h]
      simp [h]
  · rw [lspt_get_ne t l pts j hj]

lemma pOwn_lspt (t : ModuleTree) (l : LinkId) (pts : List ModuleId) (x : ModuleId) :
    pOwn (t.link_set_points_to l pts) x = pOwn t x :=
  pOwn_congr_links (lspt_mods t l pts) (lspt_owner t l pts) x

lemma lspr_mods (t : ModuleTree) (l : LinkId) (p : Option Problem) :
    (t.link_set_problem l p).mods = t.mods := by
  unfold ModuleTree.link_set_problem
  cases t.links[l]? <;> rfl

lemma lspr_links_length (t : ModuleTree) (l : LinkId) (p : Option Problem) :
    (t.link_set_problem l p).links.length = t.links.length := by
  unfold ModuleTree.link_set_problem
  cases h : t.links[l]? <;> simp [h]

lemma lspr_get_ne (t : ModuleTree) (l : LinkId) (p : Option Problem)
    (j : LinkId) (hj : j ≠ l) :
    (t.link_set_problem l p).links[j]? = t.links[j]? := by
  unfold ModuleTree.link_set_problem
  cases h : t.links[l]? <;>
    simp [h, List.getElem?_set_ne (fun he => hj he.symm)]

lemma lspr_get_eq (t : ModuleTree) (l : LinkId) (p : Option Problem)
    (ld : LinkData) (h : t.links[l]? = some ld) :
    (t.link_set_problem l p).links[l]? = some { ld with problem := p } := by
  unfold ModuleTree.link_set_problem
  rcases List.getElem?_eq_some.1 h with ⟨hlt, _⟩
  simp [h, List.getElem?_set_self hlt]

lemma lspr_owner (t : ModuleTree) (l : LinkId) (p : Option Problem) (j : LinkId) :
    ((t.link_set_problem l p).links[j]?).map LinkData.owner =
      (t.links[j]?).map LinkData.owner := by
  by_cases hj : j = l
  · subst hj
    rcases h : t.links[j]? with _ | ld
    · unfold ModuleTree.link_set_problem
      cases h2 : t.links[j]? <;> simp_all
    · rw [lspr_get_eq t j p ld h]
      simp [h]
  · rw [lspr_get_ne t l p j hj]

lemma pOwn_lspr (t : ModuleTree) (l : LinkId) (p : Option Problem) (x : ModuleId) :
    pOwn (t.link_set_problem l p) x = pOwn t x :=
  pOwn_congr_links (lspr_mods t l p) (lspr_owner t l p) x

/-! ### Small facts about the walk, the maps, and the resolver -/

lemma pOwn_oob (t : ModuleTree) (m : ModuleId) (h : t.mods.length ≤ m) :
    pOwn t m = none := by
  unfold pOwn
  rw [List.getElem?_eq_none h]

lemma pOwn_parent_none (t : ModuleTree) (a : ModuleId) (d : ModuleData)
    (hd : t.mods[a]? = some d) (hp : d.parent = none) : pOwn t a = none := by
  simp [pOwn, hd, hp]

lemma pOwn_lt (t : ModuleTree)
    (howners : ∀ ld ∈ t.links, ld.owner < t.mods.length)
    {m p : ModuleId} (h : pOwn t m = some p) : p < t.mods.length := by
  rcases hd : t.mods[m]? with _ | d
  · simp [pOwn, hd] at h
  · rcases hpp : d.parent with _ | l
    · simp [pOwn, hd, hpp] at h
    · rcases hl : t.links[l]? with _ | ld
      · simp [pOwn, hd, hpp, hl] at h
      · simp [pOwn, hd, hpp, hl] at h
        rw [← h]
        exact howners ld (List.getElem?_mem hl)

lemma rootedAt_lt (t : ModuleTree)
    (howners : ∀ ld ∈ t.links, ld.owner < t.mods.length)
    {m r : ModuleId} (hm : m < t.mods.length) (h : RootedAt t m r) :
    r < t.mods.length := by
  induction h with
  | root m _ => exact hm
  | step m p r h _ ih => exact ih (pOwn_lt t howners h)

lemma rootsLookup_some {roots : List (FileId × ModuleId)} {f : FileId}
    {a : ModuleId} (h : rootsLookup roots f = some a) : (f, a) ∈ roots := by
  unfold rootsLookup at h
  rcases hf : roots.find? (fun e => e.fst == f) with _ | e
  · rw [hf] at h
    exact Option.noConfusion h
  · rw [hf] at h
    have he : e ∈ roots := List.mem_of_find?_eq_some hf
    have hk : e.fst = f := by
      simpa using List.find?_some hf
    have hv : e.snd = a := Option.some.inj h
    have : e = (f, a) := Prod.ext hk hv
    rw [← this]
    exact he

lemma rootsLookup_none {roots : List (FileId × ModuleId)} {f : FileId}
    (h : rootsLookup roots f = none) : ∀ a, (f, a) ∉ roots := by
  intro a hmem
  unfold rootsLookup at h
  rcases hf : roots.find? (fun e => e.fst == f) with _ | e
  · have := List.find?_eq_none.1 hf (f, a) hmem
    simp at this
  · rw [hf] at h
    exact Option.noConfusion h

lemma rootsRemove_subset {roots : List (FileId × ModuleId)} {f : FileId}
    {e : FileId × ModuleId} (h : e ∈ rootsRemove roots f) : e ∈ roots :=
  List.mem_of_mem_filter h

lemma rootsRemove_key_ne {roots : List (FileId × ModuleId)} {f : FileId}
    {e : FileId × ModuleId} (h : e ∈ rootsRemove roots f) : e.fst ≠ f := by
  have := List.of_mem_filter h
  simpa using this

lemma rootsValues_remove_nodup {roots : List (FileId × ModuleId)} {f : FileId}
    (h : (rootsValues roots).Nodup) : (rootsValues (rootsRemove roots f)).Nodup :=
  h.sublist ((List.filter_sublist roots).map Prod.snd)

lemma nodup_values_eq {roots : List (FileId × ModuleId)}
    (h : (rootsValues roots).Nodup) {e1 e2 : FileId × ModuleId}
    (h1 : e1 ∈ roots) (h2 : e2 ∈ roots) (he : e1.snd = e2.snd) : e1 = e2 :=
  List.inj_on_of_nodup_map h h1 h2 he

lemma mem_insertVisited_self (f : FileId) (v : List FileId) :
    f ∈ insertVisited f v := by
  unfold insertVisited
  by_cases h : f ∈ v <;> simp [h]

lemma mem_insertVisited_of {g : FileId} {v : List FileId} (f : FileId)
    (h : g ∈ v) : g ∈ insertVisited f v := by
  unfold insertVisited
  by_cases h2 : f ∈ v <;> simp [h2, h]

lemma mem_insertVisited_iff (g f : FileId) (v : List FileId) :
    g ∈ insertVisited f v ↔ g = f ∨ g ∈ v := by
  unfold insertVisited
  by_cases h : f ∈ v
  · simp only [h, if_true]
    constructor
    · intro hg
      exact Or.inr hg
    · intro hg
      rcases hg with hg | hg
      · rw [hg]
        exact h
      · exact hg
  · simp [h, List.mem_cons]

/-- The candidate list returned by `resolve_submodule` has at most two
entries, and it is empty exactly when a diagnostic problem is attached. -/
lemma resolve_submodule_ok (file_id : FileId) (name : String)
    (r : FileResolverImp) :
    (resolve_submodule file_id name r).fst.length ≤ 2 ∧
      ((resolve_submodule file_id name r).fst.length = 0 ↔
        problemIsDiagnostic (resolve_submodule file_id name r).snd = true) := by
  rw [resolve_submodule_eq_spec file_id name r]
  unfold resolveSubmoduleSpec
  by_cases h : r.file_stem file_id = "mod" ∨ r.file_stem file_id = "lib" ∨
      r.file_stem file_id = "main"
  · simp only [if_pos h]
    rcases r.resolve file_id ("../" ++ name ++ ".rs") with _ | a <;>
      rcases r.resolve file_id ("../" ++ name ++ "/mod.rs") with _ | b <;>
        simp [problemIsDiagnostic]
  · simp [if_neg h, problemIsDiagnostic]

lemma check_canceled_ok {db : Db} {s s2 : BuildState}
    (h : check_canceled db s = Except.ok s2) :
    s2 = { s with checks := s.checks + 1 } ∧ ChecksOk db s2 := by
  unfold check_canceled at h
  rcases hc : db.cancelAt with _ | k
  · simp only [hc] at h
    refine ⟨(Except.ok.inj h).symm, ?_⟩
    intro k hk
    rw [hc] at hk
    exact Option.noConfusion hk
  · simp only [hc] at h
    by_cases hk : k ≤ s.checks
    · rw [if_pos hk] at h
      exact Except.noConfusion h
    · rw [if_neg hk] at h
      refine ⟨(Except.ok.inj h).symm, ?_⟩
      intro k2 hk2
      rw [hc] at hk2
      have hkk : k2 = k := (Option.some.inj hk2).symm
      have h3 := (Except.ok.inj h).symm
      rw [h3, hkk]
      show s.checks + 1 ≤ k
      omega

lemma submodules_ok {db : Db} {f : FileId} {s : BuildState} {names : List String}
    {s2 : BuildState} (h : submodules db f s = Except.ok (names, s2)) :
    names = db.submodules_of f ∧
      s2 = { s with checks := s.checks + 1 } ∧ ChecksOk db s2 := by
  unfold submodules at h
  rcases hc : check_canceled db s with _ | s3
  · rw [hc] at h
    exact Except.noConfusion h
  · rw [hc] at h
    have h2 := Except.ok.inj h
    rcases check_canceled_ok hc with ⟨he, hok⟩
    have hn : names = db.submodules_of f := by
      have := congrArg Prod.fst h2
      exact this.symm
    have hs : s2 = s3 := by
      have := congrArg Prod.snd h2
      exact this.symm
    exact ⟨hn, by rw [hs, ← he], by rw [hs]; exact hok⟩

lemma msp_mods_eq (t : ModuleTree) (a : ModuleId) (p : Option LinkId)
    (d : ModuleData) (h : t.mods[a]? = some d) :
    (t.module_set_parent a p).mods = t.mods.set a { d with parent := p } := by
  unfold ModuleTree.module_set_parent
  rw [h]

lemma map_field_extract {α β : Type} {f : α → β} {o1 o2 : Option α}
    (h : o1.map f = o2.map f) {d : α} (h2 : o2 = some d) :
    ∃ d1, o1 = some d1 ∧ f d1 = f d := by
  subst h2
  rcases o1 with _ | d1
  · simp at h
  · exact ⟨d1, rfl, by simpa using h⟩

lemma mem_rootsValues_of_mem {roots : List (FileId × ModuleId)}
    {e : FileId × ModuleId} (h : e ∈ roots) : e.snd ∈ rootsValues roots :=
  List.mem_map.2 ⟨e, h, rfl⟩

/-! ### The contract of the candidate loop -/

lemma build_points_to_contract (db : Db) (link : LinkId)
    (recurse : FileId → BuildState → Except BuildErr (ModuleId × BuildState))
    (Hrec : ∀ c s2 id s2', Inv s2 → ChecksOk db s2 → LinkPCAt s2 link →
      recurse c s2 = Except.ok (id, s2') → BOut db s2 s2') :
    ∀ (cands : List FileId) (s : BuildState) (pts : List ModuleId)
      (s' : BuildState), Inv s → ChecksOk db s → LinkPCAt s link →
      build_points_to recurse link cands s = Except.ok (pts, s') →
      BOut db s s' ∧ pts.length = cands.length ∧ LinkPCAt s' link := by
  intro cands
  induction cands with
  | nil =>
    intro s pts s' hi hc hpc hrun
    simp only [build_points_to] at hrun
    have h2 := Except.ok.inj hrun
    rw [Prod.mk.injEq] at h2
    obtain ⟨h3, h4⟩ := h2
    subst h3
    subst h4
    exact ⟨BOut_refl hi hc, rfl, hpc⟩
  | cons c rest ih =>
    intro s pts s' hi hc hpc hrun
    simp only [build_points_to] at hrun
    rcases hlk : rootsLookup s.roots c with _ | a
    · -- no orphan root for this candidate: recurse
      rw [hlk] at hrun
      dsimp only [] at hrun
      rcases hrec : recurse c s with _ | ⟨id, s1⟩
      · rw [hrec] at hrun
        exact Except.noConfusion hrun
      · rw [hrec] at hrun
        dsimp only [] at hrun
        rcases hbp : build_points_to recurse link rest s1 with _ | ⟨pts2, s2⟩
        · rw [hbp] at hrun
          exact Except.noConfusion hrun
        · rw [hbp] at hrun
          dsimp only [] at hrun
          have h2 := Except.ok.inj hrun
          rw [Prod.mk.injEq] at h2
          obtain ⟨h3, h4⟩ := h2
          subst h3
          subst h4
          have hb1 : BOut db s s1 := Hrec c s id s1 hi hc hpc hrec
          have hpc1 : LinkPCAt s1 link := LinkPC_mono hi hpc hb1.toBOutW
          obtain ⟨hb2, hlen, hpc2⟩ :=
            ih s1 pts2 s2 hb1.inv hb1.cok hpc1 hbp
          refine ⟨BOut_trans hb1 hb2, ?_, hpc2⟩
          simp [hlen]
    · -- adoption: re-parent the orphan root `a`
      rw [hlk] at hrun
      dsimp only [] at hrun
      have hmem : (c, a) ∈ s.roots := rootsLookup_some hlk
      have ha_lt : a < s.tree.mods.length := hi.roots_lt (c, a) hmem
      obtain ⟨da, hda, hdapar⟩ := hi.roots_parent (c, a) hmem
      have hpa : pOwn s.tree a = none := pOwn_parent_none _ a da hda hdapar
      have ha_val : a ∈ rootsValues s.roots := mem_rootsValues_of_mem hmem
      obtain ⟨ld, hld, r0, hr0, hr0v⟩ := hpc
      obtain ⟨hlt_link, _⟩ := List.getElem?_eq_some.1 hld
      have howner : ld.owner < s.tree.mods.length :=
        hi.owners_lt ld (List.getElem?_mem hld)
      have hr0_ne_a : r0 ≠ a := fun he => hr0v (he ▸ ha_val)
      set t1 := s.tree.module_set_parent a (some link) with ht1
      set s1 : BuildState :=
        { s with roots := rootsRemove s.roots c, tree := t1 } with hs1
      have hp_ne : ∀ x, x ≠ a → pOwn t1 x = pOwn s.tree x :=
        fun x hx => pOwn_msp_ne s.tree a (some link) x hx
      have hpown_a : pOwn t1 a = some ld.owner := by
        rw [ht1, pOwn_msp_adopt s.tree a link da hda, hld]
        rfl
      have h_w1 : RootedAt t1 ld.owner r0 :=
        rootedAt_avoid hp_ne hpa hr0 hr0_ne_a
      have h_a1 : RootedAt t1 a r0 := RootedAt.step a ld.owner r0 hpown_a h_w1
      have hmods_len : t1.mods.length = s.tree.mods.length :=
        msp_mods_length s.tree a (some link)
      have hlinks : t1.links = s.tree.links := msp_links s.tree a (some link)
      have hmods_eq : t1.mods = s.tree.mods.set a { da with parent := some link } :=
        msp_mods_eq s.tree a (some link) da hda
      have hival : ∀ e ∈ rootsRemove s.roots c, e.snd ≠ a := by
        intro e he hea
        have h1 : e ∈ s.roots := rootsRemove_subset he
        have h2 : e = (c, a) := nodup_values_eq hi.roots_nodup h1 hmem hea
        exact rootsRemove_key_ne he (by rw [h2])
      have hinv1 : Inv s1 := by
        refine ⟨?_, ?_, ?_, ?_, ?_, ?_, ?_, ?_⟩
        · intro m hm
          rw [hs1] at hm
          simp only [hmods_len] at hm
          obtain ⟨rm, hrm⟩ := hi.rooted m hm
          by_cases hrma : rm = a
          · exact ⟨r0, rootedAt_redirect hp_ne hpa (hrma ▸ hrm) h_a1⟩
          · exact ⟨rm, rootedAt_avoid hp_ne hpa hrm hrma⟩
        · intro e he
          have h1 : e ∈ s.roots := rootsRemove_subset he
          simp only [hs1, hmods_len]
          exact hi.roots_lt e h1
        · intro e he
          have h1 : e ∈ s.roots := rootsRemove_subset he
          obtain ⟨d, hd, hp⟩ := hi.roots_parent e h1
          refine ⟨d, ?_, hp⟩
          show t1.mods[e.snd]? = some d
          rw [msp_get_ne s.tree a (some link) e.snd (hival e he), hd]
        · exact rootsValues_remove_nodup hi.roots_nodup
        · intro e he
          exact hi.keys_visited e (rootsRemove_subset he)
        · intro f hf
          obtain ⟨m, d, hmd, hsrc⟩ := hi.visited_src f hf
          obtain ⟨d1, hd1, hd1src⟩ :=
            map_field_extract (msp_source s.tree a (some link) m) hmd
          exact ⟨m, d1, hd1, hd1src.trans hsrc⟩
        · intro ld2 hld2
          rw [hs1] at hld2
          simp only [hlinks] at hld2
          simp only [hs1, hmods_len]
          exact hi.owners_lt ld2 hld2
        · intro d hd l hl
          simp only [hs1, hmods_eq] at hd
          simp only [hs1, hlinks]
          rcases List.mem_or_eq_of_mem_set hd with hd2 | hd2
          · exact hi.parents_lt d hd2 l hl
          · rw [hd2] at hl
            simp at hl
            rw [← hl]
            exact hlt_link
      have hcok1 : ChecksOk db s1 := hc
      have hbstep : BOut db s s1 := by
        refine ⟨⟨hinv1, hcok1, ?_, ?_, ?_, ?_, ?_, ?_, ?_, ?_, ?_⟩, ?_⟩
        · simp [hs1, hmods_len]
        · simp [hs1, hlinks]
        · intro l hl
          simp [hs1, hlinks]
        · intro m hm
          exact msp_source s.tree a (some link) m
        · intro m hm hmv
          have hma : m ≠ a := fun he => hmv (he ▸ ha_val)
          show (t1.mods[m]?).map ModuleData.parent = _
          rw [msp_get_ne s.tree a (some link) m hma]
        · intro m r hm hrm hrv
          have hra : r ≠ a := fun he => hrv (he ▸ ha_val)
          exact rootedAt_avoid hp_ne hpa hrm hra
        · intro e he
          exact rootsRemove_subset he
        · intro f hf
          exact hf
        · simp [hs1, hmods_len]
        · intro l ld2 hl hld2
          have h2 : l < s1.tree.links.length := by
            rcases List.getElem?_eq_some.1 hld2 with ⟨hx, _⟩
            exact hx
          simp only [hs1, hlinks] at h2
          omega
      have hpc1 : LinkPCAt s1 link := by
        refine ⟨ld, ?_, r0, h_w1, ?_⟩
        · show t1.links[link]? = some ld
          rw [hlinks, hld]
        · intro hcon
          exact hr0v (rootsValues_mono (fun e he => rootsRemove_subset he) hcon)
      rcases hbp : build_points_to recurse link rest s1 with _ | ⟨pts2, s2⟩
      · rw [hbp] at hrun
        exact Except.noConfusion hrun
      · rw [hbp] at hrun
        dsimp only [] at hrun
        have h2 := Except.ok.inj hrun
        rw [Prod.mk.injEq] at h2
        obtain ⟨h3, h4⟩ := h2
        subst h3
        subst h4
        obtain ⟨hb2, hlen, hpc2⟩ := ih s1 pts2 s2 hinv1 hcok1 hpc1 hbp
        refine ⟨BOut_trans hbstep hb2, ?_, hpc2⟩
        simp [hlen]

lemma push_link_mods_none (t : ModuleTree) (ld : LinkData)
    (h : t.mods[ld.owner]? = none) : ((t.push_link ld).1).mods = t.mods := by
  unfold ModuleTree.push_link
  rw [h]

lemma push_link_mods_some (t : ModuleTree) (ld : LinkData) (m : ModuleData)
    (h : t.mods[ld.owner]? = some m) :
    ((t.push_link ld).1).mods =
      t.mods.set ld.owner { m with children := m.children ++ [t.links.length] } := by
  unfold ModuleTree.push_link
  rw [h]

/-! ### The contract of the submodule loop -/

lemma build_links_contract (db : Db) (source_root : SourceRoot)
    (recurse : LinkId → FileId → BuildState → Except BuildErr (ModuleId × BuildState))
    (Hrec : ∀ link c s2 id s2', Inv s2 → ChecksOk db s2 → LinkPCAt s2 link →
      recurse link c s2 = Except.ok (id, s2') → BOut db s2 s2') :
    ∀ (names : List String) (id : ModuleId) (file_id : FileId)
      (s s' : BuildState), Inv s → ChecksOk db s → ModPCAt s id →
      build_links recurse source_root id file_id names s = Except.ok s' →
      BOut db s s' := by
  intro names
  induction names with
  | nil =>
    intro id file_id s s' hi hc hmpc hrun
    simp only [build_links] at hrun
    have h2 := Except.ok.inj hrun
    subst h2
    exact BOut_refl hi hc
  | cons name rest ih =>
    intro id file_id s s' hi hc hmpc hrun
    simp only [build_links] at hrun
    set rp := resolve_submodule file_id name source_root.file_resolver with hrp
    set ld0 : LinkData :=
      { name := name, owner := id, points_to := [], problem := none } with hld0
    set t1 := (s.tree.push_link ld0).1 with ht1
    set link := (s.tree.push_link ld0).2 with hlinkdef
    set s1 : BuildState := { s with tree := t1 } with hs1
    have hlink : link = s.tree.links.length := push_link_snd s.tree ld0
    obtain ⟨hid_lt, r0, hr0, hr0v⟩ := hmpc
    -- facts about the push step s → s1
    have hmods_len1 : t1.mods.length = s.tree.mods.length :=
      push_link_mods_length s.tree ld0
    have hlinks1 : t1.links = s.tree.links ++ [ld0] := push_link_links s.tree ld0
    have hpown1 : ∀ x, pOwn t1 x = pOwn s.tree x :=
      pOwn_push_link s.tree ld0 hi.parents_lt
    have hparent1 := push_link_mods_parent s.tree ld0
    have hsource1 := push_link_mods_source s.tree ld0
    have hinv1 : Inv s1 := by
      refine ⟨?_, ?_, ?_, hi.roots_nodup, hi.keys_visited, ?_, ?_, ?_⟩
      · intro m hm
        simp only [hs1, hmods_len1] at hm
        obtain ⟨rm, hrm⟩ := hi.rooted m hm
        exact ⟨rm, rootedAt_congr hpown1 hrm⟩
      · intro e he
        simp only [hs1, hmods_len1]
        exact hi.roots_lt e he
      · intro e he
        obtain ⟨d, hd, hp⟩ := hi.roots_parent e he
        obtain ⟨d1, hd1, hd1p⟩ := map_field_extract (hparent1 e.snd) hd
        exact ⟨d1, hd1, hd1p.trans hp⟩
      · intro f hf
        obtain ⟨m, d, hmd, hsrc⟩ := hi.visited_src f hf
        obtain ⟨d1, hd1, hd1src⟩ := map_field_extract (hsource1 m) hmd
        exact ⟨m, d1, hd1, hd1src.trans hsrc⟩
      · intro ld2 hld2
        simp only [hs1, hmods_len1]
        simp only [hs1] at hld2
        rw [hlinks1] at hld2
        rcases List.mem_append.1 hld2 with h2 | h2
        · exact hi.owners_lt ld2 h2
        · have : ld2 = ld0 := List.mem_singleton.1 h2
          rw [this]
          exact hid_lt
      · intro d hd l hl
        have hlen1 : s.tree.links.length ≤ t1.links.length := by
          rw [hlinks1]
          simp
        simp only [hs1] at hd
        show l < t1.links.length
        rcases hmo : s.tree.mods[ld0.owner]? with _ | m
        · rw [ht1, push_link_mods_none s.tree ld0 hmo] at hd
          exact lt_of_lt_of_le (hi.parents_lt d hd l hl) hlen1
        · rw [ht1, push_link_mods_some s.tree ld0 m hmo] at hd
          rcases List.mem_or_eq_of_mem_set hd with h2 | h2
          · exact lt_of_lt_of_le (hi.parents_lt d h2 l hl) hlen1
          · have hm : m ∈ s.tree.mods := List.getElem?_mem hmo
            rw [h2] at hl
            exact lt_of_lt_of_le (hi.parents_lt m hm l hl) hlen1
    have hcok1 : ChecksOk db s1 := hc
    have hw1 : BOutW db s s1 := by
      refine ⟨hinv1, hcok1, ?_, ?_, ?_, ?_, ?_, ?_, ?_, ?_, ?_⟩
      · simp [hs1, hmods_len1]
      · simp only [hs1]
        rw [ht1, hlinks1]
        simp
      · intro l hl
        show t1.links[l]? = _
        rw [hlinks1, List.getElem?_append_left hl]
      · intro m hm
        exact hsource1 m
      · intro m hm hmv
        exact hparent1 m
      · intro m r hm hrm hrv
        exact rootedAt_congr hpown1 hrm
      · intro e he
        exact he
      · intro f hf
        exact hf
      · simp [hs1, hmods_len1]
    have hld0_s1 : s1.tree.links[link]? = some ld0 := by
      show t1.links[link]? = some ld0
      rw [hlinks1, hlink, List.getElem?_concat_length]
    have hpc1 : LinkPCAt s1 link :=
      ⟨ld0, hld0_s1, r0, rootedAt_congr hpown1 hr0, hr0v⟩
    -- the candidate loop s1 → s2
    rcases hbp : build_points_to (recurse link) link rp.fst s1 with _ | ⟨pts, s2⟩
    · rw [hbp] at hrun
      exact Except.noConfusion hrun
    · rw [hbp] at hrun
      dsimp only [] at hrun
      obtain ⟨hb2, hlen2, hpc2⟩ :=
        build_points_to_contract db link (recurse link)
          (fun c sx idx sx' a b c2 d => Hrec link c sx idx sx' a b c2 d)
          rp.fst s1 pts s2 hinv1 hcok1 hpc1 hbp
      -- the write-back step s2 → s3
      set tmid := s2.tree.link_set_points_to link pts with htmid
      set t2 := tmid.link_set_problem link rp.snd with ht2
      set s3 : BuildState := { s2 with tree := t2 } with hs3
      have hld0_s2 : s2.tree.links[link]? = some ld0 := by
        have hl1 : link < s1.tree.links.length := by
          rcases List.getElem?_eq_some.1 hld0_s1 with ⟨hx, _⟩
          exact hx
        rw [hb2.links_pres link hl1]
        exact hld0_s1
      have hmods23 : t2.mods = s2.tree.mods := by
        rw [ht2, lspr_mods, htmid, lspt_mods]
      have hlinks23_len : t2.links.length = s2.tree.links.length := by
        rw [ht2, lspr_links_length, htmid, lspt_links_length]
      have hpown23 : ∀ x, pOwn t2 x = pOwn s2.tree x := fun x => by
        rw [ht2, pOwn_lspr, htmid, pOwn_lspt]
      have hmid_entry : tmid.links[link]? = some { ld0 with points_to := pts } :=
        lspt_get_eq s2.tree link pts ld0 hld0_s2
      have ht2_entry : t2.links[link]? =
          some { ld0 with points_to := pts, problem := rp.snd } :=
        lspr_get_eq tmid link rp.snd _ hmid_entry
      have ht2_ne : ∀ j, j ≠ link → t2.links[j]? = s2.tree.links[j]? := by
        intro j hj
        rw [ht2, lspr_get_ne tmid link rp.snd j hj,
          htmid, lspt_get_ne s2.tree link pts j hj]
      have howner23 : ∀ j, (t2.links[j]?).map LinkData.owner =
          (s2.tree.links[j]?).map LinkData.owner := fun j => by
        rw [ht2, lspr_owner, htmid, lspt_owner]
      have hwritten_ok : linkOk { ld0 with points_to := pts, problem := rp.snd } := by
        obtain ⟨hle, hiff⟩ := resolve_submodule_ok file_id name source_root.file_resolver
        rw [← hrp] at hle hiff
        constructor
        · show pts.length ≤ 2
          rw [hlen2]
          exact hle
        · show pts.length = 0 ↔ problemIsDiagnostic rp.snd = true
          rw [hlen2]
          exact hiff
      have hinv3 : Inv s3 := by
        refine ⟨?_, ?_, ?_, hb2.inv.roots_nodup, hb2.inv.keys_visited, ?_, ?_, ?_⟩
        · intro m hm
          simp only [hs3, hmods23] at hm
          obtain ⟨rm, hrm⟩ := hb2.inv.rooted m hm
          exact ⟨rm, rootedAt_congr hpown23 hrm⟩
        · intro e he
          simp only [hs3, hmods23]
          exact hb2.inv.roots_lt e he
        · intro e he
          obtain ⟨d, hd, hp⟩ := hb2.inv.roots_parent e he
          refine ⟨d, ?_, hp⟩
          show t2.mods[e.snd]? = some d
          rw [hmods23]
          exact hd
        · intro f hf
          obtain ⟨m, d, hmd, hsrc⟩ := hb2.inv.visited_src f hf
          refine ⟨m, d, ?_, hsrc⟩
          show t2.mods[m]? = some d
          rw [hmods23]
          exact hmd
        · intro ld2 hld2
          obtain ⟨j, hj⟩ := List.mem_iff_getElem?.1 hld2
          have hj' : t2.links[j]? = some ld2 := hj
          obtain ⟨ld3, hld3, hld3o⟩ := map_field_extract (howner23 j).symm hj'
          simp only [hs3, hmods23]
          rw [← hld3o]
          exact hb2.inv.owners_lt ld3 (List.getElem?_mem hld3)
        · intro d hd l hl
          simp only [hs3, hmods23] at hd
          simp only [hs3, hlinks23_len]
          exact hb2.inv.parents_lt d hd l hl
      have hcok3 : ChecksOk db s3 := hb2.cok
      -- the remaining names s3 → s4
      have hmpc3 : ModPCAt s3 id := by
        have hmpc2 : ModPCAt s2 id :=
          ModPC_mono (ModPC_mono ⟨hid_lt, r0, hr0, hr0v⟩ hw1) hb2.toBOutW
        obtain ⟨h1, r2, h2, h3⟩ := hmpc2
        refine ⟨?_, r2, rootedAt_congr hpown23 h2, h3⟩
        simp only [hs3, hmods23]
        exact h1
      have hb4 : BOut db s3 s' := ih id file_id s3 s' hinv3 hcok3 hmpc3 hrun
      -- assemble the full contract s → s'
      have hw13 : BOutW db s s3 := by
        refine ⟨hinv3, hcok3, ?_, ?_, ?_, ?_, ?_, ?_, ?_, ?_, ?_⟩
        · calc s.tree.mods.length ≤ s1.tree.mods.length := hw1.mods_len
            _ ≤ s2.tree.mods.length := hb2.mods_len
            _ = s3.tree.mods.length := by simp [hs3, hmods23]
        · calc s.tree.links.length ≤ s1.tree.links.length := hw1.links_len
            _ ≤ s2.tree.links.length := hb2.links_len
            _ = s3.tree.links.length := by simp [hs3, hlinks23_len]
        · intro l hl
          have hne : l ≠ link := by
            rw [hlink]
            omega
          show t2.links[l]? = _
          rw [ht2_ne l hne]
          have hl1 : l < s1.tree.links.length :=
            lt_of_lt_of_le hl hw1.links_len
          rw [hb2.links_pres l hl1, hw1.links_pres l hl]
        · intro m hm
          have h2 := hw1.src_pres m hm
          have h3 := hb2.src_pres m (lt_of_lt_of_le hm hw1.mods_len)
          have h4 : (s3.tree.mods[m]?).map ModuleData.source =
              (s2.tree.mods[m]?).map ModuleData.source := by
            show ((t2.mods)[m]?).map _ = _
            rw [hmods23]
          exact (h4.trans h3).trans h2
        · intro m hm hmv
          have h2 := hw1.parent_pres m hm hmv
          have h3 := hb2.parent_pres m (lt_of_lt_of_le hm hw1.mods_len)
            (fun hcon => hmv (rootsValues_mono hw1.roots_mono hcon))
          have h4 : (s3.tree.mods[m]?).map ModuleData.parent =
              (s2.tree.mods[m]?).map ModuleData.parent := by
            show ((t2.mods)[m]?).map _ = _
            rw [hmods23]
          exact (h4.trans h3).trans h2
        · intro m r hm hrm hrv
          have h2 := hw1.rooted_pres m r hm hrm hrv
          have h3 := hb2.rooted_pres m r (lt_of_lt_of_le hm hw1.mods_len) h2
            (fun hcon => hrv (rootsValues_mono hw1.roots_mono hcon))
          have h4 : ∀ x, pOwn s3.tree x = pOwn s2.tree x := fun x => hpown23 x
          exact rootedAt_congr h4 h3
        · intro e he
          exact hw1.roots_mono e (hb2.roots_mono e he)
        · intro f hf
          exact hb2.visited_mono f (hw1.visited_mono f hf)
        · have e1 := hw1.checks_eq
          have e2 := hb2.checks_eq
          have e3 := hw1.mods_len
          have e4 := hb2.mods_len
          have e5 : s3.checks = s2.checks := rfl
          have e6 : s3.tree.mods.length = s2.tree.mods.length := by
            simp [hs3, hmods23]
          omega
      refine ⟨BOutW_trans hw13 hb4.toBOutW, ?_⟩
      -- all links pushed since s are complete
      intro l ld2 hl hld2
      by_cases hcase : l < s3.tree.links.length
      · rw [hb4.links_pres l hcase] at hld2
        by_cases hll : l = link
        · rw [hll] at hld2
          have hentry : (s3.tree.links[link]?) =
              some { ld0 with points_to := pts, problem := rp.snd } := ht2_entry
          rw [hentry] at hld2
          have he := Option.some.inj hld2
          rw [← he]
          exact hwritten_ok
        · have h2 : (s3.tree.links[l]?) = s2.tree.links[l]? := ht2_ne l hll
          rw [h2] at hld2
          have hl1 : s1.tree.links.length ≤ l := by
            have : s1.tree.links.length = s.tree.links.length + 1 := by
              show t1.links.length = _
              rw [hlinks1]
              simp
            rw [hlink] at hll
            omega
          exact hb2.links_new l ld2 hl1 hld2
      · exact hb4.links_new l ld2 (by omega) hld2

lemma rootedAt_push_mod (t : ModuleTree) (d : ModuleData)
    (howners : ∀ ld ∈ t.links, ld.owner < t.mods.length)
    {m r : ModuleId} (hm : m < t.mods.length) (h : RootedAt t m r) :
    RootedAt (t.push_mod d).1 m r := by
  induction h with
  | root m h2 => exact RootedAt.root m ((pOwn_push_mod_lt t d m hm).trans h2)
  | step m p r h2 hp2 ih =>
    have hp_lt : p < t.mods.length := pOwn_lt t howners h2
    exact RootedAt.step m p r ((pOwn_push_mod_lt t d m hm).trans h2) (ih hp_lt)

/-! ### The contract of `build_subtree` -/

lemma build_subtree_contract (db : Db) (source_root : SourceRoot) :
    ∀ (fuel : Nat) (parent : Option LinkId) (file_id : FileId)
      (s : BuildState) (id : ModuleId) (s' : BuildState),
      Inv s → ChecksOk db s →
      (∀ link, parent = some link → LinkPCAt s link) →
      build_subtree db source_root fuel parent file_id s = Except.ok (id, s') →
      BOut db s s' ∧ id = s.tree.mods.length ∧
        s.tree.mods.length < s'.tree.mods.length ∧
        (∃ d, s'.tree.mods[id]? = some d ∧
          d.source = ModuleSource.file file_id ∧ d.parent = parent) ∧
        file_id ∈ s'.visited := by
  intro fuel
  induction fuel with
  | zero =>
    intro parent file_id s id s' _ _ _ hrun
    simp only [build_subtree] at hrun
    exact Except.noConfusion hrun
  | succ fuel2 ihf =>
    intro parent file_id s id s' hi hc hpc hrun
    simp only [build_subtree] at hrun
    set d0 : ModuleData :=
      { source := ModuleSource.file file_id, parent := parent, children := [] } with hd0
    set t2 := (s.tree.push_mod d0).1 with ht2
    set idp := (s.tree.push_mod d0).2 with hidp
    set s2 : BuildState :=
      { tree := t2, visited := insertVisited file_id s.visited,
        roots := s.roots, checks := s.checks } with hs2
    have hidp_eq : idp = s.tree.mods.length := push_mod_snd s.tree d0
    have ht2_mods : t2.mods = s.tree.mods ++ [d0] := push_mod_mods s.tree d0
    have ht2_links : t2.links = s.tree.links := push_mod_links s.tree d0
    have ht2_len : t2.mods.length = s.tree.mods.length + 1 := by
      rw [ht2_mods]
      simp
    have hd0_at : t2.mods[idp]? = some d0 := by
      rw [ht2_mods, hidp_eq]
      exact List.getElem?_concat_length _ _
    have hnotval : idp ∉ rootsValues s.roots := by
      intro hmem
      rcases List.mem_map.1 hmem with ⟨e, he, hev⟩
      have h2 := hi.roots_lt e he
      exact absurd hev (Nat.ne_of_lt h2)
    rcases hsub : submodules db file_id s2 with _ | ⟨names, s3⟩
    · rw [hsub] at hrun
      exact Except.noConfusion hrun
    · rw [hsub] at hrun
      dsimp only [] at hrun
      obtain ⟨hnames, hs3, hcok3⟩ := submodules_ok hsub
      have hs3tree : s3.tree = t2 := by rw [hs3]
      have hs3vis : s3.visited = insertVisited file_id s.visited := by rw [hs3]
      have hs3roots : s3.roots = s.roots := by rw [hs3]
      have hs3checks : s3.checks = s.checks + 1 := by rw [hs3]
      have hpc_new : ∃ rr, RootedAt t2 idp rr ∧ rr ∉ rootsValues s.roots := by
        have hnew := pOwn_push_mod_new s.tree d0
        rcases hp : parent with _ | link
        · refine ⟨idp, RootedAt.root idp ?_, hnotval⟩
          have hd0p : d0.parent = none := by rw [hd0, hp]
          rw [hidp_eq, ht2, hnew, hd0p]
        · obtain ⟨ld, hld, r0, hr0, hr0v⟩ := hpc link hp
          have hstep : pOwn t2 idp = some ld.owner := by
            have hd0p : d0.parent = some link := by rw [hd0, hp]
            rw [hidp_eq, ht2, hnew, hd0p]
            dsimp only []
            rw [hld]
            rfl
          have howner : ld.owner < s.tree.mods.length :=
            hi.owners_lt ld (List.getElem?_mem hld)
          refine ⟨r0, RootedAt.step idp ld.owner r0 hstep ?_, hr0v⟩
          exact rootedAt_push_mod s.tree d0 hi.owners_lt howner hr0
      have hinv3 : Inv s3 := by
        refine ⟨?_, ?_, ?_, ?_, ?_, ?_, ?_, ?_⟩
        · intro m hm
          rw [hs3tree, ht2_len] at hm
          by_cases hml : m < s.tree.mods.length
          · obtain ⟨rm, hrm⟩ := hi.rooted m hml
            refine ⟨rm, ?_⟩
            rw [hs3tree]
            exact rootedAt_push_mod s.tree d0 hi.owners_lt hml hrm
          · have hmeq : m = idp := by
              rw [hidp_eq]
              omega
            obtain ⟨rr, hrr, _⟩ := hpc_new
            refine ⟨rr, ?_⟩
            rw [hs3tree, hmeq]
            exact hrr
        · intro e he
          rw [hs3roots] at he
          rw [hs3tree, ht2_len]
          exact Nat.lt_succ_of_lt (hi.roots_lt e he)
        · intro e he
          rw [hs3roots] at he
          obtain ⟨d, hd, hp2⟩ := hi.roots_parent e he
          refine ⟨d, ?_, hp2⟩
          rw [hs3tree, ht2_mods]
          rcases List.getElem?_eq_some.1 hd with ⟨hlt2, _⟩
          rw [List.getElem?_append_left hlt2]
          exact hd
        · rw [hs3roots]
          exact hi.roots_nodup
        · intro e he
          rw [hs3roots] at he
          rw [hs3vis]
          exact mem_insertVisited_of file_id (hi.keys_visited e he)
        · intro f hf
          rw [hs3vis] at hf
          rcases (mem_insertVisited_iff f file_id s.visited).1 hf with hfe | hfo
          · refine ⟨idp, d0, ?_, ?_⟩
            · rw [hs3tree]
              exact hd0_at
            · rw [hd0, hfe]
          · obtain ⟨m, d, hmd, hsrc⟩ := hi.visited_src f hfo
            refine ⟨m, d, ?_, hsrc⟩
            rw [hs3tree, ht2_mods]
            rcases List.getElem?_eq_some.1 hmd with ⟨hlt2, _⟩
            rw [List.getElem?_append_left hlt2]
            exact hmd
        · intro ld hld
          rw [hs3tree, ht2_links] at hld
          rw [hs3tree, ht2_len]
          exact Nat.lt_succ_of_lt (hi.owners_lt ld hld)
        · intro d hd l hl
          rw [hs3tree, ht2_mods] at hd
          rw [hs3tree, ht2_links]
          rcases List.mem_append.1 hd with hd2 | hd2
          · exact hi.parents_lt d hd2 l hl
          · have hde : d = d0 := List.mem_singleton.1 hd2
            rw [hde] at hl
            have hpl : parent = some l := hl
            obtain ⟨ld, hld, _⟩ := hpc l hpl
            rcases List.getElem?_eq_some.1 hld with ⟨hlt2, _⟩
            exact hlt2
      have hb1 : BOut db s s3 := by
        refine ⟨⟨hinv3, hcok3, ?_, ?_, ?_, ?_, ?_, ?_, ?_, ?_, ?_⟩, ?_⟩
        · rw [hs3tree, ht2_len]
          omega
        · rw [hs3tree, ht2_links]
        · intro l hl
          rw [hs3tree, ht2_links]
        · intro m hm
          rw [hs3tree, ht2_mods, List.getElem?_append_left hm]
        · intro m hm hmv
          rw [hs3tree, ht2_mods, List.getElem?_append_left hm]
        · intro m r hm hr hrv
          rw [hs3tree]
          exact rootedAt_push_mod s.tree d0 hi.owners_lt hm hr
        · intro e he
          rw [hs3roots] at he
          exact he
        · intro f hf
          rw [hs3vis]
          exact mem_insertVisited_of file_id hf
        · rw [hs3checks, hs3tree, ht2_len]
          omega
        · intro l ld hl hld
          rcases List.getElem?_eq_some.1 hld with ⟨hlt2, _⟩
          rw [hs3tree, ht2_links] at hlt2
          omega
      have hpcM : ModPCAt s3 idp := by
        obtain ⟨rr, hrr, hrrv⟩ := hpc_new
        refine ⟨?_, rr, ?_, ?_⟩
        · rw [hidp_eq, hs3tree, ht2_len]
          exact Nat.lt_succ_self _
        · rw [hs3tree]
          exact hrr
        · rw [hs3roots]
          exact hrrv
      rcases hbl : build_links
          (fun link c sx => build_subtree db source_root fuel2 (some link) c sx)
          source_root idp file_id names s3 with _ | s4
      · rw [hbl] at hrun
        exact Except.noConfusion hrun
      · rw [hbl] at hrun
        have h2 := Except.ok.inj hrun
        rw [Prod.mk.injEq] at h2
        obtain ⟨h3, h4⟩ := h2
        subst h4
        subst h3
        have Hrec : ∀ link c sx idx sx', Inv sx → ChecksOk db sx →
            LinkPCAt sx link →
            build_subtree db source_root fuel2 (some link) c sx =
              Except.ok (idx, sx') → BOut db sx sx' := by
          intro link c sx idx sx' a b pcx run
          exact (ihf (some link) c sx idx sx' a b
            (fun l2 he => Option.some.inj he ▸ pcx) run).1
        have hb2 : BOut db s3 s4 :=
          build_links_contract db source_root _ Hrec names idp file_id s3 s4
            hinv3 hcok3 hpcM hbl
        have hfinal : BOut db s s4 := BOut_trans hb1 hb2
        have hidp_lt3 : idp < s3.tree.mods.length := by
          rw [hidp_eq, hs3tree, ht2_len]
          exact Nat.lt_succ_self _
        have hnotval3 : idp ∉ rootsValues s3.roots := by
          rw [hs3roots]
          exact hnotval
        have hd0_at3 : s3.tree.mods[idp]? = some d0 := by
          rw [hs3tree]
          exact hd0_at
        obtain ⟨d4, hd4, hd4p⟩ :=
          map_field_extract (hb2.parent_pres idp hidp_lt3 hnotval3) hd0_at3
        obtain ⟨d5, hd5, hd5s⟩ :=
          map_field_extract (hb2.src_pres idp hidp_lt3) hd0_at3
        have hde : d4 = d5 := Option.some.inj (hd4.symm.trans hd5)
        refine ⟨hfinal, ?_, ?_, ⟨d4, hd4, ?_, ?_⟩, ?_⟩
        · exact hidp_eq
        · calc s.tree.mods.length < s3.tree.mods.length := hidp_eq ▸ hidp_lt3
            _ ≤ s4.tree.mods.length := hb2.mods_len
        · rw [hde]
          have : d0.source = ModuleSource.file file_id := by rw [hd0]
          rw [hd5s, this]
        · have : d0.parent = parent := by rw [hd0]
          rw [hd4p, this]
        · refine hb2.visited_mono file_id ?_
          rw [hs3vis]
          exact mem_insertVisited_self file_id s.visited

/-! ### The outer loop of `create_module_tree` -/

/-- Inserting a finished top-level subtree root into the orphan-roots map
preserves the invariant. -/
lemma inv_insert_root {db : Db} {s s1 : BuildState} {f : FileId} {mid : ModuleId}
    (hi : Inv s) (hb : BOut db s s1) (hid : mid = s.tree.mods.length)
    (hstrict : s.tree.mods.length < s1.tree.mods.length)
    (hentry : ∃ d, s1.tree.mods[mid]? = some d ∧ d.parent = none)
    (hfvis : f ∈ s1.visited) :
    Inv { s1 with roots := s1.roots ++ [(f, mid)] } := by
  obtain ⟨dmid, hdmid, hdmidp⟩ := hentry
  refine ⟨hb.inv.rooted, ?_, ?_, ?_, ?_, hb.inv.visited_src,
    hb.inv.owners_lt, hb.inv.parents_lt⟩
  · intro e he
    rcases List.mem_append.1 he with h2 | h2
    · exact hb.inv.roots_lt e h2
    · have : e = (f, mid) := List.mem_singleton.1 h2
      rw [this, hid]
      exact hstrict
  · intro e he
    rcases List.mem_append.1 he with h2 | h2
    · exact hb.inv.roots_parent e h2
    · have he2 : e = (f, mid) := List.mem_singleton.1 h2
      rw [he2]
      exact ⟨dmid, hdmid, hdmidp⟩
  · show (rootsValues (s1.roots ++ [(f, mid)])).Nodup
    unfold rootsValues
    rw [List.map_append]
    have h1 : (s1.roots.map Prod.snd).Nodup := hb.inv.roots_nodup
    have h2 : mid ∉ s1.roots.map Prod.snd := by
      intro hmem
      rcases List.mem_map.1 hmem with ⟨e, he, hev⟩
      have h3 : e ∈ s.roots := hb.roots_mono e he
      have h4 := hi.roots_lt e h3
      rw [hid] at hev
      exact absurd hev (Nat.ne_of_lt h4)
    simp [List.nodup_append, h1, h2]
  · intro e he
    rcases List.mem_append.1 he with h2 | h2
    · exact hb.inv.keys_visited e h2
    · have he2 : e = (f, mid) := List.mem_singleton.1 h2
      rw [he2]
      exact hfvis

lemma create_go_contract (db : Db) (source_root : SourceRoot) (fuel : Nat) :
    ∀ (files : List FileId) (s s' : BuildState), Inv s → ChecksOk db s →
      create_module_tree_go db source_root fuel files s = Except.ok s' →
      Inv s' ∧ ChecksOk db s' ∧
        s.tree.mods.length ≤ s'.tree.mods.length ∧
        (∀ l, l < s.tree.links.length → s'.tree.links[l]? = s.tree.links[l]?) ∧
        (∀ l ld, s.tree.links.length ≤ l → s'.tree.links[l]? = some ld → linkOk ld) ∧
        (∀ f ∈ s.visited, f ∈ s'.visited) ∧
        s'.checks = s.checks + (s'.tree.mods.length - s.tree.mods.length) ∧
        (∀ f ∈ files, f ∈ s'.visited) := by
  intro files
  induction files with
  | nil =>
    intro s s' hi hc hrun
    simp only [create_module_tree_go] at hrun
    have h2 := Except.ok.inj hrun
    subst h2
    refine ⟨hi, hc, le_refl _, fun _ _ => rfl, ?_, fun _ h => h, by omega, ?_⟩
    · intro l ld hl hld
      rcases List.getElem?_eq_some.1 hld with ⟨hlt, _⟩
      omega
    · intro f hf
      exact absurd hf (List.not_mem_nil f)
  | cons f rest ihl =>
    intro s s' hi hc hrun
    simp only [create_module_tree_go] at hrun
    by_cases hv : f ∈ s.visited
    · rw [if_pos hv] at hrun
      obtain ⟨i1, c1, m1, lp1, ln1, vm1, ce1, pr1⟩ := ihl s s' hi hc hrun
      refine ⟨i1, c1, m1, lp1, ln1, vm1, ce1, ?_⟩
      intro g hg
      rcases List.mem_cons.1 hg with hg2 | hg2
      · rw [hg2]
        exact vm1 f hv
      · exact pr1 g hg2
    · rw [if_neg hv] at hrun
      have hnone : rootsLookup s.roots f = none := by
        rcases hlk : rootsLookup s.roots f with _ | a
        · rfl
        · have hmem : (f, a) ∈ s.roots := rootsLookup_some hlk
          exact absurd (hi.keys_visited (f, a) hmem) hv
      rw [hnone] at hrun
      dsimp only [] at hrun
      rcases hbs : build_subtree db source_root fuel none f s with _ | ⟨mid, s1⟩
      · rw [hbs] at hrun
        exact Except.noConfusion hrun
      · rw [hbs] at hrun
        dsimp only [] at hrun
        obtain ⟨hb, hid, hstrict, hentry, hfvis⟩ :=
          build_subtree_contract db source_root fuel none f s mid s1 hi hc
            (fun l hl => Option.noConfusion hl) hbs
        set s2 : BuildState := { s1 with roots := s1.roots ++ [(f, mid)] } with hs2
        have hinv2 : Inv s2 := by
          refine inv_insert_root hi hb hid hstrict ?_ hfvis
          obtain ⟨d, hd, _, hdp⟩ := hentry
          exact ⟨d, hd, hdp⟩
        have hcok2 : ChecksOk db s2 := hb.cok
        obtain ⟨i1, c1, m1, lp1, ln1, vm1, ce1, pr1⟩ :=
          ihl s2 s' hinv2 hcok2 hrun
        have hs2tree : s2.tree = s1.tree := rfl
        have hs2checks : s2.checks = s1.checks := rfl
        have hs2vis : s2.visited = s1.visited := rfl
        refine ⟨i1, c1, ?_, ?_, ?_, ?_, ?_, ?_⟩
        · calc s.tree.mods.length ≤ s1.tree.mods.length := hb.mods_len
            _ = s2.tree.mods.length := by rw [hs2tree]
            _ ≤ s'.tree.mods.length := m1
        · intro l hl
          have hl2 : l < s2.tree.links.length := by
            rw [hs2tree]
            exact lt_of_lt_of_le hl hb.links_len
          rw [lp1 l hl2, hs2tree]
          exact hb.links_pres l hl
        · intro l ld hl hld
          by_cases hcase : l < s2.tree.links.length
          · rw [lp1 l hcase] at hld
            rw [hs2tree] at hld
            exact hb.links_new l ld hl hld
          · refine ln1 l ld ?_ hld
            omega
        · intro g hg
          refine vm1 g ?_
          rw [hs2vis]
          exact hb.visited_mono g hg
        · have e1 := hb.checks_eq
          have e2 := ce1
          have e3 := hb.mods_len
          have e4 := m1
          have e5 : s2.checks = s1.checks := rfl
          have e6 : s2.tree.mods.length = s1.tree.mods.length := rfl
          omega
        · intro g hg
          rcases List.mem_cons.1 hg with hg2 | hg2
          · rw [hg2]
            refine vm1 f ?_
            rw [hs2vis]
            exact hfvis
          · exact pr1 g hg2

/-- The fresh state satisfies the invariant. -/
lemma inv_init : Inv initState := by
  refine ⟨?_, ?_, ?_, ?_, ?_, ?_, ?_, ?_⟩
  · intro m hm
    simp [initState] at hm
  · intro e he
    simp [initState] at he
  · intro e he
    simp [initState] at he
  · simp [initState, rootsValues]
  · intro e he
    simp [initState] at he
  · intro f hf
    simp [initState] at hf
  · intro ld hld
    simp [initState] at hld
  · intro d hd
    simp [initState] at hd

/-- The state after the initial cancellation check of `module_tree`. -/
lemma inv_after_check {db : Db} {s1 : BuildState}
    (h : check_canceled db initState = Except.ok s1) :
    Inv s1 ∧ ChecksOk db s1 ∧ s1.tree = initState.tree ∧
      s1.checks = 1 ∧ s1.visited = [] := by
  obtain ⟨he, hok⟩ := check_canceled_ok h
  subst he
  refine ⟨?_, hok, rfl, rfl, rfl⟩
  refine ⟨?_, ?_, ?_, ?_, ?_, ?_, ?_, ?_⟩
  · intro m hm
    simp [initState] at hm
  · intro e he
    simp [initState] at he
  · intro e he
    simp [initState] at he
  · simp [initState, rootsValues]
  · intro e he
    simp [initState] at he
  · intro f hf
    simp [initState] at hf
  · intro ld hld
    simp [initState] at hld
  · intro d hd
    simp [initState] at hd

/-- The full contract of the `module_tree` query on success. -/
lemma module_tree_contract {db : Db} {source_root : SourceRoot} {fuel : Nat}
    {t : ModuleTree} {n : Nat}
    (h : module_tree db source_root fuel = Except.ok (t, n)) :
    (∀ ld ∈ t.links, linkOk ld) ∧
      (∀ ld ∈ t.links, ld.owner < t.mods.length) ∧
      (∀ d ∈ t.mods, ∀ l, d.parent = some l → l < t.links.length) ∧
      (∀ m, m < t.mods.length → ∃ r, RootedAt t m r) ∧
      (∀ f ∈ source_root.files, ∃ d ∈ t.mods, d.source = ModuleSource.file f) ∧
      n = 1 + t.mods.length ∧
      (∀ k, db.cancelAt = some k → n ≤ k) := by
  unfold module_tree at h
  rcases hck : check_canceled db initState with _ | s1
  · rw [hck] at h
    exact Except.noConfusion h
  · rw [hck] at h
    dsimp only [] at h
    rcases hcr : create_module_tree db source_root fuel s1 with _ | s2
    · rw [hcr] at h
      exact Except.noConfusion h
    · rw [hcr] at h
      dsimp only [] at h
      have h2 := Except.ok.inj h
      rw [Prod.mk.injEq] at h2
      obtain ⟨h3, h4⟩ := h2
      obtain ⟨hi1, hc1, htree1, hchecks1, hvis1⟩ := inv_after_check hck
      unfold create_module_tree at hcr
      obtain ⟨i2, c2, m2, lp2, ln2, vm2, ce2, pr2⟩ :=
        create_go_contract db source_root fuel source_root.files s1 s2 hi1 hc1 hcr
      have hlinks0 : s1.tree.links.length = 0 := by
        rw [htree1]
        rfl
      have hmods0 : s1.tree.mods.length = 0 := by
        rw [htree1]
        rfl
      refine ⟨?_, ?_, ?_, ?_, ?_, ?_, ?_⟩
      · intro ld hld
        obtain ⟨j, hj⟩ := List.mem_iff_getElem?.1 hld
        refine ln2 j ld ?_ ?_
        · omega
        · rw [h3]
          exact hj
      · intro ld hld
        rw [← h3] at hld ⊢
        exact i2.owners_lt ld hld
      · intro d hd l hl
        rw [← h3] at hd ⊢
        exact i2.parents_lt d hd l hl
      · intro m hm
        rw [← h3] at hm ⊢
        exact i2.rooted m hm
      · intro f hf
        have hfv : f ∈ s2.visited := pr2 f hf
        obtain ⟨m, d, hmd, hsrc⟩ := i2.visited_src f hfv
        rw [← h3]
        exact ⟨d, List.getElem?_mem hmd, hsrc⟩
      · rw [← h4, ce2, hchecks1, ← h3]
        omega
      · intro k hk
        rw [← h4]
        exact c2 k hk

/-! ### The assertion in `create_module_tree` can never fire -/

lemma check_canceled_error {db : Db} {s : BuildState} {e : BuildErr}
    (h : check_canceled db s = Except.error e) : e = BuildErr.canceled := by
  unfold check_canceled at h
  rcases hc : db.cancelAt with _ | k
  · simp only [hc] at h
    exact Except.noConfusion h
  · simp only [hc] at h
    by_cases hk : k ≤ s.checks
    · rw [if_pos hk] at h
      exact (Except.error.inj h).symm
    · rw [if_neg hk] at h
      exact Except.noConfusion h

lemma submodules_error {db : Db} {f : FileId} {s : BuildState} {e : BuildErr}
    (h : submodules db f s = Except.error e) : e = BuildErr.canceled := by
  unfold submodules at h
  rcases hck : check_canceled db s with e2 | s2
  · rw [hck] at h
    dsimp only [] at h
    rw [← Except.error.inj h]
    exact check_canceled_error hck
  · rw [hck] at h
    exact Except.noConfusion h

lemma build_pts_no_assert (link : LinkId)
    (recurse : FileId → BuildState → Except BuildErr (ModuleId × BuildState))
    (H : ∀ c s, recurse c s ≠ Except.error BuildErr.assertFailed) :
    ∀ (cands : List FileId) (s : BuildState),
      build_points_to recurse link cands s ≠ Except.error BuildErr.assertFailed := by
  intro cands
  induction cands with
  | nil =>
    intro s hcon
    simp only [build_points_to] at hcon
    exact Except.noConfusion hcon
  | cons c rest ihc =>
    intro s hcon
    simp only [build_points_to] at hcon
    split at hcon
    · split at hcon
      · rename_i e heq
        rw [Except.error.inj hcon] at heq
        exact ihc _ heq
      · exact Except.noConfusion hcon
    · split at hcon
      · rename_i e heq
        rw [Except.error.inj hcon] at heq
        exact H c s heq
      · split at hcon
        · rename_i e heq
          rw [Except.error.inj hcon] at heq
          exact ihc _ heq
        · exact Except.noConfusion hcon

lemma build_links_no_assert (source_root : SourceRoot)
    (recurse : LinkId → FileId → BuildState → Except BuildErr (ModuleId × BuildState))
    (H : ∀ link c s, recurse link c s ≠ Except.error BuildErr.assertFailed) :
    ∀ (names : List String) (id : ModuleId) (file_id : FileId) (s : BuildState),
      build_links recurse source_root id file_id names s ≠
        Except.error BuildErr.assertFailed := by
  intro names
  induction names with
  | nil =>
    intro id file_id s hcon
    simp only [build_links] at hcon
    exact Except.noConfusion hcon
  | cons name rest ihn =>
    intro id file_id s hcon
    simp only [build_links] at hcon
    split at hcon
    · rename_i e heq
      rw [Except.error.inj hcon] at heq
      exact build_pts_no_assert _ _ (fun c s2 => H _ c s2) _ _ heq
    · exact ihn id file_id _ hcon

lemma build_subtree_no_assert (db : Db) (source_root : SourceRoot) :
    ∀ (fuel : Nat) (parent : Option LinkId) (file_id : FileId) (s : BuildState),
      build_subtree db source_root fuel parent file_id s ≠
        Except.error BuildErr.assertFailed := by
  intro fuel
  induction fuel with
  | zero =>
    intro parent file_id s hcon
    simp only [build_subtree] at hcon
    exact BuildErr.noConfusion (Except.error.inj hcon)
  | succ fuel2 ihf =>
    intro parent file_id s hcon
    simp only [build_subtree] at hcon
    split at hcon
    · rename_i e heq
      rw [Except.error.inj hcon] at heq
      have := submodules_error heq
      exact BuildErr.noConfusion this
    · split at hcon
      · rename_i e heq
        rw [Except.error.inj hcon] at heq
        exact build_links_no_assert source_root _
          (fun link c s2 => ihf (some link) c s2) _ _ _ _ heq
      · exact Except.noConfusion hcon

lemma create_go_no_assert (db : Db) (source_root : SourceRoot) (fuel : Nat) :
    ∀ (files : List FileId) (s : BuildState), Inv s → ChecksOk db s →
      create_module_tree_go db source_root fuel files s ≠
        Except.error BuildErr.assertFailed := by
  intro files
  induction files with
  | nil =>
    intro s hi hc hcon
    simp only [create_module_tree_go] at hcon
    exact Except.noConfusion hcon
  | cons f rest ihl =>
    intro s hi hc hcon
    simp only [create_module_tree_go] at hcon
    by_cases hv : f ∈ s.visited
    · rw [if_pos hv] at hcon
      exact ihl s hi hc hcon
    · rw [if_neg hv] at hcon
      rcases hlk : rootsLookup s.roots f with _ | a
      · rw [hlk] at hcon
        dsimp only [] at hcon
        split at hcon
        · rename_i e heq
          rw [Except.error.inj hcon] at heq
          exact build_subtree_no_assert db source_root fuel none f s heq
        · rename_i mid s1 heq
          obtain ⟨hb, hid, hstrict, hentry, hfvis⟩ :=
            build_subtree_contract db source_root fuel none f s mid s1 hi hc
              (fun l hl => Option.noConfusion hl) heq
          have hinv2 : Inv { s1 with roots := s1.roots ++ [(f, mid)] } := by
            refine inv_insert_root hi hb hid hstrict ?_ hfvis
            obtain ⟨d, hd, _, hdp⟩ := hentry
            exact ⟨d, hd, hdp⟩
          exact ihl _ hinv2 hb.cok hcon
      · have hmem : (f, a) ∈ s.roots := rootsLookup_some hlk
        exact absurd (hi.keys_visited (f, a) hmem) hv

/-- Does a run of `module_tree` end in the assertion failure of
`create_module_tree`? -/
def isAssertFailure : Except BuildErr (ModuleTree × Nat) → Bool
  | Except.error BuildErr.assertFailed => true
  | _ => false

/-! ### The builder claims -/

/-- The duplication scenario: file 0 is a `lib.rs`, file 1 a `main.rs`,
file 2 a `foo.rs`; both `lib.rs` and `main.rs` declare `mod foo;`, and
`../foo.rs` resolves to file 2 from either anchor. -/
def dupResolver : FileResolverImp where
  file_stem := fun f => if f = 0 then "lib" else if f = 1 then "main" else "foo"
  resolve := fun _ rel => if rel = "../foo.rs" then some 2 else none

def dupDb : Db where
  submodules_of := fun f => if f = 2 then [] else ["foo"]
  cancelAt := none

def dupRoot : SourceRoot where
  files := [0, 1, 2]
  file_resolver := dupResolver

/-- How many module entries of the tree have the given file as their
source. -/
def countFileSource (t : ModuleTree) (f : FileId) : Nat :=
  (t.mods.filter (fun d => decide (d.source = ModuleSource.file f))).length

/-- The tree the builder produces on the duplication scenario. -/
def dupTree : ModuleTree where
  mods := [
    { source := ModuleSource.file 0, parent := none, children := [0] },
    { source := ModuleSource.file 2, parent := some 0, children := [] },
    { source := ModuleSource.file 1, parent := none, children := [1] },
    { source := ModuleSource.file 2, parent := some 1, children := [] }]
  links := [
    { name := "foo", owner := 0, points_to := [1], problem := none },
    { name := "foo", owner := 2, points_to := [3], problem := none }]

/-- C2 (counterexample): on the duplication scenario the build succeeds,
file 2 belongs to the source root, and file 2 is the `File` source of two
module entries, not exactly one: the recursion in `build_subtree` consults
only the orphan-roots map, not the visited set, so a file declared as a
submodule by two different files is built twice. -/
theorem claim_C2_counterexample :
    module_tree dupDb dupRoot 10 = Except.ok (dupTree, 5) ∧
      2 ∈ dupRoot.files ∧
      countFileSource dupTree 2 = 2 ∧ countFileSource dupTree 2 ≠ 1 := by
  refine ⟨rfl, by decide, by decide, by decide⟩

/-- C2 (amended): each FileHandle belonging to the SourceRoot appears as
the File source of at least one module entry of the produced ModuleTree,
regardless of which files declare which submodules and of iteration order;
it can appear as the source of more than one entry. -/
theorem claim_C2_file_sources (db : Db) (source_root : SourceRoot)
    (fuel : Nat) (t : ModuleTree) (n : Nat)
    (h : module_tree db source_root fuel = Except.ok (t, n)) :
    ∀ f ∈ source_root.files, ∃ d ∈ t.mods, d.source = ModuleSource.file f :=
  (module_tree_contract h).2.2.2.2.1

/-- Witness for the amended C2 at the duplication scenario: file 2 of the
source root has a module entry. -/
theorem claim_C2_file_sources_witness :
    ∃ d ∈ dupTree.mods, d.source = ModuleSource.file 2 :=
  claim_C2_file_sources dupDb dupRoot 10 dupTree 5 rfl 2 (by decide)

/-- C4: in every tree the builder produces, every link points to at most
two children, and to none exactly when its problem is one of the two
diagnostic variants (`UnresolvedModule` or `NotDirOwner`). -/
theorem claim_C4_link_invariant (db : Db) (source_root : SourceRoot)
    (fuel : Nat) (t : ModuleTree) (n : Nat)
    (h : module_tree db source_root fuel = Except.ok (t, n)) :
    ∀ ld ∈ t.links, ld.points_to.length ≤ 2 ∧
      (ld.points_to.length = 0 ↔ problemIsDiagnostic ld.problem = true) :=
  fun ld hld => (module_tree_contract h).1 ld hld

/-- Witness for C4 at the duplication scenario, on its first link. -/
theorem claim_C4_witness :
    ({ name := "foo", owner := 0, points_to := [1], problem := none } :
        LinkData).points_to.length ≤ 2 ∧
      (({ name := "foo", owner := 0, points_to := [1], problem := none } :
        LinkData).points_to.length = 0 ↔
        problemIsDiagnostic none = true) :=
  claim_C4_link_invariant dupDb dupRoot 10 dupTree 5 rfl _ (by decide)

/-- C5: in every tree the builder produces (re-parenting included), every
link is owned by a module of the tree, and following parent links from any
module reaches, in finitely many steps, a module whose parent is `None`;
in particular the parent structure has no cycle. -/
theorem claim_C5_parent_acyclic (db : Db) (source_root : SourceRoot)
    (fuel : Nat) (t : ModuleTree) (n : Nat)
    (h : module_tree db source_root fuel = Except.ok (t, n)) :
    (∀ ld ∈ t.links, ld.owner < t.mods.length) ∧
      ∀ m, m < t.mods.length →
        ∃ r, RootedAt t m r ∧ ∃ d, t.mods[r]? = some d ∧ d.parent = none := by
  obtain ⟨_, howners, hparents, hrooted, _, _, _⟩ := module_tree_contract h
  refine ⟨howners, ?_⟩
  intro m hm
  obtain ⟨r, hr⟩ := hrooted m hm
  have hrlt : r < t.mods.length := rootedAt_lt t howners hm hr
  have hterm : pOwn t r = none := hr.terminal
  obtain ⟨d, hd⟩ : ∃ d, t.mods[r]? = some d :=
    ⟨t.mods[r], List.getElem?_eq_getElem hrlt⟩
  refine ⟨r, hr, d, hd, ?_⟩
  rcases hdp : d.parent with _ | l
  · rfl
  · have hllt : l < t.links.length :=
      hparents d (List.getElem?_mem hd) l hdp
    obtain ⟨ld, hld⟩ : ∃ ld, t.links[l]? = some ld :=
      ⟨t.links[l], List.getElem?_eq_getElem hllt⟩
    have : pOwn t r = some ld.owner := by
      simp [pOwn, hd, hdp, hld]
    rw [this] at hterm
    exact Option.noConfusion hterm

/-- Witness for C5 at the duplication scenario: the walk from module 3
(the second copy of `foo.rs`) reaches a parentless module. -/
theorem claim_C5_witness :
    ∃ r, RootedAt dupTree 3 r ∧
      ∃ d, dupTree.mods[r]? = some d ∧ d.parent = none :=
  (claim_C5_parent_acyclic dupDb dupRoot 10 dupTree 5 rfl).2 3 (by decide)

/-! ### Cancellation simulation: a run that would pass the flag is cut -/

lemma sim_check {db : Db} {k : Nat} {s s' : BuildState}
    (h : check_canceled { db with cancelAt := none } s = Except.ok s') :
    s.checks ≤ s'.checks ∧
      (s.checks ≤ k →
        (s'.checks ≤ k →
          check_canceled { db with cancelAt := some k } s = Except.ok s') ∧
        (k < s'.checks →
          check_canceled { db with cancelAt := some k } s =
            Except.error BuildErr.canceled)) := by
  unfold check_canceled at h ⊢
  dsimp only [] at h ⊢
  have he := Except.ok.inj h
  have hch : s'.checks = s.checks + 1 := by
    rw [← he]
  refine ⟨by omega, ?_⟩
  intro hpre
  refine ⟨?_, ?_⟩
  · intro hle
    rw [if_neg (by omega), he]
  · intro hlt
    rw [if_pos (by omega)]

lemma sim_submodules {db : Db} {k : Nat} {f : FileId} {s s' : BuildState}
    {names : List String}
    (h : submodules { db with cancelAt := none } f s = Except.ok (names, s')) :
    s.checks ≤ s'.checks ∧
      (s.checks ≤ k →
        (s'.checks ≤ k →
          submodules { db with cancelAt := some k } f s = Except.ok (names, s')) ∧
        (k < s'.checks →
          submodules { db with cancelAt := some k } f s =
            Except.error BuildErr.canceled)) := by
  unfold submodules at h ⊢
  rcases hck : check_canceled { db with cancelAt := none } s with e | s2
  · rw [hck] at h
    exact Except.noConfusion h
  · rw [hck] at h
    dsimp only [] at h
    have h2 := Except.ok.inj h
    rw [Prod.mk.injEq] at h2
    obtain ⟨h3, h4⟩ := h2
    subst h4
    obtain ⟨hm, hcl⟩ := sim_check (k := k) hck
    refine ⟨hm, ?_⟩
    intro hpre
    obtain ⟨hok, herr⟩ := hcl hpre
    refine ⟨?_, ?_⟩
    · intro hle
      rw [hok hle]
      dsimp only []
      rw [h3]
    · intro hlt
      rw [herr hlt]

/-- The simulation statement for a builder stage returning a value and a
state: the number of checks never decreases, and if the stage starts below
the flag index, the flagged run either coincides with the unflagged one
(when it stays at or below the flag) or is cancelled (when it would pass
it). -/
def SimOk {α : Type} (db : Db) (k : Nat)
    (FN FS : BuildState → Except BuildErr (α × BuildState)) : Prop :=
  ∀ s v s', FN s = Except.ok (v, s') →
    s.checks ≤ s'.checks ∧
      (s.checks ≤ k →
        (s'.checks ≤ k → FS s = Except.ok (v, s')) ∧
        (k < s'.checks → FS s = Except.error BuildErr.canceled))

/-- The simulation statement for a builder stage returning only a state. -/
def SimSt (db : Db) (k : Nat)
    (FN FS : BuildState → Except BuildErr BuildState) : Prop :=
  ∀ s s', FN s = Except.ok s' →
    s.checks ≤ s'.checks ∧
      (s.checks ≤ k →
        (s'.checks ≤ k → FS s = Except.ok s') ∧
        (k < s'.checks → FS s = Except.error BuildErr.canceled))

lemma sim_pts (db : Db) (k : Nat) (link : LinkId)
    (recN recS : FileId → BuildState → Except BuildErr (ModuleId × BuildState))
    (Hsim : ∀ c, SimOk db k (recN c) (recS c)) :
    ∀ cands, SimOk db k
      (fun s => build_points_to recN link cands s)
      (fun s => build_points_to recS link cands s) := by
  intro cands
  induction cands with
  | nil =>
    intro s v s' h
    simp only [build_points_to] at h
    have h2 := Except.ok.inj h
    rw [Prod.mk.injEq] at h2
    obtain ⟨h3, h4⟩ := h2
    subst h3
    subst h4
    refine ⟨le_refl _, ?_⟩
    intro hpre
    exact ⟨fun _ => rfl, fun hlt => absurd hlt (by omega)⟩
  | cons c rest ihc =>
    intro s v s' h
    simp only [build_points_to] at h
    rcases hlk : rootsLookup s.roots c with _ | a
    · rw [hlk] at h
      dsimp only [] at h
      rcases hrec : recN c s with e | ⟨mid, s1⟩
      · rw [hrec] at h
        exact Except.noConfusion h
      · rw [hrec] at h
        dsimp only [] at h
        rcases hbp : build_points_to recN link rest s1 with e | ⟨pts, s2⟩
        · rw [hbp] at h
          exact Except.noConfusion h
        · rw [hbp] at h
          dsimp only [] at h
          have h2 := Except.ok.inj h
          rw [Prod.mk.injEq] at h2
          obtain ⟨h3, h4⟩ := h2
          subst h3
          subst h4
          obtain ⟨m1, hcl1⟩ := Hsim c s mid s1 hrec
          obtain ⟨m2, hcl2⟩ := ihc s1 pts s2 hbp
          dsimp only [] at m2 hcl2
          refine ⟨le_trans m1 m2, ?_⟩
          intro hpre
          by_cases hc1 : k < s1.checks
          · obtain ⟨_, er1⟩ := hcl1 hpre
            refine ⟨fun hle => absurd hle (by omega), fun hlt => ?_⟩
            show build_points_to recS link (c :: rest) s =
              Except.error BuildErr.canceled
            simp only [build_points_to]
            rw [hlk]
            dsimp only []
            rw [er1 hc1]
          · obtain ⟨ok1, _⟩ := hcl1 hpre
            obtain ⟨ok2, er2⟩ := hcl2 (by omega)
            refine ⟨fun hle => ?_, fun hlt => ?_⟩
            · show build_points_to recS link (c :: rest) s =
                Except.ok (mid :: pts, s2)
              simp only [build_points_to]
              rw [hlk]
              dsimp only []
              rw [ok1 (by omega)]
              dsimp only []
              rw [ok2 hle]
            · show build_points_to recS link (c :: rest) s =
                Except.error BuildErr.canceled
              simp only [build_points_to]
              rw [hlk]
              dsimp only []
              rw [ok1 (by omega)]
              dsimp only []
              rw [er2 hlt]
    · rw [hlk] at h
      dsimp only [] at h
      rcases hbp : build_points_to recN link rest { tree := s.tree.module_set_parent a (some link), visited := s.visited, roots := rootsRemove s.roots c, checks := s.checks } with e | ⟨pts, s2⟩
      · rw [hbp] at h
        exact Except.noConfusion h
      · rw [hbp] at h
        dsimp only [] at h
        have h2 := Except.ok.inj h
        rw [Prod.mk.injEq] at h2
        obtain ⟨h3, h4⟩ := h2
        subst h3
        subst h4
        obtain ⟨m2, hcl2⟩ := ihc _ pts s2 hbp
        dsimp only [] at m2 hcl2
        refine ⟨m2, ?_⟩
        intro hpre
        obtain ⟨ok2, er2⟩ := hcl2 hpre
        refine ⟨fun hle => ?_, fun hlt => ?_⟩
        · show build_points_to recS link (c :: rest) s =
            Except.ok (a :: pts, s2)
          simp only [build_points_to]
          rw [hlk]
          dsimp only []
          rw [ok2 hle]
        · show build_points_to recS link (c :: rest) s =
            Except.error BuildErr.canceled
          simp only [build_points_to]
          rw [hlk]
          dsimp only []
          rw [er2 hlt]

lemma sim_links (db : Db) (k : Nat) (source_root : SourceRoot)
    (recN recS : LinkId → FileId → BuildState → Except BuildErr (ModuleId × BuildState))
    (Hsim : ∀ link c, SimOk db k (recN link c) (recS link c)) :
    ∀ names id file_id, SimSt db k
      (fun s => build_links recN source_root id file_id names s)
      (fun s => build_links recS source_root id file_id names s) := by
  intro names
  induction names with
  | nil =>
    intro id file_id s s' h
    simp only [build_links] at h
    have h2 := Except.ok.inj h
    subst h2
    refine ⟨le_refl _, ?_⟩
    intro hpre
    exact ⟨fun _ => rfl, fun hlt => absurd hlt (by omega)⟩
  | cons name rest ihn =>
    intro id file_id s s' h
    simp only [build_links] at h
    split at h
    · exact Except.noConfusion h
    · rename_i pts s2 heq
      obtain ⟨m1, hcl1⟩ :=
        sim_pts db k _ (recN _) (recS _) (fun c => Hsim _ c) _ _ pts s2 heq
      dsimp only [] at m1 hcl1
      obtain ⟨m2, hcl2⟩ := ihn id file_id _ s' h
      dsimp only [] at m2 hcl2
      refine ⟨le_trans m1 m2, ?_⟩
      intro hpre
      by_cases hc1 : k < s2.checks
      · obtain ⟨_, er1⟩ := hcl1 hpre
        refine ⟨fun hle => absurd hle (by omega), fun hlt => ?_⟩
        show build_links recS source_root id file_id (name :: rest) s =
          Except.error BuildErr.canceled
        simp only [build_links]
        rw [er1 hc1]
      · obtain ⟨ok1, _⟩ := hcl1 hpre
        obtain ⟨ok2, er2⟩ := hcl2 (by omega)
        refine ⟨fun hle => ?_, fun hlt => ?_⟩
        · show build_links recS source_root id file_id (name :: rest) s =
            Except.ok s'
          simp only [build_links]
          rw [ok1 (by omega)]
          dsimp only []
          rw [ok2 hle]
        · show build_links recS source_root id file_id (name :: rest) s =
            Except.error BuildErr.canceled
          simp only [build_links]
          rw [ok1 (by omega)]
          dsimp only []
          rw [er2 hlt]

lemma sim_subtree (db : Db) (k : Nat) (source_root : SourceRoot) :
    ∀ fuel parent file_id, SimOk db k
      (fun s => build_subtree { db with cancelAt := none }
        source_root fuel parent file_id s)
      (fun s => build_subtree { db with cancelAt := some k }
        source_root fuel parent file_id s) := by
  intro fuel
  induction fuel with
  | zero =>
    intro parent file_id s v s' h
    simp only [build_subtree] at h
    exact Except.noConfusion h
  | succ fuel2 ihf =>
    intro parent file_id s v s' h
    simp only [build_subtree] at h
    split at h
    · exact Except.noConfusion h
    · rename_i names s3 heq
      split at h
      · exact Except.noConfusion h
      · rename_i s4 heq2
        have h2 := Except.ok.inj h
        rw [Prod.mk.injEq] at h2
        obtain ⟨h3, h4⟩ := h2
        subst h3
        subst h4
        obtain ⟨m1, hcl1⟩ := sim_submodules (k := k) heq
        dsimp only [] at m1 hcl1
        obtain ⟨m2, hcl2⟩ :=
          sim_links db k source_root _ _
            (fun link c => ihf (some link) c) names _ file_id _ s4 heq2
        dsimp only [] at m2 hcl2
        refine ⟨le_trans m1 m2, ?_⟩
        intro hpre
        by_cases hc1 : k < s3.checks
        · obtain ⟨_, er1⟩ := hcl1 hpre
          refine ⟨fun hle => absurd hle (by omega), fun hlt => ?_⟩
          show build_subtree { db with cancelAt := some k } source_root
            (fuel2 + 1) parent file_id s = Except.error BuildErr.canceled
          simp only [build_subtree]
          rw [er1 hc1]
        · obtain ⟨ok1, _⟩ := hcl1 hpre
          obtain ⟨ok2, er2⟩ := hcl2 (by omega)
          refine ⟨fun hle => ?_, fun hlt => ?_⟩
          · show build_subtree { db with cancelAt := some k } source_root
              (fuel2 + 1) parent file_id s = Except.ok _
            simp only [build_subtree]
            rw [ok1 (by omega)]
            dsimp only []
            rw [ok2 hle]
          · show build_subtree { db with cancelAt := some k } source_root
              (fuel2 + 1) parent file_id s = Except.error BuildErr.canceled
            simp only [build_subtree]
            rw [ok1 (by omega)]
            dsimp only []
            rw [er2 hlt]

lemma sim_create_go (db : Db) (k : Nat) (source_root : SourceRoot) (fuel : Nat) :
    ∀ files, SimSt db k
      (fun s => create_module_tree_go { db with cancelAt := none }
        source_root fuel files s)
      (fun s => create_module_tree_go { db with cancelAt := some k }
        source_root fuel files s) := by
  intro files
  induction files with
  | nil =>
    intro s s' h
    simp only [create_module_tree_go] at h
    have h2 := Except.ok.inj h
    subst h2
    refine ⟨le_refl _, ?_⟩
    intro hpre
    exact ⟨fun _ => rfl, fun hlt => absurd hlt (by omega)⟩
  | cons f rest ihl =>
    intro s s' h
    simp only [create_module_tree_go] at h
    by_cases hv : f ∈ s.visited
    · rw [if_pos hv] at h
      obtain ⟨m2, hcl2⟩ := ihl s s' h
      dsimp only [] at m2 hcl2
      refine ⟨m2, ?_⟩
      intro hpre
      obtain ⟨ok2, er2⟩ := hcl2 hpre
      refine ⟨fun hle => ?_, fun hlt => ?_⟩
      · show create_module_tree_go { db with cancelAt := some k }
          source_root fuel (f :: rest) s = Except.ok s'
        simp only [create_module_tree_go]
        rw [if_pos hv]
        exact ok2 hle
      · show create_module_tree_go { db with cancelAt := some k }
          source_root fuel (f :: rest) s = Except.error BuildErr.canceled
        simp only [create_module_tree_go]
        rw [if_pos hv]
        exact er2 hlt
    · rw [if_neg hv] at h
      rcases hlk : rootsLookup s.roots f with _ | a
      · rw [hlk] at h
        dsimp only [] at h
        rcases hbs : build_subtree { db with cancelAt := none }
            source_root fuel none f s with e | ⟨mid, s1⟩
        · rw [hbs] at h
          exact Except.noConfusion h
        · rw [hbs] at h
          dsimp only [] at h
          obtain ⟨m1, hcl1⟩ :=
            sim_subtree db k source_root fuel none f s mid s1 hbs
          dsimp only [] at m1 hcl1
          obtain ⟨m2, hcl2⟩ := ihl _ s' h
          dsimp only [] at m2 hcl2
          refine ⟨le_trans m1 m2, ?_⟩
          intro hpre
          by_cases hc1 : k < s1.checks
          · obtain ⟨_, er1⟩ := hcl1 hpre
            refine ⟨fun hle => absurd hle (by omega), fun hlt => ?_⟩
            show create_module_tree_go { db with cancelAt := some k }
              source_root fuel (f :: rest) s = Except.error BuildErr.canceled
            simp only [create_module_tree_go]
            rw [if_neg hv, hlk]
            dsimp only []
            rw [er1 hc1]
          · obtain ⟨ok1, _⟩ := hcl1 hpre
            obtain ⟨ok2, er2⟩ := hcl2 (by omega)
            refine ⟨fun hle => ?_, fun hlt => ?_⟩
            · show create_module_tree_go { db with cancelAt := some k }
                source_root fuel (f :: rest) s = Except.ok s'
              simp only [create_module_tree_go]
              rw [if_neg hv, hlk]
              dsimp only []
              rw [ok1 (by omega)]
              dsimp only []
              exact ok2 hle
            · show create_module_tree_go { db with cancelAt := some k }
                source_root fuel (f :: rest) s = Except.error BuildErr.canceled
              simp only [create_module_tree_go]
              rw [if_neg hv, hlk]
              dsimp only []
              rw [ok1 (by omega)]
              dsimp only []
              exact er2 hlt
      · rw [hlk] at h
        exact Except.noConfusion h

lemma sim_module_tree (db : Db) (k : Nat) (source_root : SourceRoot)
    (fuel : Nat) {t : ModuleTree} {n : Nat}
    (h : module_tree { db with cancelAt := none } source_root fuel =
      Except.ok (t, n)) (hk : k < n) :
    module_tree { db with cancelAt := some k } source_root fuel =
      Except.error BuildErr.canceled := by
  unfold module_tree at h ⊢
  rcases hck : check_canceled { db with cancelAt := none } initState with e | s1
  · rw [hck] at h
    exact Except.noConfusion h
  · rw [hck] at h
    dsimp only [] at h
    rcases hcr : create_module_tree { db with cancelAt := none }
        source_root fuel s1 with e | s2
    · rw [hcr] at h
      exact Except.noConfusion h
    · rw [hcr] at h
      dsimp only [] at h
      have h2 := Except.ok.inj h
      rw [Prod.mk.injEq] at h2
      obtain ⟨h3, h4⟩ := h2
      obtain ⟨m1, hcl1⟩ := sim_check (k := k) hck
      unfold create_module_tree at hcr ⊢
      obtain ⟨m2, hcl2⟩ :=
        sim_create_go db k source_root fuel source_root.files s1 s2 hcr
      dsimp only [] at m2 hcl2
      have hzero : initState.checks = 0 := rfl
      have hn : s2.checks = n := h4
      obtain ⟨ok1c, er1c⟩ := hcl1 (by omega)
      by_cases hc1 : k < s1.checks
      · rw [er1c hc1]
      · obtain ⟨ok2, er2⟩ := hcl2 (by omega)
        rw [ok1c (by omega)]
        dsimp only []
        rw [er2 (by omega)]


end RaSpec
namespace RaSpec

/-- C8: the `module_tree` query checks cancellation at its start and
exactly once per recursive step of the builder (one check per module
built, plus the initial one); a successful run implies that no check
observed the cancelled state; if the flag is observed already at the
first check, `module_tree` returns the `Cancelled` signal and no tree;
and whenever an unflagged run would perform more than `k` checks, the
same run with the flag raised at check `k` is cancelled: no partial
tree is produced. -/
theorem claim_C8_cancellation (db : Db) (source_root : SourceRoot) (fuel : Nat) :
    (∀ t n, module_tree db source_root fuel = Except.ok (t, n) →
      n = 1 + t.mods.length ∧ ∀ k, db.cancelAt = some k → n ≤ k) ∧
      (db.cancelAt = some 0 →
        module_tree db source_root fuel = Except.error BuildErr.canceled) ∧
      (∀ k t n,
        module_tree { db with cancelAt := none } source_root fuel =
          Except.ok (t, n) → k < n →
        module_tree { db with cancelAt := some k } source_root fuel =
          Except.error BuildErr.canceled) := by
  refine ⟨?_, ?_, ?_⟩
  · intro t n h
    obtain ⟨_, _, _, _, _, hn, hk⟩ := module_tree_contract h
    exact ⟨hn, hk⟩
  · intro h0
    unfold module_tree check_canceled
    rw [h0]
    simp [initState]
  · intro k t n h hk
    exact sim_module_tree db k source_root fuel h hk

/-- The single-file scenario used to witness C8. -/
def oneDb : Db where
  submodules_of := fun _ => []
  cancelAt := some 5

def oneDbZero : Db where
  submodules_of := fun _ => []
  cancelAt := some 0

def oneResolver : FileResolverImp where
  file_stem := fun _ => "lib"
  resolve := fun _ _ => none

def oneRoot : SourceRoot where
  files := [7]
  file_resolver := oneResolver

def oneTree : ModuleTree where
  mods := [{ source := ModuleSource.file 7, parent := none, children := [] }]
  links := []

/-- Witness for C8: the single-file run performs 2 checks = 1 + 1 module,
stays under the flag set at check 5, with the flag observed at the first
check the query is cancelled, and the same run with the flag raised at
check 1 (inside the 2-check run) is cancelled as well. -/
theorem claim_C8_witness :
    ((2 : Nat) = 1 + oneTree.mods.length ∧ (2 : Nat) ≤ 5) ∧
      module_tree oneDbZero oneRoot 3 = Except.error BuildErr.canceled ∧
      module_tree { oneDb with cancelAt := some 1 } oneRoot 3 =
        Except.error BuildErr.canceled := by
  refine ⟨?_, ?_, ?_⟩
  · have h := (claim_C8_cancellation oneDb oneRoot 3).1 oneTree 2 rfl
    exact ⟨h.1, h.2 5 (by decide)⟩
  · exact (claim_C8_cancellation oneDbZero oneRoot 3).2.1 (by decide)
  · exact (claim_C8_cancellation oneDb oneRoot 3).2.2 1 oneTree 2 rfl (by decide)

lemma module_tree_no_assert (db : Db) (source_root : SourceRoot) (fuel : Nat) :
    module_tree db source_root fuel ≠ Except.error BuildErr.assertFailed := by
  intro hcon
  unfold module_tree at hcon
  rcases hck : check_canceled db initState with e | s1
  · rw [hck] at hcon
    dsimp only [] at hcon
    have := check_canceled_error hck
    rw [Except.error.inj hcon] at this
    exact BuildErr.noConfusion this
  · rw [hck] at hcon
    dsimp only [] at hcon
    rcases hcr : create_module_tree db source_root fuel s1 with e | s2
    · rw [hcr] at hcon
      dsimp only [] at hcon
      obtain ⟨hi1, hc1, _, _, _⟩ := inv_after_check hck
      unfold create_module_tree at hcr
      rw [Except.error.inj hcon] at hcr
      exact create_go_no_assert db source_root fuel source_root.files s1 hi1 hc1 hcr
    · rw [hcr] at hcon
      exact Except.noConfusion hcon

/-- C10: every key of the orphan-roots map is also in the visited set at
all times, so the assertion in `create_module_tree` (an unvisited file is
never already an orphan root) can never fail: no run of `module_tree`,
for any engine content, source root or recursion bound, ends in the
assertion failure. -/
theorem claim_C10_assert_never_fails (db : Db) (source_root : SourceRoot)
    (fuel : Nat) : isAssertFailure (module_tree db source_root fuel) = false := by
  rcases hm : module_tree db source_root fuel with e | p
  · rcases e with _ | _ | _
    · rfl
    · rfl
    · exact absurd hm (module_tree_no_assert db source_root fuel)
  · rfl


/-! ### Crate graph

The `CrateGraph` container itself lives outside the two translated
source files, so it is modelled from the spec: a directed multigraph
whose nodes carry a root file and an edition and whose edges carry a
name, and whose `add_dep` operation rejects an edge that would create a
cycle.  The projector `to_crate_graph` below is translated from the
source. -/

/-- Modelled from the spec: the edition tag attached to each crate. -/
inductive Edition where
  | edition2015
  | edition2018
deriving DecidableEq

/-- Modelled from the spec: nodes are `(root_file, edition)` pairs indexed
by dense `CrateId`s, edges are `(from, name, to)` triples. -/
structure CrateGraph where
  nodes : List (FileId × Edition)
  edges : List (Nat × String × Nat)
deriving DecidableEq

def emptyGraph : CrateGraph := { nodes := [], edges := [] }

/-- Fuel-bounded reachability over an edge list; with enough fuel it
decides reachability in the graph. -/
def reachL (es : List (Nat × String × Nat)) : Nat → Nat → Nat → Bool
  | 0, a, b => a == b
  | fuel + 1, a, b =>
    a == b || es.any (fun e => e.1 == a && reachL es fuel e.2.2 b)

/-- Modelled from the spec: adding a crate root appends a node and
returns its dense id. -/
def add_crate_root (g : CrateGraph) (file_id : FileId) (edition : Edition) :
    CrateGraph × Nat :=
  ({ g with nodes := g.nodes ++ [(file_id, edition)] }, g.nodes.length)

/-- Modelled from the spec: an edge is rejected exactly when it would
create a cycle, i.e. when its target already reaches its source. -/
def add_dep (g : CrateGraph) (f : Nat) (name : String) (t : Nat) :
    Except Unit CrateGraph :=
  if reachL g.edges (3 ^ g.edges.length) t f then Except.error ()
  else Except.ok { g with edges := g.edges ++ [(f, name, t)] }

/-- The projector's uniform treatment of `add_dep`: on cycle rejection
the edge is dropped and the graph is kept. -/
def addDepChecked (g : CrateGraph) (f : Nat) (name : String) (t : Nat) :
    CrateGraph :=
  match add_dep g f name t with
  | Except.ok g2 => g2
  | Except.error _ => g

/-- One directed edge step in an edge list. -/
def edgeStepL (es : List (Nat × String × Nat)) (a b : Nat) : Prop :=
  ∃ name, (a, name, b) ∈ es

/-- Reachability (reflexive-transitive closure of the edge step). -/
def ReachesL (es : List (Nat × String × Nat)) (a b : Nat) : Prop :=
  Relation.ReflTransGen (edgeStepL es) a b

def Reaches (g : CrateGraph) (a b : Nat) : Prop := ReachesL g.edges a b

/-- A graph is acyclic when mutual reachability forces equality. -/
def Acyclic (g : CrateGraph) : Prop :=
  ∀ a b, Reaches g a b → Reaches g b a → a = b

/-- Fuel-completeness: `3 ^ |edges|` fuel suffices for `reachL` to find
every reachable pair. -/
def RCompl (es : List (Nat × String × Nat)) : Prop :=
  ∀ a b, ReachesL es a b → reachL es (3 ^ es.length) a b = true

/-- The invariant maintained by the graph operations. -/
def GoodGraph (g : CrateGraph) : Prop := Acyclic g ∧ RCompl g.edges

lemma reachL_refl (es : List (Nat × String × Nat)) (fuel a : Nat) :
    reachL es fuel a a = true := by
  cases fuel <;> simp [reachL]

lemma reachL_mono_fuel (es : List (Nat × String × Nat)) :
    ∀ f1 f2 a b, f1 ≤ f2 → reachL es f1 a b = true →
      reachL es f2 a b = true := by
  intro f1
  induction f1 with
  | zero =>
    intro f2 a b _ h
    simp only [reachL] at h
    have hab : a = b := by simpa using h
    subst hab
    exact reachL_refl es f2 a
  | succ f ih =>
    intro f2 a b hle h
    rcases f2 with _ | f2x
    · omega
    · simp only [reachL, Bool.or_eq_true, List.any_eq_true,
        Bool.and_eq_true] at h ⊢
      rcases h with h | ⟨e, hmem, he1, hrec⟩
      · exact Or.inl h
      · exact Or.inr ⟨e, hmem, he1, ih f2x e.2.2 b (by omega) hrec⟩

lemma reachL_trans (es : List (Nat × String × Nat)) :
    ∀ f1 f2 a b c, reachL es f1 a b = true → reachL es f2 b c = true →
      reachL es (f1 + f2) a c = true := by
  intro f1
  induction f1 with
  | zero =>
    intro f2 a b c h1 h2
    simp only [reachL] at h1
    have hab : a = b := by simpa using h1
    subst hab
    rw [Nat.zero_add]
    exact h2
  | succ f ih =>
    intro f2 a b c h1 h2
    simp only [reachL, Bool.or_eq_true, List.any_eq_true,
      Bool.and_eq_true] at h1
    rcases h1 with h1 | ⟨e, hmem, he1, hrec⟩
    · have hab : a = b := by simpa using h1
      subst hab
      exact reachL_mono_fuel es f2 (f + 1 + f2) a c (by omega) h2
    · have hstep := ih f2 e.2.2 b c hrec h2
      have hfe : f + 1 + f2 = (f + f2) + 1 := by omega
      rw [hfe]
      simp only [reachL, Bool.or_eq_true, List.any_eq_true, Bool.and_eq_true]
      exact Or.inr ⟨e, hmem, he1, hstep⟩

lemma reachL_sound (es : List (Nat × String × Nat)) :
    ∀ fuel a b, reachL es fuel a b = true → ReachesL es a b := by
  intro fuel
  induction fuel with
  | zero =>
    intro a b h
    simp only [reachL] at h
    have hab : a = b := by simpa using h
    subst hab
    exact Relation.ReflTransGen.refl
  | succ f ih =>
    intro a b h
    simp only [reachL, Bool.or_eq_true, List.any_eq_true,
      Bool.and_eq_true] at h
    rcases h with h | ⟨e, hmem, he1, hrec⟩
    · have hab : a = b := by simpa using h
      subst hab
      exact Relation.ReflTransGen.refl
    · have he1x : e.1 = a := by simpa using he1
      have hstep : edgeStepL es a e.2.2 := ⟨e.2.1, by rw [← he1x]; exact hmem⟩
      exact Relation.ReflTransGen.head hstep (ih e.2.2 b hrec)

lemma reachL_mono_edges (es es2 : List (Nat × String × Nat))
    (hsub : ∀ e ∈ es, e ∈ es2) :
    ∀ fuel a b, reachL es fuel a b = true → reachL es2 fuel a b = true := by
  intro fuel
  induction fuel with
  | zero =>
    intro a b h
    simpa only [reachL] using h
  | succ f ih =>
    intro a b h
    simp only [reachL, Bool.or_eq_true, List.any_eq_true,
      Bool.and_eq_true] at h ⊢
    rcases h with h | ⟨e, hmem, he1, hrec⟩
    · exact Or.inl h
    · exact Or.inr ⟨e, hsub e hmem, he1, ih e.2.2 b hrec⟩

lemma reachL_single (es : List (Nat × String × Nat)) (a : Nat) (name : String)
    (b : Nat) (h : (a, name, b) ∈ es) : reachL es 1 a b = true := by
  simp only [reachL, Bool.or_eq_true, List.any_eq_true, Bool.and_eq_true]
  exact Or.inr ⟨(a, name, b), h, by simp, by simp [reachL]⟩

lemma reachL_closed (es : List (Nat × String × Nat)) (S : Nat → Bool)
    (hcl : ∀ e ∈ es, S e.1 = true → S e.2.2 = true) :
    ∀ fuel t f, S t = true → S f = false → reachL es fuel t f = false := by
  intro fuel
  induction fuel with
  | zero =>
    intro t f hT hF
    simp only [reachL]
    rcases eq_or_ne t f with he | hne
    · rw [he] at hT
      rw [hT] at hF
      exact Bool.noConfusion hF
    · simpa using hne
  | succ fl ih =>
    intro t f hT hF
    simp only [reachL]
    have hne : (t == f) = false := by
      rcases eq_or_ne t f with he | hne
      · rw [he] at hT
        rw [hT] at hF
        exact Bool.noConfusion hF
      · simpa using hne
    rw [hne]
    simp only [Bool.false_or]
    rw [List.any_eq_false]
    intro e hmem
    rcases he1 : (e.1 == t) with _ | _
    · simp [he1]
    · have he1x : e.1 = t := by simpa using he1
      have hS2 : S e.2.2 = true := hcl e hmem (by rw [he1x]; exact hT)
      simp [he1, ih e.2.2 f hS2 hF]

lemma ReachesL_append_elim (es : List (Nat × String × Nat)) (x : Nat)
    (nm : String) (y : Nat) :
    ∀ a b, ReachesL (es ++ [(x, nm, y)]) a b →
      ReachesL es a b ∨ (ReachesL es a x ∧ ReachesL es y b) := by
  intro a b h
  induction h with
  | refl => exact Or.inl Relation.ReflTransGen.refl
  | tail h1 h2 ih =>
    rename_i m d
    obtain ⟨name, hmem⟩ := h2
    rcases List.mem_append.mp hmem with hin | hnew
    · rcases ih with hl | ⟨hax, hym⟩
      · exact Or.inl (hl.tail ⟨name, hin⟩)
      · exact Or.inr ⟨hax, hym.tail ⟨name, hin⟩⟩
    · have heq := List.mem_singleton.mp hnew
      rw [Prod.mk.injEq] at heq
      obtain ⟨hmx, heq2⟩ := heq
      rw [Prod.mk.injEq] at heq2
      obtain ⟨-, hdy⟩ := heq2
      subst hmx
      subst hdy
      rcases ih with hl | ⟨hax, -⟩
      · exact Or.inr ⟨hl, Relation.ReflTransGen.refl⟩
      · exact Or.inr ⟨hax, Relation.ReflTransGen.refl⟩

lemma ReachesL_nil (a b : Nat) (h : ReachesL [] a b) : a = b := by
  induction h with
  | refl => rfl
  | tail h1 h2 ih =>
    obtain ⟨name, hmem⟩ := h2
    exact absurd hmem (List.not_mem_nil _)

lemma GoodGraph_empty : GoodGraph emptyGraph := by
  constructor
  · intro a b h1 _
    exact ReachesL_nil a b h1
  · intro a b h
    have := ReachesL_nil a b h
    subst this
    exact reachL_refl _ _ _

lemma GoodGraph_congr (g g2 : CrateGraph) (h : g2.edges = g.edges)
    (hg : GoodGraph g) : GoodGraph g2 := by
  obtain ⟨ha, hr⟩ := hg
  constructor
  · intro a b h1 h2
    rw [Reaches, h] at h1 h2
    exact ha a b h1 h2
  · intro a b h1
    rw [h] at h1 ⊢
    exact hr a b h1

lemma GoodGraph_add_dep (g g2 : CrateGraph) (f : Nat) (name : String) (t : Nat)
    (h : add_dep g f name t = Except.ok g2) (hg : GoodGraph g) :
    GoodGraph g2 := by
  unfold add_dep at h
  split at h
  · exact Except.noConfusion h
  · rename_i hcheck
    rw [Bool.not_eq_true] at hcheck
    have hg2 : g2 = { g with edges := g.edges ++ [(f, name, t)] } :=
      (Except.ok.inj h).symm
    subst hg2
    obtain ⟨ha, hr⟩ := hg
    have hnr : ¬ ReachesL g.edges t f := by
      intro hcon
      have := hr t f hcon
      rw [hcheck] at this
      exact Bool.noConfusion this
    constructor
    · intro a b h1 h2
      have d1 := ReachesL_append_elim g.edges f name t a b h1
      have d2 := ReachesL_append_elim g.edges f name t b a h2
      rcases d1 with d1 | ⟨haf, htb⟩
      · rcases d2 with d2 | ⟨hbf, hta⟩
        · exact ha a b d1 d2
        · exact absurd ((hta.trans d1).trans hbf) hnr
      · rcases d2 with d2 | ⟨hbf, hta⟩
        · exact absurd ((htb.trans d2).trans haf) hnr
        · exact absurd (htb.trans hbf) hnr
    · intro a b h1
      have hsub : ∀ e ∈ g.edges, e ∈ g.edges ++ [(f, name, t)] :=
        fun e he => List.mem_append.mpr (Or.inl he)
      have hlen : (g.edges ++ [(f, name, t)]).length = g.edges.length + 1 := by
        simp
      have hpow : (3 : Nat) ^ (g.edges.length + 1) = 3 ^ g.edges.length * 3 :=
        pow_succ 3 g.edges.length
      have hone : 1 ≤ (3 : Nat) ^ g.edges.length :=
        Nat.one_le_pow g.edges.length 3 (by omega)
      have d1 := ReachesL_append_elim g.edges f name t a b h1
      rcases d1 with d1 | ⟨haf, htb⟩
      · have hbase := hr a b d1
        have hlift := reachL_mono_edges g.edges (g.edges ++ [(f, name, t)])
          hsub (3 ^ g.edges.length) a b hbase
        rw [hlen]
        exact reachL_mono_fuel _ (3 ^ g.edges.length) (3 ^ (g.edges.length + 1))
          a b (by rw [hpow]; omega) hlift
      · have h1x := reachL_mono_edges g.edges (g.edges ++ [(f, name, t)])
          hsub (3 ^ g.edges.length) a f (hr a f haf)
        have h2x := reachL_mono_edges g.edges (g.edges ++ [(f, name, t)])
          hsub (3 ^ g.edges.length) t b (hr t b htb)
        have hstep := reachL_single (g.edges ++ [(f, name, t)]) f name t
          (List.mem_append.mpr (Or.inr (List.mem_singleton.mpr rfl)))
        have hc1 := reachL_trans _ (3 ^ g.edges.length) 1 a f t h1x hstep
        have hc2 := reachL_trans _ (3 ^ g.edges.length + 1)
          (3 ^ g.edges.length) a t b hc1 h2x
        rw [hlen]
        exact reachL_mono_fuel _ _ (3 ^ (g.edges.length + 1)) a b
          (by rw [hpow]; omega) hc2

lemma GoodGraph_addDepChecked (g : CrateGraph) (f : Nat) (name : String)
    (t : Nat) (hg : GoodGraph g) : GoodGraph (addDepChecked g f name t) := by
  unfold addDepChecked
  rcases hd : add_dep g f name t with e | g2
  · exact hg
  · exact GoodGraph_add_dep g g2 f name t hd hg


/-! ### Json workspace projection (translated from
`ProjectWorkspace::to_crate_graph`, Json arm) -/

structure JsonDep where
  krate : Nat
  name : String
deriving DecidableEq

structure JsonCrate where
  root_module : Path
  edition : Edition
  deps : List JsonDep
deriving DecidableEq

structure JsonProject where
  crates : List JsonCrate
deriving DecidableEq

/-- `l.iter().enumerate()` starting at index `i`. -/
def enumFromL {α : Type} (i : Nat) : List α → List (Nat × α)
  | [] => []
  | x :: rest => (i, x) :: enumFromL (i + 1) rest

def enumL {α : Type} (l : List α) : List (Nat × α) := enumFromL 0 l

/-- First-match association lookup (the `FxHashMap` of the source has
unique keys, so first-match agrees with it). -/
def mapLookup {α : Type} : List (Nat × α) → Nat → Option α
  | [], _ => none
  | (k2, v) :: rest, k => if k2 = k then some v else mapLookup rest k

/-- First pass: load each declared root module; on success add a crate
root with the declared edition and record `DeclaredId → CrateId`. -/
def jsonPassOne (load : Path → Option FileId) :
    List (Nat × JsonCrate) → CrateGraph → List (Nat × Nat) →
      CrateGraph × List (Nat × Nat)
  | [], g, m => (g, m)
  | (id, krate) :: rest, g, m =>
    match load krate.root_module with
    | some file_id =>
      let p := add_crate_root g file_id krate.edition
      jsonPassOne load rest p.1 (m ++ [(id, p.2)])
    | none => jsonPassOne load rest g m

/-- Second pass, inner loop: one declared crate's dependency list. -/
def jsonDepEdges (m : List (Nat × Nat)) (id : Nat) :
    List JsonDep → CrateGraph → CrateGraph
  | [], g => g
  | dep :: rest, g =>
    match mapLookup m id, mapLookup m dep.krate with
    | some f, some t => jsonDepEdges m id rest (addDepChecked g f dep.name t)
    | _, _ => jsonDepEdges m id rest g

/-- Second pass: add an edge for every declared dependency whose two
endpoints were both loaded; cycle rejections drop the edge. -/
def jsonPassTwo (m : List (Nat × Nat)) :
    List (Nat × JsonCrate) → CrateGraph → CrateGraph
  | [], g => g
  | (id, krate) :: rest, g => jsonPassTwo m rest (jsonDepEdges m id krate.deps g)

def json_to_crate_graph (load : Path → Option FileId) (project : JsonProject) :
    CrateGraph :=
  let p := jsonPassOne load (enumL project.crates) emptyGraph []
  jsonPassTwo p.2 (enumL project.crates) p.1

/-- The node a declared crate contributes, if its root module loads. -/
def jsonNodeOf (load : Path → Option FileId) (k : JsonCrate) :
    Option (FileId × Edition) :=
  match load k.root_module with
  | some file_id => some (file_id, k.edition)
  | none => none

lemma enumFromL_filterMap {α β : Type} (h : α → Option β) (l : List α) :
    ∀ i, (enumFromL i l).filterMap (fun p => h p.2) = l.filterMap h := by
  induction l with
  | nil => intro i; rfl
  | cons x rest ih =>
    intro i
    simp only [enumFromL, List.filterMap_cons]
    rcases h x with _ | y
    · exact ih (i + 1)
    · rw [ih (i + 1)]

lemma mapLookup_mem {α : Type} :
    ∀ (m : List (Nat × α)) (k : Nat) (v : α),
      mapLookup m k = some v → (k, v) ∈ m := by
  intro m
  induction m with
  | nil => intro k v h; exact Option.noConfusion h
  | cons kv rest ih =>
    intro k v h
    rcases kv with ⟨k2, v2⟩
    simp only [mapLookup] at h
    split at h
    · rename_i he
      subst he
      rw [Option.some.inj h]
      exact List.mem_cons_self _ _
    · exact List.mem_cons_of_mem _ (ih k v h)

lemma jsonPassOne_nodes (load : Path → Option FileId) :
    ∀ (l : List (Nat × JsonCrate)) (g : CrateGraph) (m : List (Nat × Nat)),
      (jsonPassOne load l g m).1.nodes =
        g.nodes ++ l.filterMap (fun p => jsonNodeOf load p.2) := by
  intro l
  induction l with
  | nil => intro g m; simp [jsonPassOne]
  | cons p rest ih =>
    intro g m
    rcases p with ⟨id, krate⟩
    simp only [jsonPassOne, List.filterMap_cons]
    rcases hl : load krate.root_module with _ | file_id
    · have hj : jsonNodeOf load krate = none := by simp [jsonNodeOf, hl]
      rw [hj]
      dsimp only []
      exact ih g m
    · have hj : jsonNodeOf load krate = some (file_id, krate.edition) := by
        simp [jsonNodeOf, hl]
      rw [hj]
      dsimp only []
      rw [ih _ _]
      simp [add_crate_root]

lemma jsonPassOne_edges (load : Path → Option FileId) :
    ∀ (l : List (Nat × JsonCrate)) (g : CrateGraph) (m : List (Nat × Nat)),
      (jsonPassOne load l g m).1.edges = g.edges := by
  intro l
  induction l with
  | nil => intro g m; rfl
  | cons p rest ih =>
    intro g m
    rcases p with ⟨id, krate⟩
    simp only [jsonPassOne]
    rcases hl : load krate.root_module with _ | file_id
    · exact ih g m
    · exact ih _ _

lemma jsonPassOne_values (load : Path → Option FileId) :
    ∀ (l : List (Nat × JsonCrate)) (g : CrateGraph) (m : List (Nat × Nat)),
      (∀ kv ∈ m, kv.2 < g.nodes.length) →
      ∀ kv ∈ (jsonPassOne load l g m).2,
        kv.2 < (jsonPassOne load l g m).1.nodes.length := by
  intro l
  induction l with
  | nil =>
    intro g m hm kv hkv
    exact hm kv hkv
  | cons p rest ih =>
    intro g m hm kv hkv
    rcases p with ⟨id, krate⟩
    simp only [jsonPassOne] at hkv ⊢
    rcases hl : load krate.root_module with _ | file_id
    · rw [hl] at hkv
      dsimp only [] at hkv ⊢
      exact ih g m hm kv hkv
    · rw [hl] at hkv
      dsimp only [] at hkv ⊢
      refine ih _ _ ?_ kv hkv
      intro kv2 hkv2
      rcases List.mem_append.mp hkv2 with hold | hnew
      · have := hm kv2 hold
        simp only [add_crate_root, List.length_append]
        omega
      · rw [List.mem_singleton.mp hnew]
        simp only [add_crate_root, List.length_append]
        simp

/-- Edge endpoints lie inside the node array. -/
def EdgeB (g : CrateGraph) : Prop :=
  ∀ e ∈ g.edges, e.1 < g.nodes.length ∧ e.2.2 < g.nodes.length

lemma add_dep_ok_fields (g g2 : CrateGraph) (f : Nat) (name : String)
    (t : Nat) (h : add_dep g f name t = Except.ok g2) :
    g2.nodes = g.nodes ∧ g2.edges = g.edges ++ [(f, name, t)] := by
  unfold add_dep at h
  split at h
  · exact Except.noConfusion h
  · rw [← Except.ok.inj h]
    exact ⟨rfl, rfl⟩

lemma addDepChecked_nodes (g : CrateGraph) (f : Nat) (name : String) (t : Nat) :
    (addDepChecked g f name t).nodes = g.nodes := by
  unfold addDepChecked
  rcases hd : add_dep g f name t with e | g2
  · rfl
  · exact (add_dep_ok_fields g g2 f name t hd).1

lemma addDepChecked_edges_cases (g : CrateGraph) (f : Nat) (name : String)
    (t : Nat) :
    (addDepChecked g f name t).edges = g.edges ∨
      (addDepChecked g f name t).edges = g.edges ++ [(f, name, t)] := by
  unfold addDepChecked
  rcases hd : add_dep g f name t with e | g2
  · exact Or.inl rfl
  · exact Or.inr (add_dep_ok_fields g g2 f name t hd).2

lemma addDepChecked_edges_mono (g : CrateGraph) (f : Nat) (name : String)
    (t : Nat) : ∀ e ∈ g.edges, e ∈ (addDepChecked g f name t).edges := by
  intro e he
  rcases addDepChecked_edges_cases g f name t with hc | hc
  · rw [hc]; exact he
  · rw [hc]; exact List.mem_append.mpr (Or.inl he)

lemma EdgeB_addDepChecked (g : CrateGraph) (f : Nat) (name : String) (t : Nat)
    (hf : f < g.nodes.length) (ht : t < g.nodes.length) (hg : EdgeB g) :
    EdgeB (addDepChecked g f name t) := by
  intro e he
  rw [addDepChecked_nodes]
  rcases addDepChecked_edges_cases g f name t with hc | hc
  · rw [hc] at he
    exact hg e he
  · rw [hc] at he
    rcases List.mem_append.mp he with hold | hnew
    · exact hg e hold
    · rw [List.mem_singleton.mp hnew]
      exact ⟨hf, ht⟩

lemma jsonDepEdges_nodes (m : List (Nat × Nat)) (id : Nat) :
    ∀ (deps : List JsonDep) (g : CrateGraph),
      (jsonDepEdges m id deps g).nodes = g.nodes := by
  intro deps
  induction deps with
  | nil => intro g; rfl
  | cons dep rest ih =>
    intro g
    simp only [jsonDepEdges]
    rcases h1 : mapLookup m id with _ | f
    · exact ih g
    · rcases h2 : mapLookup m dep.krate with _ | t
      · exact ih g
      · rw [ih _, addDepChecked_nodes]

lemma jsonDepEdges_good (m : List (Nat × Nat)) (id : Nat) :
    ∀ (deps : List JsonDep) (g : CrateGraph),
      GoodGraph g → GoodGraph (jsonDepEdges m id deps g) := by
  intro deps
  induction deps with
  | nil => intro g hg; exact hg
  | cons dep rest ih =>
    intro g hg
    simp only [jsonDepEdges]
    rcases h1 : mapLookup m id with _ | f
    · exact ih g hg
    · rcases h2 : mapLookup m dep.krate with _ | t
      · exact ih g hg
      · exact ih _ (GoodGraph_addDepChecked g f dep.name t hg)

lemma jsonDepEdges_edgeb (m : List (Nat × Nat)) (id : Nat) :
    ∀ (deps : List JsonDep) (g : CrateGraph),
      (∀ kv ∈ m, kv.2 < g.nodes.length) → EdgeB g →
      EdgeB (jsonDepEdges m id deps g) := by
  intro deps
  induction deps with
  | nil => intro g _ hg; exact hg
  | cons dep rest ih =>
    intro g hm hg
    simp only [jsonDepEdges]
    rcases h1 : mapLookup m id with _ | f
    · exact ih g hm hg
    · rcases h2 : mapLookup m dep.krate with _ | t
      · exact ih g hm hg
      · refine ih _ ?_ ?_
        · intro kv hkv
          rw [addDepChecked_nodes]
          exact hm kv hkv
        · exact EdgeB_addDepChecked g f dep.name t
            (hm _ (mapLookup_mem m id f h1))
            (hm _ (mapLookup_mem m dep.krate t h2)) hg

lemma jsonPassTwo_nodes (m : List (Nat × Nat)) :
    ∀ (l : List (Nat × JsonCrate)) (g : CrateGraph),
      (jsonPassTwo m l g).nodes = g.nodes := by
  intro l
  induction l with
  | nil => intro g; rfl
  | cons p rest ih =>
    intro g
    rcases p with ⟨id, krate⟩
    simp only [jsonPassTwo]
    rw [ih _, jsonDepEdges_nodes]

lemma jsonPassTwo_good (m : List (Nat × Nat)) :
    ∀ (l : List (Nat × JsonCrate)) (g : CrateGraph),
      GoodGraph g → GoodGraph (jsonPassTwo m l g) := by
  intro l
  induction l with
  | nil => intro g hg; exact hg
  | cons p rest ih =>
    intro g hg
    rcases p with ⟨id, krate⟩
    simp only [jsonPassTwo]
    exact ih _ (jsonDepEdges_good m id krate.deps g hg)

lemma jsonPassTwo_edgeb (m : List (Nat × Nat)) :
    ∀ (l : List (Nat × JsonCrate)) (g : CrateGraph),
      (∀ kv ∈ m, kv.2 < g.nodes.length) → EdgeB g →
      EdgeB (jsonPassTwo m l g) := by
  intro l
  induction l with
  | nil => intro g _ hg; exact hg
  | cons p rest ih =>
    intro g hm hg
    rcases p with ⟨id, krate⟩
    simp only [jsonPassTwo]
    refine ih _ ?_ (jsonDepEdges_edgeb m id krate.deps g hm hg)
    intro kv hkv
    rw [jsonDepEdges_nodes]
    exact hm kv hkv

/-- The three-crate cyclic project of the spec scenario: A→B→C→A. -/
def cycProject : JsonProject where
  crates :=
    [ { root_module := ["a"], edition := Edition.edition2015,
        deps := [{ krate := 1, name := "b" }] },
      { root_module := ["b"], edition := Edition.edition2015,
        deps := [{ krate := 2, name := "c" }] },
      { root_module := ["c"], edition := Edition.edition2015,
        deps := [{ krate := 0, name := "a" }] } ]

def cycLoad : Path → Option FileId
  | ["a"] => some 10
  | ["b"] => some 11
  | ["c"] => some 12
  | _ => none


/-- C7: projecting a Json workspace omits every declared crate whose
root module fails to load (the nodes are exactly the loaded roots with
their editions, in declaration order), every dependency edge that
survives has both endpoints inside the node array (edges with an
unloaded endpoint are skipped, never reported as errors), the resulting
graph contains no directed cycle, and in the three-crate cyclic
scenario A→B→C→A all three crates appear but only the first two edges
survive, the cycle-closing edge being dropped. -/
theorem claim_C7_json_graph (load : Path → Option FileId)
    (project : JsonProject) :
    ((json_to_crate_graph load project).nodes =
      project.crates.filterMap (jsonNodeOf load)) ∧
    (∀ e ∈ (json_to_crate_graph load project).edges,
      e.1 < (json_to_crate_graph load project).nodes.length ∧
      e.2.2 < (json_to_crate_graph load project).nodes.length) ∧
    Acyclic (json_to_crate_graph load project) ∧
    ((json_to_crate_graph cycLoad cycProject).nodes.length = 3 ∧
      (json_to_crate_graph cycLoad cycProject).edges =
        [(0, "b", 1), (1, "c", 2)]) := by
  have hun : json_to_crate_graph load project =
      jsonPassTwo (jsonPassOne load (enumL project.crates) emptyGraph []).2
        (enumL project.crates)
        (jsonPassOne load (enumL project.crates) emptyGraph []).1 := rfl
  refine ⟨?_, ?_, ?_, by decide, by decide⟩
  · rw [hun, jsonPassTwo_nodes, jsonPassOne_nodes]
    rw [show emptyGraph.nodes = [] from rfl, List.nil_append]
    exact enumFromL_filterMap (jsonNodeOf load) project.crates 0
  · rw [hun]
    have hvals := jsonPassOne_values load (enumL project.crates) emptyGraph []
      (by intro kv hkv; exact absurd hkv (List.not_mem_nil _))
    have hE : EdgeB (jsonPassOne load (enumL project.crates) emptyGraph []).1 := by
      intro e he
      rw [jsonPassOne_edges] at he
      exact absurd he (List.not_mem_nil _)
    exact jsonPassTwo_edgeb _ _ _ hvals hE
  · rw [hun]
    have hg1 : GoodGraph (jsonPassOne load (enumL project.crates) emptyGraph []).1 :=
      GoodGraph_congr emptyGraph _ (jsonPassOne_edges load _ _ _) GoodGraph_empty
    exact (jsonPassTwo_good _ _ _ hg1).1

/-- Witness for C7: in the cyclic scenario the surviving edge `A→B` has
both endpoints inside the three-node array, and the acyclicity clause
instantiates at a concrete pair. -/
theorem claim_C7_witness :
    ((0, "b", 1) ∈ (json_to_crate_graph cycLoad cycProject).edges ∧
      (0 : Nat) < (json_to_crate_graph cycLoad cycProject).nodes.length ∧
      (1 : Nat) < (json_to_crate_graph cycLoad cycProject).nodes.length) ∧
      (0 : Nat) = 0 := by
  constructor
  · refine ⟨by decide, ?_⟩
    have h := (claim_C7_json_graph cycLoad cycProject).2.1 (0, "b", 1) (by decide)
    exact h
  · exact (claim_C7_json_graph cycLoad cycProject).2.2.1 0 0
      Relation.ReflTransGen.refl Relation.ReflTransGen.refl


/-! ### Cargo workspace projection (translated from
`ProjectWorkspace::to_crate_graph`, Cargo arm)

The `CargoWorkspace` and `Sysroot` metadata types live outside the two
translated source files, so their shapes are modelled from the spec;
the projection loops below follow the source. -/

/-- Modelled from the spec: one build target of a package; `kind_lib`
records whether its target kind is the library kind. -/
structure CargoTarget where
  root : Path
  kind_lib : Bool
deriving DecidableEq

/-- Modelled from the spec: a declared package dependency (index of the
dependency package plus the alias used for the edge). -/
structure CargoDep where
  pkg : Nat
  name : String
deriving DecidableEq

structure CargoPackage where
  name : String
  edition : Edition
  targets : List CargoTarget
  dependencies : List CargoDep
deriving DecidableEq

structure CargoWorkspaceModel where
  packages : List CargoPackage
deriving DecidableEq

/-- Modelled from the spec: a sysroot crate with its root file, name and
dependencies on other sysroot crates (by index). -/
structure SysrootCrate where
  root : Path
  name : String
  deps : List Nat
deriving DecidableEq

structure SysrootModel where
  crates : List SysrootCrate
deriving DecidableEq

def findStdFrom : Nat → List SysrootCrate → Option Nat
  | _, [] => none
  | i, c :: rest => if c.name = "std" then some i else findStdFrom (i + 1) rest

/-- `Sysroot::std`: the sysroot crate named `"std"`, if any. -/
def sysrootStd (sysroot : SysrootModel) : Option Nat :=
  findStdFrom 0 sysroot.crates

/-- Sysroot pass, first half: load each sysroot crate root and add a
2015-edition crate root on success. -/
def sysrootPassOne (load : Path → Option FileId) :
    List (Nat × SysrootCrate) → CrateGraph → List (Nat × Nat) →
      CrateGraph × List (Nat × Nat)
  | [], g, m => (g, m)
  | (idx, krate) :: rest, g, m =>
    match load krate.root with
    | some file_id =>
      let p := add_crate_root g file_id Edition.edition2015
      sysrootPassOne load rest p.1 (m ++ [(idx, p.2)])
    | none => sysrootPassOne load rest g m

def sysrootDepName (sysroot : SysrootModel) (toIdx : Nat) : String :=
  match sysroot.crates.get? toIdx with
  | some c => c.name
  | none => ""

/-- Sysroot pass, second half: intra-sysroot dependency edges. -/
def sysrootDepEdges (sysroot : SysrootModel) (m : List (Nat × Nat))
    (fromIdx : Nat) : List Nat → CrateGraph → CrateGraph
  | [], g => g
  | toIdx :: rest, g =>
    match mapLookup m fromIdx, mapLookup m toIdx with
    | some f, some t =>
      sysrootDepEdges sysroot m fromIdx rest
        (addDepChecked g f (sysrootDepName sysroot toIdx) t)
    | _, _ => sysrootDepEdges sysroot m fromIdx rest g

def sysrootPassTwo (sysroot : SysrootModel) (m : List (Nat × Nat)) :
    List (Nat × SysrootCrate) → CrateGraph → CrateGraph
  | [], g => g
  | (idx, krate) :: rest, g =>
    sysrootPassTwo sysroot m rest (sysrootDepEdges sysroot m idx krate.deps g)

/-- Package pass, per-target loop: add a crate root for every target
whose root file loads, tracking the library target and the package's
crate list. -/
def pkgTargets (load : Path → Option FileId) (edition : Edition) :
    List CargoTarget → CrateGraph → Option Nat → List Nat →
      CrateGraph × Option Nat × List Nat
  | [], g, lib_tgt, acc => (g, lib_tgt, acc)
  | tgt :: rest, g, lib_tgt, acc =>
    match load tgt.root with
    | some file_id =>
      let p := add_crate_root g file_id edition
      pkgTargets load edition rest p.1
        (if tgt.kind_lib then some p.2 else lib_tgt) (acc ++ [p.2])
    | none => pkgTargets load edition rest g lib_tgt acc

/-- The `lib_tgt` half of the intra-package edge body: an edge to the
library target when it exists and differs from the source crate. -/
def libEdge (name : String) (lib_tgt : Option Nat) (f : Nat)
    (g : CrateGraph) : CrateGraph :=
  match lib_tgt with
  | some t => if t ≠ f then addDepChecked g f name t else g
  | none => g

/-- The `libstd` half of the intra-package edge body. -/
def stdEdge (libstd : Option Nat) (f : Nat) (g : CrateGraph) : CrateGraph :=
  match libstd with
  | some st => addDepChecked g f "std" st
  | none => g

/-- Intra-package edges: from every crate of the package to the
package's library target (skipping self-loops) and to `std`. -/
def pkgIntraEdges (name : String) (lib_tgt libstd : Option Nat) :
    List Nat → CrateGraph → CrateGraph
  | [], g => g
  | f :: rest, g =>
    pkgIntraEdges name lib_tgt libstd rest
      (stdEdge libstd f (libEdge name lib_tgt f g))

/-- The package loop: crates per target, then intra-package edges,
recording `pkg_to_lib_crate` and `pkg_crates`. -/
def cargoPackLoop (load : Path → Option FileId) (libstd : Option Nat) :
    List (Nat × CargoPackage) → CrateGraph → List (Nat × Nat) →
      List (Nat × List Nat) →
      CrateGraph × List (Nat × Nat) × List (Nat × List Nat)
  | [], g, p2l, pcs => (g, p2l, pcs)
  | (idx, pkg) :: rest, g, p2l, pcs =>
    let r := pkgTargets load pkg.edition pkg.targets g none []
    let g2 := pkgIntraEdges pkg.name r.2.1 libstd r.2.2 r.1
    let p2l2 :=
      match r.2.1 with
      | some t => p2l ++ [(idx, t)]
      | none => p2l
    cargoPackLoop load libstd rest g2 p2l2 (pcs ++ [(idx, r.2.2)])

def addDepList (name : String) (t : Nat) : List Nat → CrateGraph → CrateGraph
  | [], g => g
  | f :: rest, g => addDepList name t rest (addDepChecked g f name t)

/-- Inter-package edges for one package's dependency list. -/
def pkgDepEdges (p2l : List (Nat × Nat)) (froms : List Nat) :
    List CargoDep → CrateGraph → CrateGraph
  | [], g => g
  | dep :: rest, g =>
    match mapLookup p2l dep.pkg with
    | some t => pkgDepEdges p2l froms rest (addDepList dep.name t froms g)
    | none => pkgDepEdges p2l froms rest g

def cargoInterLoop (p2l : List (Nat × Nat)) (pcs : List (Nat × List Nat)) :
    List (Nat × CargoPackage) → CrateGraph → CrateGraph
  | [], g => g
  | (idx, pkg) :: rest, g =>
    let froms :=
      match mapLookup pcs idx with
      | some l => l
      | none => []
    cargoInterLoop p2l pcs rest (pkgDepEdges p2l froms pkg.dependencies g)

/-- The crate id of the loaded `std` sysroot crate, if present. -/
def cargoLibstd (load : Path → Option FileId) (sysroot : SysrootModel) :
    Option Nat :=
  match sysrootStd sysroot with
  | some i => mapLookup (sysrootPassOne load (enumL sysroot.crates) emptyGraph []).2 i
  | none => none

/-- The Cargo projection, returning also the `pkg_to_lib_crate` and
`pkg_crates` maps built by the package loop. -/
def cargo_to_crate_graph_full (load : Path → Option FileId)
    (cargo : CargoWorkspaceModel) (sysroot : SysrootModel) :
    CrateGraph × List (Nat × Nat) × List (Nat × List Nat) :=
  let s1 := sysrootPassOne load (enumL sysroot.crates) emptyGraph []
  let g1 := sysrootPassTwo sysroot s1.2 (enumL sysroot.crates) s1.1
  let r := cargoPackLoop load (cargoLibstd load sysroot)
    (enumL cargo.packages) g1 [] []
  (cargoInterLoop r.2.1 r.2.2 (enumL cargo.packages) r.1, r.2.1, r.2.2)

def cargo_to_crate_graph (load : Path → Option FileId)
    (cargo : CargoWorkspaceModel) (sysroot : SysrootModel) : CrateGraph :=
  (cargo_to_crate_graph_full load cargo sysroot).1


lemma sysrootPassOne_edges (load : Path → Option FileId) :
    ∀ (l : List (Nat × SysrootCrate)) (g : CrateGraph) (m : List (Nat × Nat)),
      (sysrootPassOne load l g m).1.edges = g.edges := by
  intro l
  induction l with
  | nil => intro g m; rfl
  | cons p rest ih =>
    intro g m
    rcases p with ⟨idx, krate⟩
    simp only [sysrootPassOne]
    rcases hl : load krate.root with _ | file_id
    · exact ih g m
    · exact ih _ _

lemma sysrootPassOne_values (load : Path → Option FileId) :
    ∀ (l : List (Nat × SysrootCrate)) (g : CrateGraph) (m : List (Nat × Nat)),
      (∀ kv ∈ m, kv.2 < g.nodes.length) →
      ∀ kv ∈ (sysrootPassOne load l g m).2,
        kv.2 < (sysrootPassOne load l g m).1.nodes.length := by
  intro l
  induction l with
  | nil =>
    intro g m hm kv hkv
    exact hm kv hkv
  | cons p rest ih =>
    intro g m hm kv hkv
    rcases p with ⟨idx, krate⟩
    simp only [sysrootPassOne] at hkv ⊢
    rcases hl : load krate.root with _ | file_id
    · rw [hl] at hkv
      dsimp only [] at hkv ⊢
      exact ih g m hm kv hkv
    · rw [hl] at hkv
      dsimp only [] at hkv ⊢
      refine ih _ _ ?_ kv hkv
      intro kv2 hkv2
      rcases List.mem_append.mp hkv2 with hold | hnew
      · have := hm kv2 hold
        simp only [add_crate_root, List.length_append]
        omega
      · rw [List.mem_singleton.mp hnew]
        simp only [add_crate_root, List.length_append]
        simp

lemma sysrootDepEdges_nodes (sysroot : SysrootModel) (m : List (Nat × Nat))
    (fromIdx : Nat) : ∀ (deps : List Nat) (g : CrateGraph),
      (sysrootDepEdges sysroot m fromIdx deps g).nodes = g.nodes := by
  intro deps
  induction deps with
  | nil => intro g; rfl
  | cons toIdx rest ih =>
    intro g
    simp only [sysrootDepEdges]
    rcases h1 : mapLookup m fromIdx with _ | f
    · exact ih g
    · rcases h2 : mapLookup m toIdx with _ | t
      · exact ih g
      · rw [ih _, addDepChecked_nodes]

lemma sysrootDepEdges_bound (sysroot : SysrootModel) (m : List (Nat × Nat))
    (fromIdx : Nat) (B : Nat) (hm : ∀ kv ∈ m, kv.2 < B) :
    ∀ (deps : List Nat) (g : CrateGraph),
      (∀ e ∈ g.edges, e.1 < B ∧ e.2.2 < B) →
      ∀ e ∈ (sysrootDepEdges sysroot m fromIdx deps g).edges,
        e.1 < B ∧ e.2.2 < B := by
  intro deps
  induction deps with
  | nil => intro g hg e he; exact hg e he
  | cons toIdx rest ih =>
    intro g hg
    simp only [sysrootDepEdges]
    rcases h1 : mapLookup m fromIdx with _ | f
    · exact ih g hg
    · rcases h2 : mapLookup m toIdx with _ | t
      · exact ih g hg
      · refine ih _ ?_
        intro e he
        rcases addDepChecked_edges_cases g f (sysrootDepName sysroot toIdx) t
          with hc | hc
        · rw [hc] at he
          exact hg e he
        · rw [hc] at he
          rcases List.mem_append.mp he with hold | hnew
          · exact hg e hold
          · rw [List.mem_singleton.mp hnew]
            exact ⟨hm _ (mapLookup_mem m fromIdx f h1),
              hm _ (mapLookup_mem m toIdx t h2)⟩

lemma sysrootPassTwo_nodes (sysroot : SysrootModel) (m : List (Nat × Nat)) :
    ∀ (l : List (Nat × SysrootCrate)) (g : CrateGraph),
      (sysrootPassTwo sysroot m l g).nodes = g.nodes := by
  intro l
  induction l with
  | nil => intro g; rfl
  | cons p rest ih =>
    intro g
    rcases p with ⟨idx, krate⟩
    simp only [sysrootPassTwo]
    rw [ih _, sysrootDepEdges_nodes]

lemma sysrootPassTwo_bound (sysroot : SysrootModel) (m : List (Nat × Nat))
    (B : Nat) (hm : ∀ kv ∈ m, kv.2 < B) :
    ∀ (l : List (Nat × SysrootCrate)) (g : CrateGraph),
      (∀ e ∈ g.edges, e.1 < B ∧ e.2.2 < B) →
      ∀ e ∈ (sysrootPassTwo sysroot m l g).edges, e.1 < B ∧ e.2.2 < B := by
  intro l
  induction l with
  | nil => intro g hg e he; exact hg e he
  | cons p rest ih =>
    intro g hg
    rcases p with ⟨idx, krate⟩
    simp only [sysrootPassTwo]
    exact ih _ (sysrootDepEdges_bound sysroot m idx B hm krate.deps g hg)

lemma pkgTargets_edges (load : Path → Option FileId) (edition : Edition) :
    ∀ (targets : List CargoTarget) (g : CrateGraph) (lib0 : Option Nat)
      (acc : List Nat),
      (pkgTargets load edition targets g lib0 acc).1.edges = g.edges := by
  intro targets
  induction targets with
  | nil => intro g lib0 acc; rfl
  | cons tgt rest ih =>
    intro g lib0 acc
    simp only [pkgTargets]
    rcases hl : load tgt.root with _ | file_id
    · exact ih g lib0 acc
    · exact ih _ _ _

lemma pkgTargets_len (load : Path → Option FileId) (edition : Edition) :
    ∀ (targets : List CargoTarget) (g : CrateGraph) (lib0 : Option Nat)
      (acc : List Nat),
      g.nodes.length ≤ (pkgTargets load edition targets g lib0 acc).1.nodes.length := by
  intro targets
  induction targets with
  | nil => intro g lib0 acc; exact le_refl _
  | cons tgt rest ih =>
    intro g lib0 acc
    simp only [pkgTargets]
    rcases hl : load tgt.root with _ | file_id
    · exact ih g lib0 acc
    · have := ih (add_crate_root g file_id edition).1
        (if tgt.kind_lib then some (add_crate_root g file_id edition).2 else lib0)
        (acc ++ [(add_crate_root g file_id edition).2])
      simp only [add_crate_root, List.length_append] at this ⊢
      omega

lemma pkgTargets_lib (load : Path → Option FileId) (edition : Edition) :
    ∀ (targets : List CargoTarget) (g : CrateGraph) (lib0 : Option Nat)
      (acc : List Nat) (t : Nat),
      (pkgTargets load edition targets g lib0 acc).2.1 = some t →
      lib0 = some t ∨ (g.nodes.length ≤ t ∧
        t < (pkgTargets load edition targets g lib0 acc).1.nodes.length) := by
  intro targets
  induction targets with
  | nil => intro g lib0 acc t h; exact Or.inl h
  | cons tgt rest ih =>
    intro g lib0 acc t h
    simp only [pkgTargets] at h ⊢
    rcases hl : load tgt.root with _ | file_id
    · rw [hl] at h
      dsimp only [] at h ⊢
      exact ih g lib0 acc t h
    · rw [hl] at h
      dsimp only [] at h ⊢
      simp only [add_crate_root] at h ⊢
      have hrec := ih { nodes := g.nodes ++ [(file_id, edition)], edges := g.edges }
        (if tgt.kind_lib = true then some g.nodes.length else lib0)
        (acc ++ [g.nodes.length]) t h
      have hlen := pkgTargets_len load edition rest
        { nodes := g.nodes ++ [(file_id, edition)], edges := g.edges }
        (if tgt.kind_lib = true then some g.nodes.length else lib0)
        (acc ++ [g.nodes.length])
      simp only [List.length_append, List.length_singleton] at hlen
      rcases hrec with hrec | ⟨h1, h2⟩
      · rcases hkl : tgt.kind_lib with _ | _
        · rw [hkl] at hrec
          simp only [Bool.false_eq_true, if_false] at hrec
          exact Or.inl hrec
        · rw [hkl] at hrec hlen
          simp only [if_true] at hrec
          refine Or.inr ⟨?_, ?_⟩
          · rw [← Option.some.inj hrec]
          · rw [← Option.some.inj hrec]
            omega
      · refine Or.inr ⟨?_, h2⟩
        simp only [List.length_append, List.length_singleton] at h1
        omega

lemma pkgTargets_ids (load : Path → Option FileId) (edition : Edition) :
    ∀ (targets : List CargoTarget) (g : CrateGraph) (lib0 : Option Nat)
      (acc : List Nat) (f : Nat),
      f ∈ (pkgTargets load edition targets g lib0 acc).2.2 →
      f ∈ acc ∨ (g.nodes.length ≤ f ∧
        f < (pkgTargets load edition targets g lib0 acc).1.nodes.length) := by
  intro targets
  induction targets with
  | nil => intro g lib0 acc f h; exact Or.inl h
  | cons tgt rest ih =>
    intro g lib0 acc f h
    simp only [pkgTargets] at h ⊢
    rcases hl : load tgt.root with _ | file_id
    · rw [hl] at h
      dsimp only [] at h ⊢
      exact ih g lib0 acc f h
    · rw [hl] at h
      dsimp only [] at h ⊢
      simp only [add_crate_root] at h ⊢
      have hrec := ih { nodes := g.nodes ++ [(file_id, edition)], edges := g.edges }
        (if tgt.kind_lib = true then some g.nodes.length else lib0)
        (acc ++ [g.nodes.length]) f h
      have hlen := pkgTargets_len load edition rest
        { nodes := g.nodes ++ [(file_id, edition)], edges := g.edges }
        (if tgt.kind_lib = true then some g.nodes.length else lib0)
        (acc ++ [g.nodes.length])
      simp only [List.length_append, List.length_singleton] at hlen
      rcases hrec with hrec | ⟨h1, h2⟩
      · rcases List.mem_append.mp hrec with hold | hnew
        · exact Or.inl hold
        · refine Or.inr ⟨?_, ?_⟩
          · rw [List.mem_singleton.mp hnew]
          · rw [List.mem_singleton.mp hnew]
            omega
      · refine Or.inr ⟨?_, h2⟩
        simp only [List.length_append, List.length_singleton] at h1
        omega

lemma pkgTargets_count (load : Path → Option FileId) (edition : Edition) :
    ∀ (targets : List CargoTarget) (g : CrateGraph) (lib0 : Option Nat)
      (acc : List Nat),
      (pkgTargets load edition targets g lib0 acc).2.2.length =
        acc.length +
          (targets.filter (fun tgt => (load tgt.root).isSome)).length := by
  intro targets
  induction targets with
  | nil => intro g lib0 acc; simp [pkgTargets]
  | cons tgt rest ih =>
    intro g lib0 acc
    simp only [pkgTargets, List.filter_cons]
    rcases hl : load tgt.root with _ | file_id
    · simp only [hl, Option.isSome_none, Bool.false_eq_true, if_false]
      exact ih g lib0 acc
    · simp only [hl, Option.isSome_some, if_true]
      rw [ih _ _ _]
      simp only [List.length_append, List.length_singleton, List.length_cons,
        List.length_nil]
      omega

lemma pkgTargets_lib_mono (load : Path → Option FileId) (edition : Edition) :
    ∀ (targets : List CargoTarget) (g : CrateGraph) (lib0 : Option Nat)
      (acc : List Nat),
      lib0.isSome = true →
      (pkgTargets load edition targets g lib0 acc).2.1.isSome = true := by
  intro targets
  induction targets with
  | nil => intro g lib0 acc h; exact h
  | cons tgt rest ih =>
    intro g lib0 acc h
    simp only [pkgTargets]
    rcases hl : load tgt.root with _ | file_id
    · exact ih g lib0 acc h
    · refine ih _ _ _ ?_
      rcases hkl : tgt.kind_lib with _ | _
      · simp only [Bool.false_eq_true, if_false]
        exact h
      · simp

lemma pkgTargets_lib_hit (load : Path → Option FileId) (edition : Edition) :
    ∀ (targets : List CargoTarget) (g : CrateGraph) (lib0 : Option Nat)
      (acc : List Nat),
      (∃ tgt ∈ targets, tgt.kind_lib = true ∧ (load tgt.root).isSome = true) →
      (pkgTargets load edition targets g lib0 acc).2.1.isSome = true := by
  intro targets
  induction targets with
  | nil =>
    intro g lib0 acc h
    obtain ⟨tgt, htgt, -⟩ := h
    exact absurd htgt (List.not_mem_nil _)
  | cons tgt0 rest ih =>
    intro g lib0 acc h
    obtain ⟨tgt, htgt, hkind, hload⟩ := h
    simp only [pkgTargets]
    rcases List.mem_cons.mp htgt with hhd | htl
    · subst hhd
      rcases hl : load tgt.root with _ | file_id
      · rw [hl] at hload
        exact Bool.noConfusion hload
      · refine pkgTargets_lib_mono load edition rest _ _ _ ?_
        rw [hkind]
        simp
    · rcases hl : load tgt0.root with _ | file_id
      · exact ih g lib0 acc ⟨tgt, htl, hkind, hload⟩
      · exact ih _ _ _ ⟨tgt, htl, hkind, hload⟩


lemma addDepChecked_of_not_reach (g : CrateGraph) (f : Nat) (name : String)
    (t : Nat) (h : reachL g.edges (3 ^ g.edges.length) t f = false) :
    (addDepChecked g f name t).edges = g.edges ++ [(f, name, t)] := by
  unfold addDepChecked add_dep
  rw [h]
  rfl

lemma libEdge_spec (a : Nat) (name : String) (lib_tgt : Option Nat) (f : Nat)
    (g : CrateGraph)
    (hA : ∀ e ∈ g.edges, e.1 < a → e.2.2 < a)
    (hB : ∀ t, lib_tgt = some t → ∀ e ∈ g.edges, e.1 = t → e.2.2 < a)
    (hT : ∀ t, lib_tgt = some t → a ≤ t)
    (hf : a ≤ f) :
    (libEdge name lib_tgt f g).nodes = g.nodes ∧
    (∀ e ∈ g.edges, e ∈ (libEdge name lib_tgt f g).edges) ∧
    (∀ e ∈ (libEdge name lib_tgt f g).edges, e ∈ g.edges ∨ e.1 = f) ∧
    (∀ e ∈ (libEdge name lib_tgt f g).edges, e.1 < a → e.2.2 < a) ∧
    (∀ t, lib_tgt = some t → ∀ e ∈ (libEdge name lib_tgt f g).edges,
      e.1 = t → e.2.2 < a) ∧
    (∀ t, lib_tgt = some t → f ≠ t →
      (f, name, t) ∈ (libEdge name lib_tgt f g).edges) := by
  rcases lib_tgt with _ | t
  · refine ⟨rfl, fun e he => he, fun e he => Or.inl he, hA, ?_, ?_⟩
    · intro t hcon
      exact Option.noConfusion hcon
    · intro t hcon
      exact absurd hcon (fun hcon2 => Option.noConfusion hcon2)
  · by_cases hft : t ≠ f
    · have hsucc : reachL g.edges (3 ^ g.edges.length) t f = false := by
        apply reachL_closed g.edges (fun x => decide (x < a) || x == t)
        · intro e he hSe
          simp only [Bool.or_eq_true, decide_eq_true_eq, beq_iff_eq] at hSe ⊢
          rcases hSe with hSe | hSe
          · exact Or.inl (hA e he hSe)
          · exact Or.inl (hB t rfl e he hSe)
        · simp
        · have h1 : ¬ f < a := by omega
          have h2 : f ≠ t := fun hcon => hft hcon.symm
          simp [h1, h2]
      have hed : (addDepChecked g f name t).edges = g.edges ++ [(f, name, t)] :=
        addDepChecked_of_not_reach g f name t hsucc
      simp only [libEdge, if_pos hft]
      refine ⟨addDepChecked_nodes g f name t, ?_, ?_, ?_, ?_, ?_⟩
      · intro e he
        rw [hed]
        exact List.mem_append.mpr (Or.inl he)
      · intro e he
        rw [hed] at he
        rcases List.mem_append.mp he with hold | hnew
        · exact Or.inl hold
        · rw [List.mem_singleton.mp hnew]
          exact Or.inr rfl
      · intro e he h1
        rw [hed] at he
        rcases List.mem_append.mp he with hold | hnew
        · exact hA e hold h1
        · rw [List.mem_singleton.mp hnew] at h1
          exact absurd h1 (by omega)
      · intro t2 ht2 e he h1
        have ht2x : t2 = t := (Option.some.inj ht2).symm
        subst ht2x
        rw [hed] at he
        rcases List.mem_append.mp he with hold | hnew
        · exact hB t2 rfl e hold h1
        · rw [List.mem_singleton.mp hnew] at h1
          have hfx : f = t2 := by simpa using h1
          exact absurd hfx.symm hft
      · intro t2 ht2 hfne
        have ht2x : t2 = t := (Option.some.inj ht2).symm
        subst ht2x
        rw [hed]
        exact List.mem_append.mpr (Or.inr (List.mem_singleton.mpr rfl))
    · have htf : t = f := not_not.mp hft
      have hgg : libEdge name (some t) f g = g := by
        simp only [libEdge, if_neg hft]
      rw [hgg]
      refine ⟨rfl, fun e he => he, fun e he => Or.inl he, hA, ?_, ?_⟩
      · intro t2 ht2
        have ht2x : t2 = t := (Option.some.inj ht2).symm
        subst ht2x
        exact hB t2 rfl
      · intro t2 ht2 hfne
        have ht2x : t2 = t := (Option.some.inj ht2).symm
        subst ht2x
        exact absurd htf.symm hfne

lemma stdEdge_spec (a : Nat) (libstd : Option Nat) (f : Nat) (g : CrateGraph)
    (hA : ∀ e ∈ g.edges, e.1 < a → e.2.2 < a)
    (hS : ∀ st, libstd = some st → st < a)
    (hf : a ≤ f) :
    (stdEdge libstd f g).nodes = g.nodes ∧
    (∀ e ∈ g.edges, e ∈ (stdEdge libstd f g).edges) ∧
    (∀ e ∈ (stdEdge libstd f g).edges, e ∈ g.edges ∨ e.1 = f) ∧
    (∀ e ∈ (stdEdge libstd f g).edges, e.1 < a → e.2.2 < a) ∧
    (∀ st, libstd = some st → (f, "std", st) ∈ (stdEdge libstd f g).edges) ∧
    (∀ t2, (∀ e ∈ g.edges, e.1 = t2 → e.2.2 < a) →
      ∀ e ∈ (stdEdge libstd f g).edges, e.1 = t2 → e.2.2 < a) := by
  rcases libstd with _ | st
  · refine ⟨rfl, fun e he => he, fun e he => Or.inl he, hA, ?_, fun t2 h => h⟩
    intro st hcon
    exact Option.noConfusion hcon
  · have hst : st < a := hS st rfl
    have hsucc : reachL g.edges (3 ^ g.edges.length) st f = false := by
      apply reachL_closed g.edges (fun x => decide (x < a))
      · intro e he hSe
        simp only [decide_eq_true_eq] at hSe ⊢
        exact hA e he hSe
      · simp only [decide_eq_true_eq]
        exact hst
      · simp only [decide_eq_false_iff_not]
        omega
    have hed : (addDepChecked g f "std" st).edges = g.edges ++ [(f, "std", st)] :=
      addDepChecked_of_not_reach g f "std" st hsucc
    simp only [stdEdge]
    refine ⟨addDepChecked_nodes g f "std" st, ?_, ?_, ?_, ?_, ?_⟩
    · intro e he
      rw [hed]
      exact List.mem_append.mpr (Or.inl he)
    · intro e he
      rw [hed] at he
      rcases List.mem_append.mp he with hold | hnew
      · exact Or.inl hold
      · rw [List.mem_singleton.mp hnew]
        exact Or.inr rfl
    · intro e he h1
      rw [hed] at he
      rcases List.mem_append.mp he with hold | hnew
      · exact hA e hold h1
      · rw [List.mem_singleton.mp hnew] at h1
        exact absurd h1 (by omega)
    · intro st2 hst2
      have hst2x : st2 = st := (Option.some.inj hst2).symm
      subst hst2x
      rw [hed]
      exact List.mem_append.mpr (Or.inr (List.mem_singleton.mpr rfl))
    · intro t2 hprev e he h1
      rw [hed] at he
      rcases List.mem_append.mp he with hold | hnew
      · exact hprev e hold h1
      · rw [List.mem_singleton.mp hnew]
        exact hst


lemma pkgIntraEdges_spec (a : Nat) (name : String)
    (lib_tgt libstd : Option Nat)
    (hT : ∀ t, lib_tgt = some t → a ≤ t)
    (hS : ∀ st, libstd = some st → st < a) :
    ∀ (froms : List Nat) (g : CrateGraph),
      (∀ e ∈ g.edges, e.1 < a → e.2.2 < a) →
      (∀ t, lib_tgt = some t → ∀ e ∈ g.edges, e.1 = t → e.2.2 < a) →
      (∀ f ∈ froms, a ≤ f) →
      (∀ e ∈ (pkgIntraEdges name lib_tgt libstd froms g).edges,
        e ∈ g.edges ∨ e.1 ∈ froms) ∧
      (∀ e ∈ g.edges, e ∈ (pkgIntraEdges name lib_tgt libstd froms g).edges) ∧
      (∀ e ∈ (pkgIntraEdges name lib_tgt libstd froms g).edges,
        e.1 < a → e.2.2 < a) ∧
      (∀ t, lib_tgt = some t →
        ∀ e ∈ (pkgIntraEdges name lib_tgt libstd froms g).edges,
          e.1 = t → e.2.2 < a) ∧
      (∀ t, lib_tgt = some t → ∀ f ∈ froms, f ≠ t →
        (f, name, t) ∈ (pkgIntraEdges name lib_tgt libstd froms g).edges) ∧
      (∀ st, libstd = some st → ∀ f ∈ froms,
        (f, "std", st) ∈ (pkgIntraEdges name lib_tgt libstd froms g).edges) ∧
      (pkgIntraEdges name lib_tgt libstd froms g).nodes = g.nodes := by
  intro froms
  induction froms with
  | nil =>
    intro g hA hB hF
    refine ⟨fun e he => Or.inl he, fun e he => he, hA, hB, ?_, ?_, rfl⟩
    · intro t ht f hf
      exact absurd hf (List.not_mem_nil _)
    · intro st hst f hf
      exact absurd hf (List.not_mem_nil _)
  | cons f rest ih =>
    intro g hA hB hF
    simp only [pkgIntraEdges]
    have hfa : a ≤ f := hF f (List.mem_cons_self f rest)
    obtain ⟨ln, lm, ls, lA, lB, lmem⟩ :=
      libEdge_spec a name lib_tgt f g hA hB hT hfa
    obtain ⟨sn, sm, ss, sA, smem, sB⟩ :=
      stdEdge_spec a libstd f (libEdge name lib_tgt f g) lA hS hfa
    have hB2 : ∀ t, lib_tgt = some t →
        ∀ e ∈ (stdEdge libstd f (libEdge name lib_tgt f g)).edges,
          e.1 = t → e.2.2 < a :=
      fun t ht => sB t (lB t ht)
    have hF2 : ∀ f2 ∈ rest, a ≤ f2 :=
      fun f2 hf2 => hF f2 (List.mem_cons_of_mem f hf2)
    obtain ⟨inew, imono, iA, iB, imembL, imembS, inodes⟩ :=
      ih (stdEdge libstd f (libEdge name lib_tgt f g)) sA hB2 hF2
    refine ⟨?_, ?_, iA, iB, ?_, ?_, ?_⟩
    · intro e he
      rcases inew e he with h2 | h2
      · rcases ss e h2 with h3 | h3
        · rcases ls e h3 with h4 | h4
          · exact Or.inl h4
          · exact Or.inr (by rw [h4]; exact List.mem_cons_self f rest)
        · exact Or.inr (by rw [h3]; exact List.mem_cons_self f rest)
      · exact Or.inr (List.mem_cons_of_mem f h2)
    · intro e he
      exact imono e (sm e (lm e he))
    · intro t ht f2 hf2 hne
      rcases List.mem_cons.mp hf2 with hhd | htl
      · subst hhd
        exact imono _ (sm _ (lmem t ht hne))
      · exact imembL t ht f2 htl hne
    · intro st hst f2 hf2
      rcases List.mem_cons.mp hf2 with hhd | htl
      · subst hhd
        exact imono _ (smem st hst)
      · exact imembS st hst f2 htl
    · rw [inodes, sn, ln]


lemma enumFromL_keys {α : Type} :
    ∀ (l : List α) (i q : Nat) (x : α), (q, x) ∈ enumFromL i l → i ≤ q := by
  intro l
  induction l with
  | nil =>
    intro i q x h
    exact absurd h (List.not_mem_nil _)
  | cons y rest ih =>
    intro i q x h
    rcases List.mem_cons.mp h with hhd | htl
    · rw [Prod.mk.injEq] at hhd
      omega
    · have := ih (i + 1) q x htl
      omega

lemma enumFromL_get {α : Type} :
    ∀ (l : List α) (i q : Nat) (x : α), (q, x) ∈ enumFromL i l →
      l[q - i]? = some x := by
  intro l
  induction l with
  | nil =>
    intro i q x h
    exact absurd h (List.not_mem_nil _)
  | cons y rest ih =>
    intro i q x h
    rcases List.mem_cons.mp h with hhd | htl
    · rw [Prod.mk.injEq] at hhd
      obtain ⟨h1, h2⟩ := hhd
      subst h1
      subst h2
      simp
    · have hk := enumFromL_keys rest (i + 1) q x htl
      have hq : q - i = (q - (i + 1)) + 1 := by omega
      rw [hq, List.getElem?_cons_succ]
      exact ih (i + 1) q x htl

lemma enumFromL_pairwise {α : Type} :
    ∀ (l : List α) (i : Nat),
      List.Pairwise (fun u v => u.1 ≠ v.1) (enumFromL i l) := by
  intro l
  induction l with
  | nil => intro i; exact List.Pairwise.nil
  | cons y rest ih =>
    intro i
    refine List.Pairwise.cons ?_ (ih (i + 1))
    intro v hv
    have := enumFromL_keys rest (i + 1) v.1 v.2 hv
    omega

lemma cargoPackLoop_spec (load : Path → Option FileId) (libstd : Option Nat)
    (a : Nat) (PKS : List CargoPackage)
    (hstd : ∀ st, libstd = some st → st < a) :
    ∀ (l : List (Nat × CargoPackage)) (g : CrateGraph)
      (p2l0 : List (Nat × Nat)) (pcs0 : List (Nat × List Nat)),
      a ≤ g.nodes.length →
      (∀ e ∈ g.edges, e.1 < a → e.2.2 < a) →
      (∀ e ∈ g.edges, e.1 < g.nodes.length) →
      (∀ qpk ∈ l, PKS[qpk.1]? = some qpk.2) →
      (∀ qpk ∈ l, (∀ x, (qpk.1, x) ∉ p2l0) ∧
        (∀ x, (qpk.1, x) ∉ pcs0)) →
      List.Pairwise (fun u v => u.1 ≠ v.1) l →
      (∀ p t froms pkg, (p, t) ∈ p2l0 → (p, froms) ∈ pcs0 →
        PKS[p]? = some pkg → ∀ f ∈ froms, f ≠ t →
          (f, pkg.name, t) ∈ g.edges) →
      (∀ p froms, (p, froms) ∈ pcs0 → ∀ st, libstd = some st →
        ∀ f ∈ froms, (f, "std", st) ∈ g.edges) →
      (∀ e ∈ g.edges, e ∈ (cargoPackLoop load libstd l g p2l0 pcs0).1.edges) ∧
      (∀ e ∈ (cargoPackLoop load libstd l g p2l0 pcs0).1.edges,
        e.1 < a → e.2.2 < a) ∧
      (∀ e ∈ (cargoPackLoop load libstd l g p2l0 pcs0).1.edges,
        e.1 < (cargoPackLoop load libstd l g p2l0 pcs0).1.nodes.length) ∧
      a ≤ (cargoPackLoop load libstd l g p2l0 pcs0).1.nodes.length ∧
      (∀ x ∈ p2l0, x ∈ (cargoPackLoop load libstd l g p2l0 pcs0).2.1) ∧
      (∀ x ∈ pcs0, x ∈ (cargoPackLoop load libstd l g p2l0 pcs0).2.2) ∧
      (∀ p t froms pkg,
        (p, t) ∈ (cargoPackLoop load libstd l g p2l0 pcs0).2.1 →
        (p, froms) ∈ (cargoPackLoop load libstd l g p2l0 pcs0).2.2 →
        PKS[p]? = some pkg → ∀ f ∈ froms, f ≠ t →
          (f, pkg.name, t) ∈ (cargoPackLoop load libstd l g p2l0 pcs0).1.edges) ∧
      (∀ p froms,
        (p, froms) ∈ (cargoPackLoop load libstd l g p2l0 pcs0).2.2 →
        ∀ st, libstd = some st → ∀ f ∈ froms,
          (f, "std", st) ∈ (cargoPackLoop load libstd l g p2l0 pcs0).1.edges) ∧
      (∀ qpk ∈ l, ∃ froms,
        (qpk.1, froms) ∈ (cargoPackLoop load libstd l g p2l0 pcs0).2.2 ∧
        froms.length =
          (qpk.2.targets.filter (fun tgt => (load tgt.root).isSome)).length ∧
        ((∃ tgt ∈ qpk.2.targets, tgt.kind_lib = true ∧
            (load tgt.root).isSome = true) →
          ∃ t, (qpk.1, t) ∈ (cargoPackLoop load libstd l g p2l0 pcs0).2.1)) := by
  intro l
  induction l with
  | nil =>
    intro g p2l0 pcs0 ha hA hD henum hfresh hnd hacc6 hacc7
    refine ⟨fun e he => he, hA, hD, ha, fun x hx => hx, fun x hx => hx,
      hacc6, hacc7, ?_⟩
    intro qpk hqpk
    exact absurd hqpk (List.not_mem_nil _)
  | cons qpk0 rest ih =>
    intro g p2l0 pcs0 ha hA hD henum hfresh hnd hacc6 hacc7
    rcases qpk0 with ⟨idx, pkg⟩
    simp only [cargoPackLoop]
    rw [List.pairwise_cons] at hnd
    obtain ⟨hhd, hnd2⟩ := hnd
    obtain ⟨hfp2l, hfpcs⟩ := hfresh (idx, pkg) (List.mem_cons_self _ _)
    have hre : (pkgTargets load pkg.edition pkg.targets g none []).1.edges =
        g.edges := pkgTargets_edges load pkg.edition pkg.targets g none []
    have hrlen : g.nodes.length ≤
        (pkgTargets load pkg.edition pkg.targets g none []).1.nodes.length :=
      pkgTargets_len load pkg.edition pkg.targets g none []
    have hids : ∀ f ∈ (pkgTargets load pkg.edition pkg.targets g none []).2.2,
        g.nodes.length ≤ f ∧
          f < (pkgTargets load pkg.edition pkg.targets g none []).1.nodes.length := by
      intro f hf
      rcases pkgTargets_ids load pkg.edition pkg.targets g none [] f hf with hc | hc
      · exact absurd hc (List.not_mem_nil _)
      · exact hc
    have hlibb : ∀ t,
        (pkgTargets load pkg.edition pkg.targets g none []).2.1 = some t →
        g.nodes.length ≤ t ∧
          t < (pkgTargets load pkg.edition pkg.targets g none []).1.nodes.length := by
      intro t ht
      rcases pkgTargets_lib load pkg.edition pkg.targets g none [] t ht with hc | hc
      · exact Option.noConfusion hc
      · exact hc
    have hA1 : ∀ e ∈ (pkgTargets load pkg.edition pkg.targets g none []).1.edges,
        e.1 < a → e.2.2 < a := by
      intro e he
      rw [hre] at he
      exact hA e he
    have hB1 : ∀ t,
        (pkgTargets load pkg.edition pkg.targets g none []).2.1 = some t →
        ∀ e ∈ (pkgTargets load pkg.edition pkg.targets g none []).1.edges,
          e.1 = t → e.2.2 < a := by
      intro t ht e he h1
      rw [hre] at he
      have h2 := hD e he
      have h3 := (hlibb t ht).1
      omega
    have hT1 : ∀ t,
        (pkgTargets load pkg.edition pkg.targets g none []).2.1 = some t →
        a ≤ t := by
      intro t ht
      have := (hlibb t ht).1
      omega
    have hF1 : ∀ f ∈ (pkgTargets load pkg.edition pkg.targets g none []).2.2,
        a ≤ f := by
      intro f hf
      have := (hids f hf).1
      omega
    obtain ⟨inew, imono, iA, iB, imembL, imembS, inodes⟩ :=
      pkgIntraEdges_spec a pkg.name
        (pkgTargets load pkg.edition pkg.targets g none []).2.1 libstd hT1 hstd
        (pkgTargets load pkg.edition pkg.targets g none []).2.2
        (pkgTargets load pkg.edition pkg.targets g none []).1 hA1 hB1 hF1
    have hlift : ∀ e ∈ g.edges,
        e ∈ (pkgIntraEdges pkg.name
          (pkgTargets load pkg.edition pkg.targets g none []).2.1 libstd
          (pkgTargets load pkg.edition pkg.targets g none []).2.2
          (pkgTargets load pkg.edition pkg.targets g none []).1).edges := by
      intro e he
      refine imono e ?_
      rw [hre]
      exact he
    have ha2 : a ≤ (pkgIntraEdges pkg.name
        (pkgTargets load pkg.edition pkg.targets g none []).2.1 libstd
        (pkgTargets load pkg.edition pkg.targets g none []).2.2
        (pkgTargets load pkg.edition pkg.targets g none []).1).nodes.length := by
      rw [inodes]
      omega
    have hD2 : ∀ e ∈ (pkgIntraEdges pkg.name
        (pkgTargets load pkg.edition pkg.targets g none []).2.1 libstd
        (pkgTargets load pkg.edition pkg.targets g none []).2.2
        (pkgTargets load pkg.edition pkg.targets g none []).1).edges,
        e.1 < (pkgIntraEdges pkg.name
          (pkgTargets load pkg.edition pkg.targets g none []).2.1 libstd
          (pkgTargets load pkg.edition pkg.targets g none []).2.2
          (pkgTargets load pkg.edition pkg.targets g none []).1).nodes.length := by
      intro e he
      rw [inodes]
      rcases inew e he with h2 | h2
      · rw [hre] at h2
        have := hD e h2
        omega
      · have := (hids e.1 h2).2
        omega
    have hmem_new : ∀ x,
        x ∈ (match (pkgTargets load pkg.edition pkg.targets g none []).2.1 with
          | some t => p2l0 ++ [(idx, t)]
          | none => p2l0) →
        x ∈ p2l0 ∨ ∃ t,
          (pkgTargets load pkg.edition pkg.targets g none []).2.1 = some t ∧
            x = (idx, t) := by
      intro x hx
      rcases hlib : (pkgTargets load pkg.edition pkg.targets g none []).2.1
        with _ | t
      · rw [hlib] at hx
        exact Or.inl hx
      · rw [hlib] at hx
        rcases List.mem_append.mp hx with hold | hnewx
        · exact Or.inl hold
        · exact Or.inr ⟨t, rfl, List.mem_singleton.mp hnewx⟩
    have hmem_old : ∀ x ∈ p2l0,
        x ∈ (match (pkgTargets load pkg.edition pkg.targets g none []).2.1 with
          | some t => p2l0 ++ [(idx, t)]
          | none => p2l0) := by
      intro x hx
      rcases hlib : (pkgTargets load pkg.edition pkg.targets g none []).2.1
        with _ | t
      · exact hx
      · exact List.mem_append.mpr (Or.inl hx)
    have hmem_lib : ∀ t,
        (pkgTargets load pkg.edition pkg.targets g none []).2.1 = some t →
        (idx, t) ∈ (match (pkgTargets load pkg.edition pkg.targets g none []).2.1 with
          | some t => p2l0 ++ [(idx, t)]
          | none => p2l0) := by
      intro t ht
      rw [ht]
      exact List.mem_append.mpr (Or.inr (List.mem_singleton.mpr rfl))
    have henum2 : ∀ qpk ∈ rest, PKS[qpk.1]? = some qpk.2 :=
      fun qpk hq => henum qpk (List.mem_cons_of_mem _ hq)
    have hfresh2 : ∀ qpk ∈ rest,
        (∀ x, (qpk.1, x) ∉ (match (pkgTargets load pkg.edition pkg.targets g none []).2.1 with
          | some t => p2l0 ++ [(idx, t)]
          | none => p2l0)) ∧
        (∀ x, (qpk.1, x) ∉ pcs0 ++ [(idx,
          (pkgTargets load pkg.edition pkg.targets g none []).2.2)]) := by
      intro qpk hq
      obtain ⟨hf1, hf2⟩ := hfresh qpk (List.mem_cons_of_mem _ hq)
      have hkne : idx ≠ qpk.1 := hhd qpk hq
      constructor
      · intro x hx
        rcases hmem_new (qpk.1, x) hx with hold | ⟨t, -, heq⟩
        · exact hf1 x hold
        · rw [Prod.mk.injEq] at heq
          exact hkne heq.1.symm
      · intro x hx
        rcases List.mem_append.mp hx with hold | hnewx
        · exact hf2 x hold
        · rw [List.mem_singleton] at hnewx
          rw [Prod.mk.injEq] at hnewx
          exact hkne hnewx.1.symm
    have hacc6b : ∀ p t froms pkg2,
        (p, t) ∈ (match (pkgTargets load pkg.edition pkg.targets g none []).2.1 with
          | some t => p2l0 ++ [(idx, t)]
          | none => p2l0) →
        (p, froms) ∈ pcs0 ++ [(idx,
          (pkgTargets load pkg.edition pkg.targets g none []).2.2)] →
        PKS[p]? = some pkg2 → ∀ f ∈ froms, f ≠ t →
          (f, pkg2.name, t) ∈ (pkgIntraEdges pkg.name
            (pkgTargets load pkg.edition pkg.targets g none []).2.1 libstd
            (pkgTargets load pkg.edition pkg.targets g none []).2.2
            (pkgTargets load pkg.edition pkg.targets g none []).1).edges := by
      intro p t froms pkg2 hp hf hPK f hfm hne
      rcases hmem_new (p, t) hp with hold | ⟨t2, hlib2, heq⟩
      · rcases List.mem_append.mp hf with hfold | hfnew
        · exact hlift _ (hacc6 p t froms pkg2 hold hfold hPK f hfm hne)
        · rw [List.mem_singleton, Prod.mk.injEq] at hfnew
          rw [hfnew.1] at hold
          exact absurd hold (hfp2l t)
      · rw [Prod.mk.injEq] at heq
        obtain ⟨hp1, hp2⟩ := heq
        rcases List.mem_append.mp hf with hfold | hfnew
        · rw [hp1] at hfold
          exact absurd hfold (hfpcs froms)
        · rw [List.mem_singleton, Prod.mk.injEq] at hfnew
          have h9 : PKS[idx]? = some pkg :=
            henum (idx, pkg) (List.mem_cons_self _ _)
          rw [hp1] at hPK
          rw [hPK] at h9
          have hpkg : pkg2 = pkg := Option.some.inj h9
          rw [hpkg, hp2]
          rw [hfnew.2] at hfm
          rw [hp2] at hne
          exact imembL t2 hlib2 f hfm hne
    have hacc7b : ∀ p froms,
        (p, froms) ∈ pcs0 ++ [(idx,
          (pkgTargets load pkg.edition pkg.targets g none []).2.2)] →
        ∀ st, libstd = some st → ∀ f ∈ froms,
          (f, "std", st) ∈ (pkgIntraEdges pkg.name
            (pkgTargets load pkg.edition pkg.targets g none []).2.1 libstd
            (pkgTargets load pkg.edition pkg.targets g none []).2.2
            (pkgTargets load pkg.edition pkg.targets g none []).1).edges := by
      intro p froms hf st hst f hfm
      rcases List.mem_append.mp hf with hfold | hfnew
      · exact hlift _ (hacc7 p froms hfold st hst f hfm)
      · rw [List.mem_singleton, Prod.mk.injEq] at hfnew
        rw [hfnew.2] at hfm
        exact imembS st hst f hfm
    obtain ⟨jmono, jA, jD, jha, jp2l, jpcs, jacc6, jacc7, jcover⟩ :=
      ih (pkgIntraEdges pkg.name
          (pkgTargets load pkg.edition pkg.targets g none []).2.1 libstd
          (pkgTargets load pkg.edition pkg.targets g none []).2.2
          (pkgTargets load pkg.edition pkg.targets g none []).1)
        (match (pkgTargets load pkg.edition pkg.targets g none []).2.1 with
          | some t => p2l0 ++ [(idx, t)]
          | none => p2l0)
        (pcs0 ++ [(idx, (pkgTargets load pkg.edition pkg.targets g none []).2.2)])
        ha2 iA hD2 henum2 hfresh2 hnd2 hacc6b hacc7b
    refine ⟨?_, jA, jD, jha, ?_, ?_, jacc6, jacc7, ?_⟩
    · intro e he
      exact jmono e (hlift e he)
    · intro x hx
      exact jp2l x (hmem_old x hx)
    · intro x hx
      exact jpcs x (List.mem_append.mpr (Or.inl hx))
    · intro qpk2 hq2
      rcases List.mem_cons.mp hq2 with hhd2 | htl2
      · subst hhd2
        refine ⟨(pkgTargets load pkg.edition pkg.targets g none []).2.2, ?_, ?_, ?_⟩
        · exact jpcs _ (List.mem_append.mpr
            (Or.inr (List.mem_singleton.mpr rfl)))
        · have hcount := pkgTargets_count load pkg.edition pkg.targets g none []
          simpa using hcount
        · intro hex
          have hsome := pkgTargets_lib_hit load pkg.edition pkg.targets g none [] hex
          obtain ⟨t, ht⟩ := Option.isSome_iff_exists.mp hsome
          exact ⟨t, jp2l _ (hmem_lib t ht)⟩
      · exact jcover qpk2 htl2


lemma addDepList_mono (name : String) (t : Nat) :
    ∀ (froms : List Nat) (g : CrateGraph) (e : Nat × String × Nat),
      e ∈ g.edges → e ∈ (addDepList name t froms g).edges := by
  intro froms
  induction froms with
  | nil => intro g e he; exact he
  | cons f rest ih =>
    intro g e he
    simp only [addDepList]
    exact ih _ e (addDepChecked_edges_mono g f name t e he)

lemma pkgDepEdges_mono (p2l : List (Nat × Nat)) (froms : List Nat) :
    ∀ (deps : List CargoDep) (g : CrateGraph) (e : Nat × String × Nat),
      e ∈ g.edges → e ∈ (pkgDepEdges p2l froms deps g).edges := by
  intro deps
  induction deps with
  | nil => intro g e he; exact he
  | cons dep rest ih =>
    intro g e he
    simp only [pkgDepEdges]
    rcases h1 : mapLookup p2l dep.pkg with _ | t
    · exact ih g e he
    · exact ih _ e (addDepList_mono dep.name t froms g e he)

lemma cargoInterLoop_mono (p2l : List (Nat × Nat))
    (pcs : List (Nat × List Nat)) :
    ∀ (l : List (Nat × CargoPackage)) (g : CrateGraph) (e : Nat × String × Nat),
      e ∈ g.edges → e ∈ (cargoInterLoop p2l pcs l g).edges := by
  intro l
  induction l with
  | nil => intro g e he; exact he
  | cons qpk rest ih =>
    intro g e he
    rcases qpk with ⟨idx, pkg⟩
    simp only [cargoInterLoop]
    exact ih _ e (pkgDepEdges_mono p2l _ pkg.dependencies g e he)

lemma enumFromL_mem_of_get {α : Type} :
    ∀ (l : List α) (i q : Nat) (x : α), l[q]? = some x →
      (i + q, x) ∈ enumFromL i l := by
  intro l
  induction l with
  | nil =>
    intro i q x h
    rw [List.getElem?_nil] at h
    exact Option.noConfusion h
  | cons y rest ih =>
    intro i q x h
    rcases q with _ | q2
    · rw [List.getElem?_cons_zero] at h
      rw [Option.some.inj h]
      exact List.mem_cons_self _ _
    · rw [List.getElem?_cons_succ] at h
      have hx := ih (i + 1) q2 x h
      have harr : i + (q2 + 1) = i + 1 + q2 := by omega
      rw [harr]
      exact List.mem_cons_of_mem _ hx

/-- C6: in the graph projected from a Cargo workspace, whenever the
package loop recorded a library crate `t` for package `p`
(`pkg_to_lib_crate`) and the crate list `froms` of package `p`
(`pkg_crates`), every crate of the package other than the library has an
edge named with the package name to the library, and every crate of the
package has an edge named `"std"` to the loaded sysroot `std` crate when
that crate is present; moreover every package has an entry in
`pkg_crates` with one crate per loaded target, and a `pkg_to_lib_crate`
entry as soon as some library-kind target loaded. -/
theorem claim_C6_cargo_edges (load : Path → Option FileId)
    (cargo : CargoWorkspaceModel) (sysroot : SysrootModel) :
    (∀ p t froms pkg,
      (p, t) ∈ (cargo_to_crate_graph_full load cargo sysroot).2.1 →
      (p, froms) ∈ (cargo_to_crate_graph_full load cargo sysroot).2.2 →
      cargo.packages[p]? = some pkg →
      ∀ f ∈ froms, f ≠ t →
        (f, pkg.name, t) ∈ (cargo_to_crate_graph load cargo sysroot).edges) ∧
    (∀ p froms st,
      (p, froms) ∈ (cargo_to_crate_graph_full load cargo sysroot).2.2 →
      cargoLibstd load sysroot = some st →
      ∀ f ∈ froms,
        (f, "std", st) ∈ (cargo_to_crate_graph load cargo sysroot).edges) ∧
    (∀ p pkg, cargo.packages[p]? = some pkg →
      ∃ froms,
        (p, froms) ∈ (cargo_to_crate_graph_full load cargo sysroot).2.2 ∧
        froms.length =
          (pkg.targets.filter (fun tgt => (load tgt.root).isSome)).length ∧
        ((∃ tgt ∈ pkg.targets, tgt.kind_lib = true ∧
            (load tgt.root).isSome = true) →
          ∃ t, (p, t) ∈ (cargo_to_crate_graph_full load cargo sysroot).2.1)) := by
  simp only [cargo_to_crate_graph, cargo_to_crate_graph_full]
  have hvals := sysrootPassOne_values load (enumL sysroot.crates) emptyGraph []
    (by intro kv hkv; exact absurd hkv (List.not_mem_nil _))
  have hn1 : (sysrootPassTwo sysroot
      (sysrootPassOne load (enumL sysroot.crates) emptyGraph []).2
      (enumL sysroot.crates)
      (sysrootPassOne load (enumL sysroot.crates) emptyGraph []).1).nodes =
      (sysrootPassOne load (enumL sysroot.crates) emptyGraph []).1.nodes :=
    sysrootPassTwo_nodes _ _ _ _
  have hbound := sysrootPassTwo_bound sysroot
    (sysrootPassOne load (enumL sysroot.crates) emptyGraph []).2
    (sysrootPassOne load (enumL sysroot.crates) emptyGraph []).1.nodes.length
    hvals (enumL sysroot.crates)
    (sysrootPassOne load (enumL sysroot.crates) emptyGraph []).1
    (by
      intro e he
      rw [sysrootPassOne_edges] at he
      exact absurd he (List.not_mem_nil _))
  have hstd : ∀ st, cargoLibstd load sysroot = some st →
      st < (sysrootPassOne load (enumL sysroot.crates) emptyGraph []).1.nodes.length := by
    intro st hst
    unfold cargoLibstd at hst
    rcases hss : sysrootStd sysroot with _ | i
    · rw [hss] at hst
      exact Option.noConfusion hst
    · rw [hss] at hst
      dsimp only [] at hst
      exact hvals _ (mapLookup_mem _ i st hst)
  obtain ⟨jmono, jA, jD, jha, jp2l, jpcs, jacc6, jacc7, jcover⟩ :=
    cargoPackLoop_spec load (cargoLibstd load sysroot)
      (sysrootPassOne load (enumL sysroot.crates) emptyGraph []).1.nodes.length
      cargo.packages hstd (enumL cargo.packages)
      (sysrootPassTwo sysroot
        (sysrootPassOne load (enumL sysroot.crates) emptyGraph []).2
        (enumL sysroot.crates)
        (sysrootPassOne load (enumL sysroot.crates) emptyGraph []).1)
      [] []
      (congrArg List.length hn1).ge
      (fun e he _ => (hbound e he).2)
      (fun e he => by
        rw [hn1]
        exact (hbound e he).1)
      (fun qpk hq => by
        have := enumFromL_get cargo.packages 0 qpk.1 qpk.2 hq
        rwa [Nat.sub_zero] at this)
      (fun qpk hq => ⟨fun x hx => absurd hx (List.not_mem_nil _),
        fun x hx => absurd hx (List.not_mem_nil _)⟩)
      (enumFromL_pairwise cargo.packages 0)
      (fun p t froms pkg hp => absurd hp (List.not_mem_nil _))
      (fun p froms hp => absurd hp (List.not_mem_nil _))
  refine ⟨?_, ?_, ?_⟩
  · intro p t froms pkg hp hf hPK f hfm hne
    exact cargoInterLoop_mono _ _ _ _ _
      (jacc6 p t froms pkg hp hf hPK f hfm hne)
  · intro p froms st hf hst f hfm
    exact cargoInterLoop_mono _ _ _ _ _ (jacc7 p froms hf st hst f hfm)
  · intro p pkg hPK
    have hmem : (p, pkg) ∈ enumL cargo.packages := by
      have := enumFromL_mem_of_get cargo.packages 0 p pkg hPK
      simpa using this
    exact jcover (p, pkg) hmem

/-- The concrete workspace used to witness C6: a sysroot with a loaded
`std` crate and one package with a binary and a library target. -/
def wSysroot : SysrootModel where
  crates := [{ root := ["sysroot", "std"], name := "std", deps := [] }]

def wPkg : CargoPackage where
  name := "mypkg"
  edition := Edition.edition2018
  targets := [{ root := ["bin"], kind_lib := false },
    { root := ["lib"], kind_lib := true }]
  dependencies := []

def wCargo : CargoWorkspaceModel where
  packages := [wPkg]

def wLoad : Path → Option FileId
  | ["sysroot", "std"] => some 100
  | ["bin"] => some 101
  | ["lib"] => some 102
  | _ => none

/-- Witness for C6: in the concrete workspace the binary crate (id 1)
gets an edge named `"mypkg"` to the library crate (id 2), both package
crates get `"std"` edges to the sysroot crate (id 0), and the package
has its `pkg_crates` and `pkg_to_lib_crate` entries. -/
theorem claim_C6_witness :
    (1, "mypkg", 2) ∈ (cargo_to_crate_graph wLoad wCargo wSysroot).edges ∧
    (1, "std", 0) ∈ (cargo_to_crate_graph wLoad wCargo wSysroot).edges ∧
    (2, "std", 0) ∈ (cargo_to_crate_graph wLoad wCargo wSysroot).edges ∧
    (∃ froms, (0, froms) ∈ (cargo_to_crate_graph_full wLoad wCargo wSysroot).2.2 ∧
      froms.length = 2) := by
  refine ⟨?_, ?_, ?_, ?_⟩
  · exact (claim_C6_cargo_edges wLoad wCargo wSysroot).1 0 2 [1, 2] wPkg
      (by decide) (by decide) (by decide) 1 (by decide) (by decide)
  · exact (claim_C6_cargo_edges wLoad wCargo wSysroot).2.1 0 [1, 2] 0
      (by decide) (by decide) 1 (by decide)
  · exact (claim_C6_cargo_edges wLoad wCargo wSysroot).2.1 0 [1, 2] 0
      (by decide) (by decide) 2 (by decide)
  · obtain ⟨froms, h1, h2, -⟩ :=
      (claim_C6_cargo_edges wLoad wCargo wSysroot).2.2 0 wPkg (by decide)
    refine ⟨froms, h1, ?_⟩
    rw [h2]
    decide

end RaSpec
